import Mathlib

/-!
# irsal: a bridge between an annotation service and a chat service

A shallow embedding of the synchronisation engine of the repository
(`internal/poller`, `internal/tbot`), of the relational store it runs on
(`internal/db`) and of the fakes its tests use (`internal/fake`, `FakeTg`),
followed by theorems about them.

Conventions of the embedding

* Go's `error` results are `Option Error` (`none` is `nil`); a pair
  `(value, error)` is `Except Error value`.
* A function that may fail to return (unbounded recursion, an endless loop,
  a second `Lock` on the store mutex) returns an `Option`: `none` means that
  the call does not return within the bound it was given.
* State that Go reaches through pointers is passed explicitly in a `World`.
  The `World` also carries a `trace`: the calls made, in order, to the
  external collaborators and the writing operations of the store.
-/

namespace Irsal

/-! ## Pieces of the Go library -/

/-- A `time.Time` instant, as nanoseconds since the Unix epoch. -/
abbrev Time := Int

/-- Conversion to `int64`: the integer of that type congruent to `x` modulo
2^64 (two's complement wrap-around), which is the result of `int64`
arithmetic on operands whose exact result is `x`. -/
def int64 (x : Int) : Int :=
  (x + 9223372036854775808) % 18446744073709551616 - 9223372036854775808

namespace time

/-- Method `t.After(u)`. -/
def After (t u : Time) : Bool := decide (u < t)

/-- Method `t.UnixMicro()`, in the library
`t.unixSec()*1e6 + int64(t.nsec())/1e3`, computed in `int64`: the seconds
since the epoch (rounded down) times 10^6, plus the whole microseconds of the
nanoseconds within the second. The nanoseconds below one microsecond are
dropped; the product and the sum wrap around for an instant whose
microseconds since the epoch do not fit an `int64` (before year -290307 or
after year 294246). -/
def UnixMicro (t : Time) : Int :=
  int64 (int64 (Int.fdiv t 1000000000 * 1000000) + t % 1000000000 / 1000)

/-- The instants whose microseconds since the epoch fit an `int64`: those
from -2^63 microseconds up to, and not including, 2^63 microseconds. -/
def Representable (t : Time) : Prop :=
  -9223372036854775808000 ≤ t ∧ t < 9223372036854775808000

instance (t : Time) : Decidable (Representable t) := by
  unfold Representable
  infer_instance

/-- Function `time.UnixMicro(usec)`. -/
def ofUnixMicro (usec : Int) : Time := usec * 1000

end time

namespace strings

/-- Character-level worker of `Join`. -/
def joinChars (sep : Char) : List (List Char) → List Char
  | [] => []
  | [x] => x
  | x :: y :: rest => x ++ sep :: joinChars sep (y :: rest)

/-- Character-level worker of `Split`: the pieces between the separators;
a string without separator is one piece, also when it is empty. -/
def splitChars (sep : Char) : List Char → List (List Char)
  | [] => [[]]
  | c :: cs =>
    if c = sep then [] :: splitChars sep cs
    else
      match splitChars sep cs with
      | [] => [[c]]
      | piece :: pieces => (c :: piece) :: pieces

/-- Function `strings.Join(elems, sep)` for a separator of one character. -/
def Join (elems : List String) (sep : Char) : String :=
  String.mk (joinChars sep (elems.map String.data))

/-- Function `strings.Split(s, sep)` for a separator of one character. -/
def Split (s : String) (sep : Char) : List String :=
  (splitChars sep s.data).map String.mk

end strings

/-- Go `error` values met in the program. -/
inductive Error where
  /-- The sentinel `common.ErrNotFound`. -/
  | ErrNotFound
  /-- The result of `ctxt.Err()` once the context is done. -/
  | Canceled
  /-- An error made by `fmt.Errorf`: the format and the rendered arguments. -/
  | Errorf (format : String) (args : List String)
  /-- An error of the database driver. -/
  | Sql (msg : String)
  /-- An error of an external service (annotation service, chat service). -/
  | External (msg : String)
  deriving DecidableEq, Repr

namespace Error

/-- The text of an error, standing for method `err.Error()` where an error is
formatted with `%v`. For an error made by `fmt.Errorf` the format and the
arguments are kept side by side: the substitution of the verbs that `fmt`
does is not modelled, and no statement below depends on the text. -/
def text : Error → String
  | ErrNotFound => "not found"
  | Canceled => "context canceled"
  | Errorf format args => format ++ " " ++ String.intercalate " " args
  | Sql msg => msg
  | External msg => msg

end Error

/-! ## internal/common -/

namespace common

/-- Struct `common.Subscription`. -/
structure Subscription where
  HypToken : String
  HypGroup : String
  SearchAfter : Time
  ChatID : Int
  deriving DecidableEq, Repr

/-- Struct `common.SubKey`. -/
structure SubKey where
  HypGroup : String
  ChatID : Int
  deriving DecidableEq, Repr

/-- Method `sub.Key()`. -/
def Subscription.Key (sub : Subscription) : SubKey := ⟨sub.HypGroup, sub.ChatID⟩

/-- Struct `common.AnnotationMetadata`. -/
structure AnnotationMetadata where
  References : List String
  HypGroup : String
  URI : String
  deriving DecidableEq, Repr

end common

/-! ## internal/db: the relational store -/

namespace db

/-- A row of table `AnnotationMessages`. Column `refs` is nullable. -/
structure AnnotationMessagesRow where
  annot_id : String
  refs : Option String
  hyp_group : String
  uri_id : Nat
  chat_id : Int
  message_id : Int
  deriving DecidableEq, Repr

/-- The condition `annot_id = ? and chat_id = ?` on a row. -/
def AnnotationMessagesRow.isFor (r : AnnotationMessagesRow) (annotID : String) (chatID : Int) :
    Bool :=
  decide (r.annot_id = annotID ∧ r.chat_id = chatID)

/-- The condition `chat_id = ? and message_id = ?` on a row. -/
def AnnotationMessagesRow.isAt (r : AnnotationMessagesRow) (chatID messageID : Int) : Bool :=
  decide (r.chat_id = chatID ∧ r.message_id = messageID)

/-- A row of table `Subscriptions`; `search_after` is in microseconds. -/
structure SubscriptionsRow where
  hyp_token : String
  hyp_group : String
  search_after : Int
  chat_id : Int
  deriving DecidableEq, Repr

/-- The condition `hyp_group = ? and chat_id = ?` on a row. -/
def SubscriptionsRow.hasKey (r : SubscriptionsRow) (group : String) (chatID : Int) : Bool :=
  decide (r.hyp_group = group ∧ r.chat_id = chatID)

/-- Struct `DbStorage`: the three tables, rows in insertion order, and the
mutex `mu`, field `mut` in the source (`true` while it is held). The row of `URIs` at index `i` has
rowid `i + 1`; rows are never deleted. -/
structure DbStorage where
  AnnotationMessages : List AnnotationMessagesRow
  SubscriptionsTable : List SubscriptionsRow
  URIs : List String
  mu : Bool
  deriving DecidableEq, Repr

/-- Function `NewInMemoryStorage`: empty tables, mutex free. -/
def NewInMemoryStorage : DbStorage := ⟨[], [], [], false⟩

namespace DbStorage

/-- Method `Lock`: `none` when the mutex is already held (the caller blocks). -/
def Lock (s : DbStorage) : Option DbStorage :=
  if s.mu then none else some { s with mu := true }

/-- Method `Unlock`. -/
def Unlock (s : DbStorage) : DbStorage := { s with mu := false }

/-- Method `MessageID`: takes the mutex, selects `message_id` of the row with
the given `annot_id` and `chat_id`, releases the mutex. -/
def MessageID (s : DbStorage) (annotID : String) (chatID : Int) : Option (Except Error Int) :=
  match s.Lock with
  | none => none
  | some s1 =>
    match s1.AnnotationMessages.find? (fun r => r.isFor annotID chatID) with
    | none => some (.error Error.ErrNotFound)
    | some r => some (.ok r.message_id)

/-- Method `uriID`: upsert of `uri` into `URIs`, returning the rowid. -/
def uriID (s : DbStorage) (uri : String) : Nat × DbStorage :=
  match s.URIs.indexOf? uri with
  | some i => (i + 1, s)
  | none => (s.URIs.length + 1, { s with URIs := s.URIs ++ [uri] })

/-- The two `unique` constraints of `AnnotationMessages`, as checked on an
insert of a row with these key columns. -/
def conflicts (s : DbStorage) (annotID : String) (chatID messageID : Int) : Bool :=
  s.AnnotationMessages.any (fun r => r.isFor annotID chatID || r.isAt chatID messageID)

/-- Method `SetMessageID`. The upsert of the URI and the insert of the
mapping are two statements: the first stays when the second fails. -/
def SetMessageID (s : DbStorage) (annotID : String) (meta : common.AnnotationMetadata)
    (chatID messageID : Int) : Option Error × DbStorage :=
  let (uriID, s1) := s.uriID meta.URI
  let refs_str : Option String :=
    if meta.References.length > 0 then some (strings.Join meta.References '|') else none
  if s1.conflicts annotID chatID messageID then
    (some (Error.Sql "UNIQUE constraint failed: AnnotationMessages"), s1)
  else
    (none, { s1 with AnnotationMessages :=
      s1.AnnotationMessages ++ [⟨annotID, refs_str, meta.HypGroup, uriID, chatID, messageID⟩] })

/-- Method `AnnotationID`: the row with the given `chat_id` and `message_id`,
left-joined with `URIs` on the rowid. A missing URI row makes `Scan` fail. -/
def AnnotationID (s : DbStorage) (chatID messageID : Int) :
    Except Error (String × common.AnnotationMetadata) :=
  match s.AnnotationMessages.find? (fun r => r.isAt chatID messageID) with
  | none => .error Error.ErrNotFound
  | some r =>
    match (if r.uri_id = 0 then none else s.URIs.get? (r.uri_id - 1)) with
    | none => .error (Error.Sql "converting NULL to string is unsupported")
    | some uri =>
      let refs : List String :=
        match r.refs with
        | some refs_str => strings.Split refs_str '|'
        | none => []
      .ok (r.annot_id, ⟨refs, r.hyp_group, uri⟩)

/-- Method `AddSubscription`: insert, refused by `unique (hyp_group, chat_id)`. -/
def AddSubscription (s : DbStorage) (sub : common.Subscription) : Option Error × DbStorage :=
  let searchAfter := time.UnixMicro sub.SearchAfter
  if s.SubscriptionsTable.any (fun r => r.hasKey sub.HypGroup sub.ChatID) then
    (some (Error.Sql "UNIQUE constraint failed: Subscriptions"), s)
  else
    (none, { s with SubscriptionsTable :=
      s.SubscriptionsTable ++ [⟨sub.HypToken, sub.HypGroup, searchAfter, sub.ChatID⟩] })

/-- Method `Subscription`. -/
def Subscription (s : DbStorage) (chatID : Int) (group : String) : Except Error common.Subscription :=
  match s.SubscriptionsTable.find? (fun r => r.hasKey group chatID) with
  | none => .error Error.ErrNotFound
  | some r => .ok ⟨r.hyp_token, group, time.ofUnixMicro r.search_after, chatID⟩

/-- Method `Subscriptions`: a copy of every row. -/
def Subscriptions (s : DbStorage) : Except Error (List common.Subscription) :=
  .ok (s.SubscriptionsTable.map
    (fun r => ⟨r.hyp_token, r.hyp_group, time.ofUnixMicro r.search_after, r.chat_id⟩))

/-- Method `UpdateSubscription`: sets token and watermark of the rows with the
key of `sub`; `ErrNotFound` when no row was affected. -/
def UpdateSubscription (s : DbStorage) (sub : common.Subscription) : Option Error × DbStorage :=
  let searchAfter := time.UnixMicro sub.SearchAfter
  let hit : SubscriptionsRow → Bool := fun r => r.hasKey sub.HypGroup sub.ChatID
  let nrows := s.SubscriptionsTable.countP hit
  let rows := s.SubscriptionsTable.map
    (fun r => if hit r then { r with hyp_token := sub.HypToken, search_after := searchAfter } else r)
  let s1 := { s with SubscriptionsTable := rows }
  if nrows = 0 then (some Error.ErrNotFound, s1)
  else if nrows > 1 then (some (Error.Errorf "%d subs updated; want 1" [toString nrows]), s1)
  else (none, s1)

end DbStorage

end db

/-! ## internal/hyp: the annotation service, as the engine sees it -/

namespace hyp

/-- Struct `hyp.Selectors`. -/
structure Selectors where
  TextQuote : Option String
  deriving DecidableEq, Repr

/-- Struct `hyp.Target`. -/
structure Target where
  Source : String
  Selectors : Selectors
  deriving DecidableEq, Repr

/-- Struct `hyp.Permissions`. -/
structure Permissions where
  Read : List String
  Admin : List String
  Update : List String
  Delete : List String
  deriving DecidableEq, Repr

/-- Struct `hyp.Annotation`. `Updated` is a pointer in the source: `none` is
`nil`. The entries of `Targets` are taken to be non-nil. -/
structure Annotation where
  ID : String
  Updated : Option Time
  User : String
  URI : String
  Text : String
  Group : String
  Permissions : Option Permissions
  Targets : List Target
  References : List String
  deriving DecidableEq, Repr

/-- Function `NewAnnotationTemplate`: the fields required to create an annotation. -/
def NewAnnotationTemplate (text group : String) (references : List String) (uri : String) :
    Annotation :=
  { ID := "", Updated := none, User := "", URI := uri, Text := text, Group := group,
    Permissions := some ⟨["group:" ++ group], [], [], []⟩, Targets := [],
    References := references }

/-- Interface `hyp.Client` over a service whose state has type `σ`: the two
reading calls leave the service as it is, `Reply` may change it. -/
structure Client (σ : Type) where
  Annotation : σ → String → Except Error Irsal.hyp.Annotation
  AnnotationsAfter : σ → Time → Except Error (List Irsal.hyp.Annotation)
  Reply : σ → String → List String → String → Except Error String × σ

/-- Interface `hyp.ClientFactory`. -/
structure ClientFactory (σ : Type) where
  NewClient : String → String → Client σ

end hyp

/-! ## The world the engine runs in -/

/-- A call made by the engine, with its result. `Send` also names the
annotation for which `handleAnnot` made the call. Reading calls on the store
are not recorded. `Handled` is a marker rather than a call: it records that
the call of `handleAnnot` made by `handleSub` on `annot` returned `res`. -/
inductive Event where
  | Handled (annot : hyp.Annotation) (res : Except Error Int)
  | Send (annotID : String) (chatID parentMessageID : Int) (text : String) (res : Except Error Int)
  | Annotation (id : String) (res : Except Error hyp.Annotation)
  | AnnotationsAfter (token group : String) (t : Time) (res : Except Error (List hyp.Annotation))
  | Reply (token group text : String) (refs : List String) (uri : String) (res : Except Error String)
  | SetMessageID (annotID : String) (meta : common.AnnotationMetadata) (chatID messageID : Int)
      (res : Option Error)
  | UpdateSubscription (sub : common.Subscription) (res : Option Error)
  | Lock
  | Unlock

/-- The state reached through the pointers of `Poller` and `Bot`: the
annotation service, the chat sender, the store, the poller's `Context`
(`none`: never cancelled; `some n`: the next `n` polls of `isDone` still see it
live, every later one sees it done) and the trace of calls so far. -/
structure World (σ τ : Type) where
  hyp : σ
  tg : τ
  Storage : db.DbStorage
  ctxt : Option Nat
  trace : List Event

namespace World

variable {σ τ : Type}

/-- Appends one call to the trace. -/
def log (w : World σ τ) (e : Event) : World σ τ := { w with trace := w.trace ++ [e] }

end World

/-- A message delivered to a chat: a `Send` that returned a message id,
with the annotation it was sent for. -/
structure Delivered where
  annotID : String
  ChatID : Int
  MessageID : Int
  ParentMessageID : Int
  Text : String
  deriving DecidableEq, Repr

namespace Event

/-- The message delivered by a call, if the call is a `Send` that succeeded. -/
def delivered? : Event → Option Delivered
  | Send annotID chatID parentMessageID text (.ok messageID) =>
    some ⟨annotID, chatID, messageID, parentMessageID, text⟩
  | _ => none

/-- Whether a call is a `Send`, successful or not. -/
def isSend : Event → Bool
  | Send _ _ _ _ _ => true
  | _ => false

/-- The id asked for, if the call is a point fetch of an annotation. -/
def fetched? : Event → Option String
  | Annotation id _ => some id
  | _ => none

/-- The annotation created, if the call is a `Reply`: its text, reference
chain and document URI, and the result of the call. -/
def replied? : Event → Option (String × List String × String × Except Error String)
  | Reply _ _ text refs uri res => some (text, refs, uri, res)
  | _ => none

/-- The subscription written, if the call is an `UpdateSubscription`. -/
def updated? : Event → Option common.Subscription
  | UpdateSubscription sub _ => some sub
  | _ => none

/-- The annotation, if the event marks that `handleSub` bridged it: its
call of `handleAnnot` returned no error. -/
def bridged? : Event → Option hyp.Annotation
  | Handled annot (.ok _) => some annot
  | _ => none

/-- Whether the call is a `Send` for annotation `annotID` into chat `chatID`. -/
def sendFor (annotID : String) (chatID : Int) : Event → Bool
  | Send a c _ _ _ => decide (a = annotID ∧ c = chatID)
  | _ => false

/-- Whether the call is a `SetMessageID` that created a mapping of
annotation `annotID` in chat `chatID`. -/
def mappingFor (annotID : String) (chatID : Int) : Event → Bool
  | SetMessageID a _ c _ none => decide (a = annotID ∧ c = chatID)
  | _ => false

/-- Whether the event marks that `handleSub` failed to bridge an annotation:
its call of `handleAnnot` returned an error. -/
def failed : Event → Bool
  | Handled _ (.error _) => true
  | _ => false

/-- The calls that `handleAnnot` makes. -/
def byHandleAnnot : Event → Bool
  | Send _ _ _ _ _ => true
  | Annotation _ _ => true
  | SetMessageID _ _ _ _ _ => true
  | _ => false

end Event

/-- The messages delivered in a trace, in order. -/
def deliveries (tr : List Event) : List Delivered := tr.filterMap Event.delivered?

/-- The `Send` calls of a trace, in order. -/
def sends (tr : List Event) : List Event := tr.filter Event.isSend

/-- The ids point-fetched in a trace, in order. -/
def fetches (tr : List Event) : List String := tr.filterMap Event.fetched?

/-- The `Reply` calls of a trace, in order. -/
def replies (tr : List Event) : List (String × List String × String × Except Error String) :=
  tr.filterMap Event.replied?

/-- The subscriptions written by `UpdateSubscription` in a trace, in order. -/
def updates (tr : List Event) : List common.Subscription := tr.filterMap Event.updated?

/-- The annotations that `handleSub` bridged in a trace, in order. -/
def bridged (tr : List Event) : List hyp.Annotation := tr.filterMap Event.bridged?

/-- The subscription asked for, if the call is a bulk fetch: token, group
and watermark. -/
def Event.bulkFetch? : Event → Option (String × String × Time)
  | Event.AnnotationsAfter token group t _ => some (token, group, t)
  | _ => none

/-- The bulk fetches of a trace, in order. -/
def bulkFetches (tr : List Event) : List (String × String × Time) :=
  tr.filterMap Event.bulkFetch?

/-! ## internal/poller -/

namespace poller

variable {σ τ : Type}

/-- Interface `poller.MessageSender` over a sender whose state has type `τ`. -/
structure MessageSender (τ : Type) where
  Send : τ → Int → Int → String → Except Error Int × τ

/-- Struct `poller.Poller`; the store it points to is `World.Storage`. -/
structure Poller (σ τ : Type) where
  Hyp : hyp.ClientFactory σ
  Tg : MessageSender τ

/-- Function `isDone`: one poll of the context. -/
def isDone (w : World σ τ) : Bool × World σ τ :=
  match w.ctxt with
  | none => (false, w)
  | some 0 => (true, w)
  | some (n + 1) => (false, { w with ctxt := some n })

/-- Function `RootMessageText`. -/
def RootMessageText (user text selection url : String) : String :=
  user ++ " selected \"" ++ selection ++ "\" and wrote \"" ++ text ++ "\"\n" ++ url

/-- Function `ReplyMessageText`. -/
def ReplyMessageText (user text url : String) : String :=
  user ++ " wrote \"" ++ text ++ "\"\n" ++ url

/-- The text `handleAnnot` composes (poller.go, lines 114 to 125). -/
def messageText (annot : hyp.Annotation) (parentMessageID : Int) : String :=
  if parentMessageID = 0 then
    let selection : String :=
      match annot.Targets with
      | target :: _ =>
        match target.Selectors.TextQuote with
        | some quote => quote
        | none => ""
      | [] => ""
    RootMessageText annot.User annot.Text selection ("https://hypothes.is/a/" ++ annot.ID)
  else
    ReplyMessageText annot.User annot.Text ("https://hypothes.is/a/" ++ annot.ID)

/-- Second half of `handleAnnot` (poller.go, lines 111 to 134): poll the
context, compose the text, send, record the mapping. -/
def handleAnnotSend (p : Poller σ τ) (annot : hyp.Annotation) (chatID parentMessageID : Int)
    (w : World σ τ) : Except Error Int × World σ τ :=
  match isDone w with
  | (true, w1) => (.error Error.Canceled, w1)
  | (false, w1) =>
    let text := messageText annot parentMessageID
    let sent := p.Tg.Send w1.tg chatID parentMessageID text
    let w2 := { w1 with tg := sent.2 }.log (Event.Send annot.ID chatID parentMessageID text sent.1)
    match sent.1 with
    | .error err =>
      (.error (Error.Errorf "failed to send message for annotation: %v" [err.text]), w2)
    | .ok messageID =>
      let meta : common.AnnotationMetadata := ⟨annot.References, annot.Group, annot.URI⟩
      let set := w2.Storage.SetMessageID annot.ID meta chatID messageID
      let w3 := { w2 with Storage := set.2 }.log
        (Event.SetMessageID annot.ID meta chatID messageID set.1)
      match set.1 with
      | some err => (.error err, w3)
      | none => (.ok messageID, w3)

/-- Method `handleAncestor`; `handleAnnot` is the method it calls back. -/
def handleAncestor
    (handleAnnot : hyp.Annotation → Int → hyp.Client σ → World σ τ →
      Option (Except Error Int × World σ τ))
    (annotID : String) (chatID : Int) (h : hyp.Client σ) (w : World σ τ) :
    Option (Except Error Int × World σ τ) :=
  let res := h.Annotation w.hyp annotID
  let w1 := w.log (Event.Annotation annotID res)
  match res with
  | .error err =>
    some (.error (Error.Errorf "failed to look up annotation %q: %v" [annotID, err.text]), w1)
  | .ok annot => handleAnnot annot chatID h w1

/-- Method `handleAnnot`. The first argument bounds the depth of the
recursion through `handleAncestor`, which the source does not bound. -/
def handleAnnot (p : Poller σ τ) :
    Nat → hyp.Annotation → Int → hyp.Client σ → World σ τ →
      Option (Except Error Int × World σ τ)
  | 0, _, _, _, _ => none
  | depth + 1, annot, chatID, h, w =>
    match w.Storage.MessageID annot.ID chatID with
    | none => none
    | some (.ok mID) => some (.ok mID, w)
    | some (.error err) =>
      if err ≠ Error.ErrNotFound then
        some (.error (Error.Errorf
          "failed to look up existing message for annotation %q: %v" [annot.ID, err.text]), w)
      else
        match annot.References.getLast? with
        | none => some (handleAnnotSend p annot chatID 0 w)
        | some parentAnnotID =>
          -- Annotation is a reply. Find the message to reply to:
          match w.Storage.MessageID parentAnnotID chatID with
          | none => none
          | some (.ok parentMessageID) => some (handleAnnotSend p annot chatID parentMessageID w)
          | some (.error perr) =>
            if perr = Error.ErrNotFound then
              match handleAncestor (handleAnnot p depth) parentAnnotID chatID h w with
              | none => none
              | some (.error aerr, w1) =>
                some (.error (Error.Errorf "failed to post ancestors of %q starting from %q: %v"
                  [annot.ID, parentAnnotID, aerr.text]), w1)
              | some (.ok parentMessageID, w1) =>
                some (handleAnnotSend p annot chatID parentMessageID w1)
            else
              some (.error (Error.Errorf
                "failed to look up existing message for annotation %q: %v"
                [parentAnnotID, perr.text]), w)

/-- The loop `for i, annot := range annots` of `handleSub`. The flag of the
result is `true` when the body ran `return nil`, and `false` when the range
was exhausted. -/
def handleSubRange (p : Poller σ τ) (depth : Nat) (h : hyp.Client σ) :
    List hyp.Annotation → common.Subscription → World σ τ →
      Option (Bool × common.Subscription × World σ τ)
  | [], sub, w => some (false, sub, w)
  | annot :: rest, sub, w =>
    match annot.Updated with
    | none => some (true, sub, w)
    | some updated =>
      match handleAnnot p depth annot sub.ChatID h w with
      | none => none
      | some (.error err, w1) =>
        -- Move on to the next subscription; next time try this annotation again
        some (true, sub, w1.log (Event.Handled annot (.error err)))
      | some (.ok mID, w1) =>
        let sub1 := { sub with SearchAfter := updated }
        let upd := (w1.log (Event.Handled annot (.ok mID))).Storage.UpdateSubscription sub1
        let w2 := { w1.log (Event.Handled annot (.ok mID)) with Storage := upd.2 }.log
          (Event.UpdateSubscription sub1 upd.1)
        handleSubRange p depth h rest sub1 w2

/-- The loop `for` of `handleSub`, at most `passes` times round. -/
def handleSubLoop (p : Poller σ τ) (depth : Nat) (h : hyp.Client σ) :
    Nat → common.Subscription → World σ τ →
      Option (Option Error × common.Subscription × World σ τ)
  | 0, _, _ => none
  | passes + 1, sub, w =>
    match isDone w with
    | (true, w0) => some (some Error.Canceled, sub, w0)
    | (false, w0) =>
      let res := h.AnnotationsAfter w0.hyp sub.SearchAfter
      let w1 := w0.log (Event.AnnotationsAfter sub.HypToken sub.HypGroup sub.SearchAfter res)
      match res with
      | .error _ => some (none, sub, w1)
      | .ok annots =>
        if annots.length = 0 then some (none, sub, w1)
        else
          match handleSubRange p depth h annots sub w1 with
          | none => none
          | some (true, sub1, w2) => some (none, sub1, w2)
          | some (false, sub1, w2) => handleSubLoop p depth h passes sub1 w2

/-- Method `handleSub`. The subscription is reached through a pointer in the
source; its final value is part of the result. -/
def handleSub (p : Poller σ τ) (depth passes : Nat) (sub : common.Subscription)
    (w : World σ τ) : Option (Option Error × common.Subscription × World σ τ) :=
  let h := p.Hyp.NewClient sub.HypToken sub.HypGroup
  handleSubLoop p depth h passes sub w

/-- The loop `for i, sub := range subs` of `RunOnce`. -/
def RunOnceRange (p : Poller σ τ) (depth passes : Nat) :
    List common.Subscription → Option Error → World σ τ → Option (Option Error × World σ τ)
  | [], lastErr, w => some (lastErr, w)
  | sub :: rest, lastErr, w =>
    match handleSub p depth passes sub w with
    | none => none
    | some (some err, _, w1) => RunOnceRange p depth passes rest (some err) w1
    | some (none, _, w1) => RunOnceRange p depth passes rest lastErr w1

/-- Method `RunOnce`. -/
def RunOnce (p : Poller σ τ) (depth passes : Nat) (w : World σ τ) :
    Option (Option Error × World σ τ) :=
  match w.Storage.Subscriptions with
  | .error err => some (some err, w)
  | .ok subs => RunOnceRange p depth passes subs none w

end poller

/-! ## internal/tbot -/

namespace tele

/-- Struct `tele.User` of the chat library, with the fields the engine reads. -/
structure User where
  FirstName : String
  LastName : String
  Username : String
  deriving DecidableEq, Repr

/-- Struct `tele.Chat` of the chat library, with the field the engine reads. -/
structure Chat where
  ID : Int
  deriving DecidableEq, Repr

/-- Struct `tele.Message` of the chat library, with the fields the engine
reads. `Sender` and `ReplyTo` are pointers that may be `nil`. -/
inductive Message where
  | mk (ID : Int) (Chat : Chat) (Sender : Option User) (Text : String)
      (ReplyTo : Option Message)

namespace Message

/-- Field `ID`. -/
def ID : Message → Int
  | mk id _ _ _ _ => id

/-- Field `Chat`. -/
def Chat : Message → tele.Chat
  | mk _ chat _ _ _ => chat

/-- Field `Sender`. -/
def Sender : Message → Option User
  | mk _ _ sender _ _ => sender

/-- Field `Text`. -/
def Text : Message → String
  | mk _ _ _ text _ => text

/-- Field `ReplyTo`. -/
def ReplyTo : Message → Option Message
  | mk _ _ _ _ replyTo => replyTo

end Message

end tele

namespace tbot

variable {σ τ : Type}

/-- Struct `tbot.Bot`; the store it points to is `World.Storage`. -/
structure Bot (σ : Type) where
  Token : String
  Hyp : hyp.ClientFactory σ

/-- Function `formatUser`, for a user that is not `nil`. -/
def formatUser (user : tele.User) : String :=
  let nameParts : List String :=
    (if user.FirstName ≠ "" then [user.FirstName] else []) ++
    (if user.LastName ≠ "" then [user.LastName] else [])
  let name : String := if nameParts.length > 0 then strings.Join nameParts ' ' else ""
  if user.Username ≠ "" then
    if name ≠ "" then name ++ " (" ++ user.Username ++ ")" else user.Username
  else if name ≠ "" then name
  else "Someone"

/-- Function `MessageText`: `none` when the sender of the message is `nil`,
where `formatUser` dereferences a nil pointer and the program panics. -/
def MessageText (msg : tele.Message) : Option String :=
  match msg.Sender with
  | none => none
  | some user => some (formatUser user ++ " wrote \"" ++ msg.Text ++ "\"")

/-- How a call of `onText` ends: it returns its `error`, or it panics. -/
inductive Outcome where
  | returned (err : Option Error)
  | panicked (msg : String)
  deriving DecidableEq, Repr

/-- Method `onText`. The deferred `Unlock` runs on every way out of the part
that follows `Lock`, the panic of `MessageText` included. -/
def onText (tb : Bot σ) (msg : Option tele.Message) (w : World σ τ) :
    Option (Outcome × World σ τ) :=
  match msg with
  | none => some (.returned none, w)
  | some msg =>
    match msg.ReplyTo with
    | none => some (.returned none, w)
    | some replyTo =>
      if replyTo.Chat.ID ≠ msg.Chat.ID then some (.returned none, w)
      else
        match w.Storage.AnnotationID msg.Chat.ID replyTo.ID with
        | .error err =>
          if err = Error.ErrNotFound then some (.returned none, w)
          else some (.returned (some (Error.Errorf
            "failed to look up annotation for message: %v" [err.text])), w)
        | .ok (parentAnnotID, parentMeta) =>
          match w.Storage.Subscription msg.Chat.ID parentMeta.HypGroup with
          | .error err =>
            if err = Error.ErrNotFound then some (.returned none, w)
            else some (.returned (some (Error.Errorf
              "failed to look up subscription for chat: %v" [err.text])), w)
          | .ok sub =>
            let refs := parentMeta.References ++ [parentAnnotID]
            -- Lock the storage so the poller can't try to look up the message ID
            -- for the annotation before we record it.
            match w.Storage.Lock with
            | none => none
            | some locked =>
              let w1 := { w with Storage := locked }.log Event.Lock
              let client := tb.Hyp.NewClient sub.HypToken sub.HypGroup
              match MessageText msg with
              | none =>
                some (.panicked "invalid memory address or nil pointer dereference",
                  { w1 with Storage := w1.Storage.Unlock }.log Event.Unlock)
              | some text =>
                let reply := client.Reply w1.hyp text refs parentMeta.URI
                let w2 := { w1 with hyp := reply.2 }.log
                  (Event.Reply sub.HypToken sub.HypGroup text refs parentMeta.URI reply.1)
                match reply.1 with
                | .error err =>
                  some (.returned (some err),
                    { w2 with Storage := w2.Storage.Unlock }.log Event.Unlock)
                | .ok annotID =>
                  let meta : common.AnnotationMetadata := ⟨refs, sub.HypGroup, parentMeta.URI⟩
                  let set := w2.Storage.SetMessageID annotID meta msg.Chat.ID msg.ID
                  let w3 := { w2 with Storage := set.2 }.log
                    (Event.SetMessageID annotID meta msg.Chat.ID msg.ID set.1)
                  some (.returned set.1,
                    { w3 with Storage := w3.Storage.Unlock }.log Event.Unlock)

end tbot

/-! ## The fakes of the tests -/

namespace fake

/-- Struct `fake.HypFactory`: the annotations of the fake service. The
observers, a hook of one test, are left out. -/
structure HypFactory where
  Annots : List hyp.Annotation
  deriving DecidableEq, Repr

/-- Function `NewHypFactory`. -/
def NewHypFactory (annots : List hyp.Annotation) : HypFactory := ⟨annots⟩

/-- Struct `fake.Hyp`; the factory it points to is passed to its methods. -/
structure Hyp where
  nextID : Nat
  token : String
  group : String
  deriving DecidableEq, Repr

namespace Hyp

/-- Method `Annotation` of the fake: the first annotation with the id. -/
def Annotation (_h : Hyp) (parent : HypFactory) (id : String) : Except Error hyp.Annotation :=
  match parent.Annots.find? (fun a => a.ID = id) with
  | some a => .ok a
  | none => .error Error.ErrNotFound

/-- Method `AnnotationsAfter` of the fake: the annotations of the group
updated after `t`, in the order of the factory. The fake dereferences
`Updated`; an annotation without it, on which the Go fake panics, is left
out here. -/
def AnnotationsAfter (h : Hyp) (parent : HypFactory) (t : Time) :
    Except Error (List hyp.Annotation) :=
  .ok (parent.Annots.filter (fun a =>
    decide (a.Group = h.group) &&
      (match a.Updated with
       | some updated => time.After updated t
       | none => false)))

/-- Method `Reply` of the fake; `now` is the reading of the clock. -/
def Reply (h : Hyp) (now : Time) (parent : HypFactory) (text : String)
    (references : List String) (uri : String) : Except Error String × Hyp × HypFactory :=
  let h1 := { h with nextID := h.nextID + 1 }
  let annot := { hyp.NewAnnotationTemplate text h.group references uri with
    ID := "a" ++ toString h1.nextID, Updated := some now }
  (.ok annot.ID, h1, { parent with Annots := parent.Annots ++ [annot] })

end Hyp

/-- Method `NewClient` of the fake factory, as a `hyp.Client`: the engine
calls `Reply` at most once on a client, so each `Reply` meets `nextID = 0`. -/
def NewClient (now : Time) (token group : String) : hyp.Client HypFactory :=
  let h : Hyp := ⟨0, token, group⟩
  { Annotation := h.Annotation
    AnnotationsAfter := h.AnnotationsAfter
    Reply := fun parent text references uri =>
      let r := h.Reply now parent text references uri
      (r.1, r.2.2) }

/-- The fake factory as a `hyp.ClientFactory`. -/
def ClientFactory (now : Time) : hyp.ClientFactory HypFactory := ⟨NewClient now⟩

/-- Struct `SentMessage` of the tests. -/
structure SentMessage where
  ChatID : Int
  MessageID : Int
  ParentMessageID : Int
  Text : String
  deriving DecidableEq, Repr

/-- Struct `FakeTg` of the tests. -/
structure FakeTg where
  NextMessageID : Int
  SentMessages : List SentMessage
  deriving DecidableEq, Repr

/-- Method `Send` of `FakeTg`. -/
def FakeTg.Send (tg : FakeTg) (chatID parentMessageID : Int) (text : String) :
    Except Error Int × FakeTg :=
  let next := tg.NextMessageID + 1
  let msg : SentMessage := ⟨chatID, next, parentMessageID, text⟩
  (.ok msg.MessageID, { NextMessageID := next, SentMessages := tg.SentMessages ++ [msg] })

/-- `FakeTg` as a `poller.MessageSender`. -/
def Sender : poller.MessageSender FakeTg := ⟨FakeTg.Send⟩

end fake

/-! ## Notions used in the statements -/

namespace db.DbStorage

/-- Whether the store holds a mapping of annotation `a` in chat `c`. -/
def mapped (s : DbStorage) (a : String) (c : Int) : Bool :=
  s.AnnotationMessages.any (fun r => r.isFor a c)

/-- The row that `SetMessageID` inserts. -/
def newRow (s : DbStorage) (a : String) (meta : common.AnnotationMetadata) (c m : Int) :
    AnnotationMessagesRow :=
  ⟨a, if meta.References.length > 0 then some (strings.Join meta.References '|') else none,
    meta.HypGroup, (s.uriID meta.URI).1, c, m⟩

/-- Store `s'` is store `s` grown: the mappings and the URIs of `s` are the
first rows of those of `s'`, and the mutex is in the same state. -/
structure Grown (s s' : DbStorage) : Prop where
  rows : ∃ rows, s'.AnnotationMessages = s.AnnotationMessages ++ rows
  uris : ∃ uris, s'.URIs = s.URIs ++ uris
  mu : s'.mu = s.mu

/-- Every mapping of store `s` is a mapping of store `s'`, unchanged: each
row of `AnnotationMessages` of `s` is a row of `s'`; a message id that `s`
returns for an annotation and a chat, `s'` returns too; an annotation id and
metadata (reference chain, group, document URI) that `s` returns for a chat
and a message, `s'` returns too. -/
def KeepsMappings (s s' : DbStorage) : Prop :=
  (∀ r ∈ s.AnnotationMessages, r ∈ s'.AnnotationMessages) ∧
  (∀ (a : String) (c m : Int), s.MessageID a c = some (.ok m) → s'.MessageID a c = some (.ok m)) ∧
  (∀ (c m : Int) (a : String) (meta : common.AnnotationMetadata),
    s.AnnotationID c m = .ok (a, meta) → s'.AnnotationID c m = .ok (a, meta))

/-- No two rows of `Subscriptions` carry the same group and chat id. -/
def UniqueSubscriptions (s : DbStorage) : Prop :=
  ∀ (g : String) (c : Int), s.SubscriptionsTable.countP (fun r => r.hasKey g c) ≤ 1

end db.DbStorage

namespace db

/-- The immediate parent of the annotation of a row, as the store reads the
reference chain back: the last piece of column `refs` split on `|`; none when
the column is NULL. -/
def AnnotationMessagesRow.parent? (r : AnnotationMessagesRow) : Option String :=
  match r.refs with
  | some refs_str => (strings.Split refs_str '|').getLast?
  | none => none

/-- Thread ancestry is closed in the store: every mapping whose reference
chain is not empty has the last entry of the chain mapped in the same chat. -/
def DbStorage.Closed (s : DbStorage) : Prop :=
  ∀ r ∈ s.AnnotationMessages, ∀ parent, r.parent? = some parent →
    s.mapped parent r.chat_id = true

end db

/-- World `w'` continues world `w`: same annotation service, same mutex
state and subscriptions, mappings and trace grown at the end. -/
structure World.Le {σ τ : Type} (w w' : World σ τ) : Prop where
  hyp : w'.hyp = w.hyp
  mu : w'.Storage.mu = w.Storage.mu
  subs : w'.Storage.SubscriptionsTable = w.Storage.SubscriptionsTable
  rows : ∃ rows, w'.Storage.AnnotationMessages = w.Storage.AnnotationMessages ++ rows
  trace : ∃ ext, w'.trace = w.trace ++ ext

namespace hyp

/-- A client whose point fetch returns the annotation with the id asked for. -/
def Client.Faithful {σ : Type} (h : Client σ) : Prop :=
  ∀ (s : σ) (id : String) (a : Irsal.hyp.Annotation), h.Annotation s id = .ok a → a.ID = id

/-- A client whose bulk fetch, on the service in state `s`, returns only
annotations updated strictly after the watermark asked for, in ascending
order of update time. -/
def Client.SortedAfter {σ : Type} (h : Client σ) (s : σ) : Prop :=
  ∀ (t : Time) (annots : List Irsal.hyp.Annotation),
    h.AnnotationsAfter s t = .ok annots →
      (∀ a ∈ annots, ∀ u, a.Updated = some u → t < u) ∧
      annots.Pairwise (fun a b => ∀ u v, a.Updated = some u → b.Updated = some v → u ≤ v)

end hyp

namespace poller

variable {σ τ : Type}

/-- Big-step reading of `handleAnnot`: how a call on `annot` in world `w`
ends, with which result and in which world. -/
inductive Bridged (p : Poller σ τ) (chatID : Int) (h : hyp.Client σ) :
    hyp.Annotation → World σ τ → Except Error Int → World σ τ → Prop where
  | mapped {annot w mID} :
    w.Storage.MessageID annot.ID chatID = some (.ok mID) →
    Bridged p chatID h annot w (.ok mID) w
  | root {annot w} :
    w.Storage.MessageID annot.ID chatID = some (.error Error.ErrNotFound) →
    annot.References.getLast? = none →
    Bridged p chatID h annot w (handleAnnotSend p annot chatID 0 w).1
      (handleAnnotSend p annot chatID 0 w).2
  | reply {annot w parentAnnotID parentMessageID} :
    w.Storage.MessageID annot.ID chatID = some (.error Error.ErrNotFound) →
    annot.References.getLast? = some parentAnnotID →
    w.Storage.MessageID parentAnnotID chatID = some (.ok parentMessageID) →
    Bridged p chatID h annot w (handleAnnotSend p annot chatID parentMessageID w).1
      (handleAnnotSend p annot chatID parentMessageID w).2
  | fetchFailed {annot w parentAnnotID err} :
    w.Storage.MessageID annot.ID chatID = some (.error Error.ErrNotFound) →
    annot.References.getLast? = some parentAnnotID →
    w.Storage.MessageID parentAnnotID chatID = some (.error Error.ErrNotFound) →
    h.Annotation w.hyp parentAnnotID = .error err →
    Bridged p chatID h annot w
      (.error (Error.Errorf "failed to post ancestors of %q starting from %q: %v"
        [annot.ID, parentAnnotID,
          (Error.Errorf "failed to look up annotation %q: %v" [parentAnnotID, err.text]).text]))
      (w.log (Event.Annotation parentAnnotID (.error err)))
  | ancestorFailed {annot w parentAnnotID parent err w1} :
    w.Storage.MessageID annot.ID chatID = some (.error Error.ErrNotFound) →
    annot.References.getLast? = some parentAnnotID →
    w.Storage.MessageID parentAnnotID chatID = some (.error Error.ErrNotFound) →
    h.Annotation w.hyp parentAnnotID = .ok parent →
    Bridged p chatID h parent (w.log (Event.Annotation parentAnnotID (.ok parent))) (.error err) w1 →
    Bridged p chatID h annot w
      (.error (Error.Errorf "failed to post ancestors of %q starting from %q: %v"
        [annot.ID, parentAnnotID, err.text])) w1
  | ancestor {annot w parentAnnotID parent parentMessageID w1} :
    w.Storage.MessageID annot.ID chatID = some (.error Error.ErrNotFound) →
    annot.References.getLast? = some parentAnnotID →
    w.Storage.MessageID parentAnnotID chatID = some (.error Error.ErrNotFound) →
    h.Annotation w.hyp parentAnnotID = .ok parent →
    Bridged p chatID h parent (w.log (Event.Annotation parentAnnotID (.ok parent)))
      (.ok parentMessageID) w1 →
    Bridged p chatID h annot w (handleAnnotSend p annot chatID parentMessageID w1).1
      (handleAnnotSend p annot chatID parentMessageID w1).2

/-- The annotations `ancs` are the ancestors met from `annot` by following
immediate parents, the parent of `annot` first: each one is what the point
fetch returns for the last reference of its child, neither that reference nor
the annotation fetched has a mapping in the chat, and the last one has no
references. -/
def UnmappedChain (h : hyp.Client σ) (service : σ) (s : db.DbStorage) (chatID : Int) :
    hyp.Annotation → List hyp.Annotation → Prop
  | annot, [] => annot.References.getLast? = none
  | annot, parent :: rest =>
    ∃ parentAnnotID, annot.References.getLast? = some parentAnnotID ∧
      s.MessageID parentAnnotID chatID = some (.error Error.ErrNotFound) ∧
      h.Annotation service parentAnnotID = .ok parent ∧
      s.MessageID parent.ID chatID = some (.error Error.ErrNotFound) ∧
      UnmappedChain h service s chatID parent rest

/-- What a successful `handleAnnot` did along a chain of unmapped ancestors:
`ext` are the calls it made and `rows` the mappings it added. -/
structure ChainBridged (chatID : Int) (annot : hyp.Annotation) (ancs : List hyp.Annotation)
    (m : Int) (ext : List Event) (rows : List db.AnnotationMessagesRow) : Prop where
  /-- One point fetch for each ancestor. -/
  fetched : (fetches ext).length = ancs.length
  /-- One `Send` for each annotation of the chain, and each returned a message id. -/
  sent : (sends ext).length = ancs.length + 1 ∧ (deliveries ext).length = ancs.length + 1
  /-- The messages are for the annotations of the chain, the root-most ancestor first. -/
  order : (deliveries ext).map (fun d => d.annotID) = (annot :: ancs).reverse.map (fun a => a.ID)
  /-- All of them go to the chat. -/
  chat : ∀ d ∈ deliveries ext, d.ChatID = chatID
  /-- The first one is a root send. -/
  first : ∀ d ∈ (deliveries ext).head?, d.ParentMessageID = 0
  /-- Each later one is a reply to the message sent just before it. -/
  threaded : (deliveries ext).Chain' (fun prev next => next.ParentMessageID = prev.MessageID)
  /-- The last one is the message of the annotation itself, whose id is returned. -/
  last : ∀ d ∈ (deliveries ext).getLast?, d.MessageID = m
  /-- One mapping for each message sent, in the same order. -/
  mappings : rows.map (fun r => (r.annot_id, r.chat_id, r.message_id))
    = (deliveries ext).map (fun d => (d.annotID, d.ChatID, d.MessageID))

/-- The watermark after `handleSub` made the calls `ext` from world `w` with
subscription `sub`, reaching `w'` with `sub'`: nothing moved when no
annotation was bridged; otherwise the subscription in memory carries the
update time of the last annotation bridged, and the store, when it holds the
subscription once, carries that time in whole microseconds. -/
structure Advanced (sub : common.Subscription) (w : World σ τ) (ext : List Event)
    (sub' : common.Subscription) (w' : World σ τ) : Prop where
  trace : w'.trace = w.trace ++ ext
  token : sub'.HypToken = sub.HypToken
  group : sub'.HypGroup = sub.HypGroup
  chat : sub'.ChatID = sub.ChatID
  count : ∀ g c, w'.Storage.SubscriptionsTable.countP (fun r => r.hasKey g c)
    = w.Storage.SubscriptionsTable.countP (fun r => r.hasKey g c)
  still : (bridged ext).getLast? = none →
    sub' = sub ∧ w'.Storage.SubscriptionsTable = w.Storage.SubscriptionsTable
  moved : ∀ a, (bridged ext).getLast? = some a →
    ∃ t, a.Updated = some t ∧ sub'.SearchAfter = t ∧
      (w.Storage.SubscriptionsTable.countP (fun r => r.hasKey sub.HypGroup sub.ChatID) = 1 →
        w'.Storage.Subscription sub.ChatID sub.HypGroup
          = .ok ⟨sub.HypToken, sub.HypGroup, time.ofUnixMicro (time.UnixMicro t), sub.ChatID⟩)

/-- The watermarks that the calls `ext` wrote, starting from subscription
`sub`, never decrease, and the last of them is the watermark of `sub'`. -/
structure Rising (sub : common.Subscription) (ext : List Event) (sub' : common.Subscription) :
    Prop where
  chain : List.Chain' (· ≤ ·) (sub.SearchAfter :: (updates ext).map (fun s => s.SearchAfter))
  last : (sub.SearchAfter :: (updates ext).map (fun s => s.SearchAfter)).getLast?
    = some sub'.SearchAfter

/-- A relation between a world, the calls made from it and the world
reached, that holds of every step the poller takes: a poll of the context, a
bulk fetch, a call of `handleAnnot`, the marker after it, a write of the
watermark; and that composes. -/
structure Respected (p : Poller σ τ) (Q : World σ τ → List Event → World σ τ → Prop) :
    Prop where
  nil : ∀ w, Q w [] w
  comp : ∀ {w w1 w2 : World σ τ} {e1 e2 : List Event}, Q w e1 w1 → Q w1 e2 w2 → Q w (e1 ++ e2) w2
  poll : ∀ w, Q w [] (isDone w).2
  fetch : ∀ (w : World σ τ) (token group : String) (t : Time)
    (res : Except Error (List hyp.Annotation)),
    Q w [Event.AnnotationsAfter token group t res] (w.log (Event.AnnotationsAfter token group t res))
  bridge : ∀ (d : Nat) (annot : hyp.Annotation) (chatID : Int) (h : hyp.Client σ)
    (w w' : World σ τ) (r : Except Error Int),
    handleAnnot p d annot chatID h w = some (r, w') → ∃ ext, Q w ext w'
  marker : ∀ (w : World σ τ) (annot : hyp.Annotation) (r : Except Error Int),
    Q w [Event.Handled annot r] (w.log (Event.Handled annot r))
  update : ∀ (w : World σ τ) (sub : common.Subscription),
    Q w [Event.UpdateSubscription sub (w.Storage.UpdateSubscription sub).1]
      ({ w with Storage := (w.Storage.UpdateSubscription sub).2 }.log
        (Event.UpdateSubscription sub (w.Storage.UpdateSubscription sub).1))

/-- While annotation `a` is mapped in chat `c`: it stays mapped, the calls
`ext` hold no `Send` for it into the chat and no new mapping of it in the
chat, and its mappings in the chat are the same rows. -/
def Kept (a : String) (c : Int) (w : World σ τ) (ext : List Event) (w' : World σ τ) : Prop :=
  w'.trace = w.trace ++ ext ∧
    (w.Storage.mapped a c = true →
      w'.Storage.mapped a c = true ∧
      (∀ e ∈ ext, e.sendFor a c = false ∧ e.mappingFor a c = false) ∧
      w'.Storage.AnnotationMessages.filter (fun r => r.isFor a c)
        = w.Storage.AnnotationMessages.filter (fun r => r.isFor a c))

/-- The text that an annotation selects, as `handleAnnot` reads it
(poller.go, lines 116 to 121): the `TextQuote` selector of its first target,
empty when there is none. -/
def selection (annot : hyp.Annotation) : String :=
  match annot.Targets with
  | target :: _ =>
    match target.Selectors.TextQuote with
    | some quote => quote
    | none => ""
  | [] => ""

/-- Following immediate parents from `annot` (the last entry of the reference
chain, resolved by point fetch on the service) reaches after `k` steps an
annotation that has no references or that is mapped in the chat. -/
def Reaches (h : hyp.Client σ) (service : σ) (s : db.DbStorage) (chatID : Int) :
    Nat → hyp.Annotation → Prop
  | 0, annot => annot.References.getLast? = none ∨ s.mapped annot.ID chatID = true
  | k + 1, annot =>
    ∃ parentAnnotID parent, annot.References.getLast? = some parentAnnotID ∧
      h.Annotation service parentAnnotID = .ok parent ∧ Reaches h service s chatID k parent

/-- The annotations of a list that are updated strictly after `t`. -/
def pending (annots : List hyp.Annotation) (t : Time) : List hyp.Annotation :=
  annots.filter (fun a =>
    match a.Updated with
    | some updated => time.After updated t
    | none => false)

/-- The per-subscription loop `handleSub` ran on each subscription of a list,
in the order of the list, each run starting in the world the one before it
left: from world `w` to world `w'`, the runs returning `errs`. -/
inductive Cycle (p : Poller σ τ) (depth passes : Nat) :
    List common.Subscription → World σ τ → List (Option Error) → World σ τ → Prop where
  | done (w : World σ τ) : Cycle p depth passes [] w [] w
  | next {sub sub' : common.Subscription} {rest : List common.Subscription}
      {w w1 w' : World σ τ} {err : Option Error} {errs : List (Option Error)} :
    handleSub p depth passes sub w = some (err, sub', w1) →
    Cycle p depth passes rest w1 errs w' →
    Cycle p depth passes (sub :: rest) w (err :: errs) w'

/-- The last error among the results `errs` of the runs, if any run
returned one. -/
def lastError (errs : List (Option Error)) : Option Error := (errs.filterMap id).getLast?

/-- The calls `ext` lead from world `w` to world `w'`, and a context that is
never cancelled stays so. -/
def Live (w : World σ τ) (ext : List Event) (w' : World σ τ) : Prop :=
  w'.trace = w.trace ++ ext ∧ (w.ctxt = none → w'.ctxt = none)

end poller

namespace tbot

variable {σ τ : Type}

/-- The calls that `onText` makes between `Lock` and `Unlock`, for a reply to
the message of annotation `parentAnnotID` with metadata `parentMeta` in chat
`chatID`, by message `messageID`, under subscription `sub`: none when
`MessageText` panics, the `Reply` alone when it fails, the `Reply` and the
`SetMessageID` otherwise. -/
def Window (parentAnnotID : String) (parentMeta : common.AnnotationMetadata)
    (sub : common.Subscription) (chatID messageID : Int) (calls : List Event) : Prop :=
  calls = [] ∨
  (∃ text err, calls = [Event.Reply sub.HypToken sub.HypGroup text
      (parentMeta.References ++ [parentAnnotID]) parentMeta.URI (.error err)]) ∨
  (∃ text annotID res, calls = [Event.Reply sub.HypToken sub.HypGroup text
      (parentMeta.References ++ [parentAnnotID]) parentMeta.URI (.ok annotID),
    Event.SetMessageID annotID
      ⟨parentMeta.References ++ [parentAnnotID], sub.HypGroup, parentMeta.URI⟩
      chatID messageID res])

/-- The world after `onText` bridged a chat reply: `hyp'` is the annotation
service after `Reply`, `store'` the store after the mapping was written (or
the store as it was, when `Reply` failed), `calls` the calls made between
`Lock` and `Unlock`. -/
def bridgedWorld (w : World σ τ) (service : σ) (store : db.DbStorage) (calls : List Event) :
    World σ τ :=
  { w with hyp := service, Storage := store, trace := w.trace ++ (Event.Lock :: calls ++ [Event.Unlock]) }

end tbot

/-! ## The data of the tests -/

namespace sample

/-- An annotation of group `grp` as the tests build them. -/
def annot (id : String) (updated : Time) (references : List String) (text : String) :
    hyp.Annotation :=
  { ID := id, Updated := some updated, User := "", URI := "", Text := text, Group := "grp",
    Permissions := none, Targets := [], References := references }

/-- The poller of the tests: fake annotation service, `FakeTg`. -/
def poller : poller.Poller fake.HypFactory fake.FakeTg := ⟨fake.ClientFactory 0, fake.Sender⟩

/-- The client that `handleSub` makes for the subscription of the tests. -/
def client : hyp.Client fake.HypFactory := fake.NewClient 0 "ht" "grp"

/-- The world of a poller test: the annotations of the fake service and one
subscription of chat 42 to group `grp`. -/
def world (annots : List hyp.Annotation) (searchAfter : Time) :
    World fake.HypFactory fake.FakeTg :=
  { hyp := fake.NewHypFactory annots, tg := ⟨0, []⟩,
    Storage := (db.NewInMemoryStorage.AddSubscription ⟨"ht", "grp", searchAfter, 42⟩).2,
    ctxt := none, trace := [] }

/-- Two annotations that name each other as parent: `a` is a reply to `b`
and `b` is a reply to `a`. -/
def looped : List hyp.Annotation :=
  [annot "a" 2000000000 ["b"] "A", annot "b" 3000000000 ["a"] "B"]

/-- Annotation `a1` of the tests: a root annotation. -/
def a1 : hyp.Annotation := annot "a1" 2000000000 [] "Parent"

/-- Annotation `a2` of the tests: a reply to `a1`. -/
def a2 : hyp.Annotation := annot "a2" 3000000000 ["a1"] "Child"

/-- The bot of the tests, on the fake annotation service; its clock reads
3 seconds. -/
def bot : tbot.Bot fake.HypFactory := ⟨"token", fake.ClientFactory 3000000000⟩

/-- The world of a test of the bot: chat 1 subscribed to group `g`, and a
past annotation `parentID` with reference chain `references`, posted as
message 2 of chat 1. -/
def chatWorld (annots : List hyp.Annotation) (parentID : String) (references : List String) :
    World fake.HypFactory fake.FakeTg :=
  { hyp := fake.NewHypFactory annots, tg := ⟨0, []⟩,
    Storage := ((db.NewInMemoryStorage.AddSubscription ⟨"hyptoken", "g", 1000000000, 1⟩).2.SetMessageID
      parentID ⟨references, "g", ""⟩ 1 2).2,
    ctxt := none, trace := [] }

/-- Message 3 of chat 1, sent by a user, in reply to message 2 of chat 1. -/
def reply : tele.Message :=
  .mk 3 ⟨1⟩ (some ⟨"Ann", "", "ann"⟩) "hello" (some (.mk 2 ⟨1⟩ none "" none))

/-- Annotation `a2` of test `TestPollerAfterBot`: a root annotation of group
`g`, updated one minute after the watermark. -/
def a2g : hyp.Annotation := { annot "a2" 61000000000 [] "Parent" with Group := "g" }

/-- The world of test `TestPollerAfterBot` after the bot handled the reply. -/
def afterReply : World fake.HypFactory fake.FakeTg :=
  match tbot.onText bot (some reply) (chatWorld [a2g] "a0" []) with
  | some (_, w) => w
  | none => chatWorld [a2g] "a0" []

/-- The world of test `TestPollerAfterBot` after the poll cycle that follows. -/
def afterPoll : World fake.HypFactory fake.FakeTg :=
  match poller.RunOnce sample.poller 1 4 afterReply with
  | some (_, w) => w
  | none => afterReply

/-- A world in which two annotations carry the same update time, after the
watermark: `a`, a root annotation, and `b`, a reply to an annotation that the
service does not hold. -/
def tied : World fake.HypFactory fake.FakeTg :=
  world [annot "a" 2000000000 [] "A", annot "b" 2000000000 ["gone"] "B"] 1000000000

/-- The world `tied` after one poll cycle. -/
def tiedOnce : World fake.HypFactory fake.FakeTg :=
  match poller.RunOnce sample.poller 2 3 tied with
  | some (_, w) => w
  | none => tied

/-- The world `tied` after two poll cycles. -/
def tiedTwice : World fake.HypFactory fake.FakeTg :=
  match poller.RunOnce sample.poller 2 3 tiedOnce with
  | some (_, w) => w
  | none => tiedOnce

/-- A world with two subscriptions: chat 42 to group `grp`, whose only
annotation `b` replies to an annotation that the service does not hold, and
chat 43 to group `g2`, whose only annotation `c` is a root annotation. -/
def twoChats : World fake.HypFactory fake.FakeTg :=
  { hyp := fake.NewHypFactory
      [annot "b" 2000000000 ["gone"] "B", { annot "c" 2000000000 [] "C" with Group := "g2" }],
    tg := ⟨0, []⟩,
    Storage := ((db.NewInMemoryStorage.AddSubscription ⟨"ht", "grp", 1000000000, 42⟩).2.AddSubscription
      ⟨"ht2", "g2", 1000000000, 43⟩).2,
    ctxt := none, trace := [] }

/-- The world `twoChats` after one poll cycle. -/
def twoChatsOnce : World fake.HypFactory fake.FakeTg :=
  match poller.RunOnce sample.poller 2 3 twoChats with
  | some (_, w) => w
  | none => twoChats

/-- The world `twoChats` after a poll cycle whose context is cancelled after
the first poll of it. -/
def twoChatsCancelled : World fake.HypFactory fake.FakeTg :=
  match poller.RunOnce sample.poller 2 3 { twoChats with ctxt := some 1 } with
  | some (_, w) => w
  | none => twoChats

/-- A root annotation on the document `https://example.com/doc`, by user
`ann`, that selects the words `some words` and says `nice`. -/
def quoted : hyp.Annotation :=
  { annot "a1" 2000000000 [] "nice" with
    User := "ann", URI := "https://example.com/doc",
    Targets := [⟨"https://example.com/doc", ⟨some "some words"⟩⟩] }

/-- A root annotation whose id holds a `|`. -/
def piped : hyp.Annotation := annot "p|q" 2000000000 [] "P"

/-- A reply to the annotation `piped`. -/
def pipedReply : hyp.Annotation := annot "b" 3000000000 ["p|q"] "B"

/-- The store of the tests of package `db` after `SetMessageID("a", g, 1, 2)`. -/
def store : db.DbStorage := (db.NewInMemoryStorage.SetMessageID "a" ⟨[], "g", ""⟩ 1 2).2

/-- The client of package `hyp` in front of a service that answers every
request with status 503: each call returns the error that the client makes of
that answer, and the service stays as it is. -/
def unavailable : hyp.ClientFactory fake.HypFactory :=
  ⟨fun _ _ =>
    { Annotation := fun _ _ =>
        .error (Error.Errorf "failed to perform fetch: status=%v; want 200" ["503"])
      AnnotationsAfter := fun _ _ =>
        .error (Error.Errorf "failed to perform search: status=%v; want 200" ["503"])
      Reply := fun service _ _ _ =>
        (.error (Error.Errorf "failed to perform create: status=%v; want 200" ["503"]), service) }⟩

/-- A world in which message 2 of chat 1 is mapped to annotation `a0` of group
`g`, and chat 1 has no subscription. -/
def unsubscribed : World fake.HypFactory fake.FakeTg :=
  { hyp := fake.NewHypFactory [], tg := ⟨0, []⟩,
    Storage := (db.NewInMemoryStorage.SetMessageID "a0" ⟨[], "g", ""⟩ 1 2).2,
    ctxt := none, trace := [] }

end sample

/-! ## Lemmas on the store -/

namespace db.DbStorage

theorem MessageID_of_free {s : DbStorage} (hfree : s.mu = false) (a : String) (c : Int) :
    s.MessageID a c =
      some (match s.AnnotationMessages.find? (fun r => r.isFor a c) with
        | none => .error Error.ErrNotFound
        | some r => .ok r.message_id) := by
  unfold MessageID Lock
  simp only [hfree, Bool.false_eq_true, ↓reduceIte]
  cases List.find? (fun r => r.isFor a c) s.AnnotationMessages <;> rfl

theorem free_of_MessageID {s : DbStorage} {a : String} {c : Int} {r : Except Error Int}
    (h : s.MessageID a c = some r) : s.mu = false := by
  unfold MessageID Lock at h
  cases hmu : s.mu
  · rfl
  · simp [hmu] at h

theorem uriID_frame (s : DbStorage) (uri : String) :
    (s.uriID uri).2.AnnotationMessages = s.AnnotationMessages ∧
    (s.uriID uri).2.SubscriptionsTable = s.SubscriptionsTable ∧
    (s.uriID uri).2.mu = s.mu := by
  unfold uriID
  cases s.URIs.indexOf? uri <;> simp

theorem SetMessageID_ok {s s' : DbStorage} {a : String} {meta : common.AnnotationMetadata}
    {c m : Int} (h : s.SetMessageID a meta c m = (none, s')) :
    s.conflicts a c m = false ∧
    s' = { (s.uriID meta.URI).2 with
      AnnotationMessages := s.AnnotationMessages ++ [s.newRow a meta c m] } := by
  unfold SetMessageID at h
  have hf := uriID_frame s meta.URI
  simp only at h
  split at h
  · simp at h
  · rename_i hc
    simp only [Prod.mk.injEq, true_and] at h
    refine ⟨?_, ?_⟩
    · simpa [conflicts, hf.1] using hc
    · rw [← h, hf.1]; rfl

theorem SetMessageID_err {s s' : DbStorage} {a : String} {meta : common.AnnotationMetadata}
    {c m : Int} {e : Error} (h : s.SetMessageID a meta c m = (some e, s')) :
    s' = (s.uriID meta.URI).2 := by
  unfold SetMessageID at h
  simp only at h
  split at h
  · simp only [Prod.mk.injEq] at h; exact h.2.symm
  · simp at h

end db.DbStorage

namespace db.DbStorage
theorem MessageID_error {s : DbStorage} {a : String} {c : Int} {e : Error}
    (h : s.MessageID a c = some (.error e)) : e = Error.ErrNotFound := by
  unfold MessageID at h
  split at h
  · simp at h
  · split at h
    · simp only [Option.some.injEq, Except.error.injEq] at h; exact h.symm
    · simp at h
end db.DbStorage

namespace poller
variable {σ τ : Type}

theorem handleAnnot_sound (p : Poller σ τ) (chatID : Int) (h : hyp.Client σ) :
    ∀ (depth : Nat) (annot : hyp.Annotation) (w : World σ τ) (r : Except Error Int)
      (w' : World σ τ),
      handleAnnot p depth annot chatID h w = some (r, w') → Bridged p chatID h annot w r w' := by
  intro depth
  induction depth with
  | zero => intro annot w r w' hres; simp [handleAnnot] at hres
  | succ d ih =>
    intro annot w r w' hres
    rw [handleAnnot] at hres
    cases hm : w.Storage.MessageID annot.ID chatID with
    | none => simp [hm] at hres
    | some res =>
      cases res with
      | ok mID =>
        simp only [hm, Option.some.injEq, Prod.mk.injEq] at hres
        obtain ⟨rfl, rfl⟩ := hres
        exact Bridged.mapped hm
      | error err =>
        have herr := db.DbStorage.MessageID_error hm
        subst herr
        simp only [hm, ne_eq, not_true_eq_false, ↓reduceIte] at hres
        cases hl : annot.References.getLast? with
        | none =>
          simp only [hl, Option.some.injEq] at hres
          have hb := Bridged.root (p := p) (h := h) hm hl
          rw [hres] at hb
          exact hb
        | some pid =>
          simp only [hl] at hres
          cases hpm : w.Storage.MessageID pid chatID with
          | none => simp [hpm] at hres
          | some pres =>
            cases pres with
            | ok pm =>
              simp only [hpm, Option.some.injEq] at hres
              have hb := Bridged.reply (p := p) (h := h) hm hl hpm
              rw [hres] at hb
              exact hb
            | error perr =>
              have hperr := db.DbStorage.MessageID_error hpm
              subst hperr
              simp only [hpm, ↓reduceIte, handleAncestor] at hres
              cases hfetch : h.Annotation w.hyp pid with
              | error e =>
                simp only [hfetch, Option.some.injEq, Prod.mk.injEq] at hres
                obtain ⟨rfl, rfl⟩ := hres
                exact Bridged.fetchFailed hm hl hpm hfetch
              | ok parent =>
                simp only [hfetch] at hres
                cases hrec : handleAnnot p d parent chatID h
                    (w.log (Event.Annotation pid (.ok parent))) with
                | none => simp [hrec] at hres
                | some out =>
                  obtain ⟨r1, w1⟩ := out
                  have hb := ih parent _ r1 w1 hrec
                  cases r1 with
                  | error e =>
                    simp only [hrec, Option.some.injEq, Prod.mk.injEq] at hres
                    obtain ⟨rfl, rfl⟩ := hres
                    exact Bridged.ancestorFailed hm hl hpm hfetch hb
                  | ok pm =>
                    simp only [hrec, Option.some.injEq] at hres
                    have hb2 := Bridged.ancestor hm hl hpm hfetch hb
                    rw [hres] at hb2
                    exact hb2

end poller

namespace strings

theorem splitChars_ne_nil (sep : Char) (cs : List Char) : splitChars sep cs ≠ [] := by
  cases cs with
  | nil => simp [splitChars]
  | cons c cs =>
    unfold splitChars
    split
    · simp
    · split <;> simp

theorem splitChars_piece (sep : Char) (x : List Char) (hx : sep ∉ x) :
    splitChars sep x = [x] := by
  induction x with
  | nil => rfl
  | cons c x ih =>
    have hc : c ≠ sep := fun h => hx (by simp [h])
    have hx' : sep ∉ x := fun h => hx (by simp [h])
    simp [splitChars, hc, ih hx']

theorem splitChars_append_sep (sep : Char) (x rest : List Char) (hx : sep ∉ x) :
    splitChars sep (x ++ sep :: rest) = x :: splitChars sep rest := by
  induction x with
  | nil => simp [splitChars]
  | cons c x ih =>
    have hc : c ≠ sep := fun h => hx (by simp [h])
    have hx' : sep ∉ x := fun h => hx (by simp [h])
    simp [splitChars, hc, ih hx']

theorem splitChars_joinChars (sep : Char) (l : List (List Char)) (hne : l ≠ [])
    (hl : ∀ x ∈ l, sep ∉ x) : splitChars sep (joinChars sep l) = l := by
  induction l with
  | nil => exact absurd rfl hne
  | cons x rest ih =>
    cases rest with
    | nil => simpa [joinChars] using splitChars_piece sep x (hl x (by simp))
    | cons y rest =>
      rw [joinChars, splitChars_append_sep sep x _ (hl x (by simp)),
        ih (by simp) (fun z hz => hl z (List.mem_cons_of_mem _ hz))]

/-- Joining with a separator and splitting again gives the list back, when
the list is not empty and no element contains the separator. -/
theorem Split_Join (sep : Char) (elems : List String) (hne : elems ≠ [])
    (hl : ∀ x ∈ elems, sep ∉ x.data) : Split (Join elems sep) sep = elems := by
  unfold Split Join
  rw [splitChars_joinChars sep _ (by simpa using hne)
    (by
      intro x hx
      obtain ⟨y, hy, rfl⟩ := List.mem_map.1 hx
      exact hl y hy)]
  rw [List.map_map]
  have : (String.mk ∘ String.data) = id := by funext s; rfl
  rw [this, List.map_id]

theorem splitChars_no_sep (sep : Char) (cs : List Char) :
    ∀ piece ∈ splitChars sep cs, sep ∉ piece := by
  induction cs with
  | nil => simp [splitChars]
  | cons c cs ih =>
    unfold splitChars
    split
    · intro piece hp
      rcases List.mem_cons.1 hp with rfl | hp
      · simp
      · exact ih piece hp
    · rename_i hc
      split
      · rename_i heq
        exact absurd heq (splitChars_ne_nil sep cs)
      · rename_i first others heq
        intro piece hp
        rw [heq] at ih
        rcases List.mem_cons.1 hp with rfl | hp
        · intro hmem
          rcases List.mem_cons.1 hmem with h | h
          · exact hc h.symm
          · exact ih first (by simp) h
        · exact ih piece (List.mem_cons_of_mem _ hp)

/-- No piece of a split contains the separator. -/
theorem Split_no_sep (sep : Char) (s : String) : ∀ x ∈ Split s sep, sep ∉ x.data := by
  intro x hx
  unfold Split at hx
  obtain ⟨piece, hp, rfl⟩ := List.mem_map.1 hx
  exact splitChars_no_sep sep s.data piece hp

end strings

namespace db.DbStorage

theorem uriID_get (s : DbStorage) (uri : String) :
    (s.uriID uri).1 ≠ 0 ∧ (s.uriID uri).2.URIs.get? ((s.uriID uri).1 - 1) = some uri := by
  unfold uriID
  cases hidx : s.URIs.indexOf? uri with
  | none => simp
  | some i =>
    simp only [ne_eq, Nat.add_one_ne_zero, not_false_eq_true, Nat.add_sub_cancel, true_and]
    unfold List.indexOf? at hidx
    obtain ⟨hlt, hp, -⟩ := List.findIdx?_eq_some_iff_getElem.1 hidx
    rw [List.get?_eq_getElem?, List.getElem?_eq_getElem hlt]
    simpa using hp

theorem MessageID_ok_append {s s' : DbStorage} {a : String} {c m : Int}
    {rows : List AnnotationMessagesRow} (h : s.MessageID a c = some (.ok m))
    (hmu : s'.mu = s.mu) (hrows : s'.AnnotationMessages = s.AnnotationMessages ++ rows) :
    s'.MessageID a c = some (.ok m) := by
  have hfree := free_of_MessageID h
  rw [MessageID_of_free hfree] at h
  rw [MessageID_of_free (hmu.trans hfree), hrows, List.find?_append]
  cases hf : List.find? (fun r => r.isFor a c) s.AnnotationMessages with
  | none => simp [hf] at h
  | some r => simpa [hf] using h

theorem newRow_isFor (s : DbStorage) (a : String) (meta : common.AnnotationMetadata)
    (c m : Int) : (s.newRow a meta c m).isFor a c = true := by
  simp [newRow, AnnotationMessagesRow.isFor]

theorem newRow_isAt (s : DbStorage) (a : String) (meta : common.AnnotationMetadata)
    (c m : Int) : (s.newRow a meta c m).isAt c m = true := by
  simp [newRow, AnnotationMessagesRow.isAt]

theorem conflicts_false {s : DbStorage} {a : String} {c m : Int}
    (h : s.conflicts a c m = false) :
    ∀ r ∈ s.AnnotationMessages, r.isFor a c = false ∧ r.isAt c m = false := by
  intro r hr
  unfold conflicts at h
  have := (List.any_eq_false.1 h) r hr
  simpa using this

/-- After a successful `SetMessageID` the annotation maps to the message. -/
theorem MessageID_of_set {s s' : DbStorage} {a : String} {meta : common.AnnotationMetadata}
    {c m : Int} (hfree : s.mu = false) (h : s.SetMessageID a meta c m = (none, s')) :
    s'.MessageID a c = some (.ok m) := by
  obtain ⟨hc, rfl⟩ := SetMessageID_ok h
  have hnone : List.find? (fun r => r.isFor a c) s.AnnotationMessages = none :=
    List.find?_eq_none.2 (fun r hr => by simp [(conflicts_false hc r hr).1])
  rw [MessageID_of_free (by simpa [(uriID_frame s meta.URI).2.2] using hfree)]
  simp only [List.find?_append, hnone, Option.none_or, List.find?_cons, newRow_isFor]
  simp [newRow]

/-- After a successful `SetMessageID` the message maps back to the
annotation, with the reference chain as the store encodes it. -/
theorem AnnotationID_of_set {s s' : DbStorage} {a : String} {meta : common.AnnotationMetadata}
    {c m : Int} (h : s.SetMessageID a meta c m = (none, s')) :
    s'.AnnotationID c m = .ok (a,
      ⟨if meta.References.length > 0 then strings.Split (strings.Join meta.References '|') '|'
        else [], meta.HypGroup, meta.URI⟩) := by
  obtain ⟨hc, rfl⟩ := SetMessageID_ok h
  have hnone : List.find? (fun r => r.isAt c m) s.AnnotationMessages = none :=
    List.find?_eq_none.2 (fun r hr => by simp [(conflicts_false hc r hr).2])
  obtain ⟨hne, hget⟩ := uriID_get s meta.URI
  unfold AnnotationID
  simp only [List.find?_append, hnone, Option.none_or, List.find?_cons, newRow_isAt]
  simp only [newRow, hne, ↓reduceIte, hget]
  by_cases hlen : meta.References.length > 0 <;> simp [hlen]

end db.DbStorage

namespace db.DbStorage

theorem UpdateSubscription_frame (s : DbStorage) (sub : common.Subscription) :
    (s.UpdateSubscription sub).2.AnnotationMessages = s.AnnotationMessages ∧
    (s.UpdateSubscription sub).2.URIs = s.URIs ∧
    (s.UpdateSubscription sub).2.mu = s.mu ∧
    (s.UpdateSubscription sub).2.SubscriptionsTable = s.SubscriptionsTable.map
      (fun r : SubscriptionsRow => if r.hasKey sub.HypGroup sub.ChatID then
        ({ r with hyp_token := sub.HypToken, search_after := time.UnixMicro sub.SearchAfter } :
          SubscriptionsRow)
        else r) := by
  unfold UpdateSubscription
  simp only
  split
  · exact ⟨rfl, rfl, rfl, rfl⟩
  · split <;> exact ⟨rfl, rfl, rfl, rfl⟩

theorem hasKey_update (r : SubscriptionsRow) (sub : common.Subscription) (g : String) (c : Int) :
    (if r.hasKey sub.HypGroup sub.ChatID then
        ({ r with hyp_token := sub.HypToken, search_after := time.UnixMicro sub.SearchAfter } :
          SubscriptionsRow)
      else r).hasKey g c = r.hasKey g c := by
  split <;> rfl

/-- The number of rows with a key is not changed by `UpdateSubscription`. -/
theorem UpdateSubscription_countP (s : DbStorage) (sub : common.Subscription) (g : String)
    (c : Int) :
    (s.UpdateSubscription sub).2.SubscriptionsTable.countP (fun r => r.hasKey g c)
      = s.SubscriptionsTable.countP (fun r => r.hasKey g c) := by
  rw [(UpdateSubscription_frame s sub).2.2.2, List.countP_map]
  congr 1
  funext r
  exact hasKey_update r sub g c

/-- `UpdateSubscription` returns no error when the key is in the table once. -/
theorem UpdateSubscription_ok (s : DbStorage) (sub : common.Subscription)
    (h : s.SubscriptionsTable.countP (fun r => r.hasKey sub.HypGroup sub.ChatID) = 1) :
    (s.UpdateSubscription sub).1 = none := by
  unfold UpdateSubscription
  simp [h]

/-- After `UpdateSubscription` on a key that is in the table, the
subscription read back has the token written and the watermark written,
in whole microseconds. -/
theorem Subscription_of_update (s : DbStorage) (sub : common.Subscription)
    (h : s.SubscriptionsTable.countP (fun r => r.hasKey sub.HypGroup sub.ChatID) = 1) :
    (s.UpdateSubscription sub).2.Subscription sub.ChatID sub.HypGroup
      = .ok ⟨sub.HypToken, sub.HypGroup, time.ofUnixMicro (time.UnixMicro sub.SearchAfter),
          sub.ChatID⟩ := by
  unfold Subscription
  rw [(UpdateSubscription_frame s sub).2.2.2, List.find?_map]
  have hcomp : ((fun r : SubscriptionsRow => r.hasKey sub.HypGroup sub.ChatID) ∘
      (fun r : SubscriptionsRow => if r.hasKey sub.HypGroup sub.ChatID then
        ({ r with hyp_token := sub.HypToken, search_after := time.UnixMicro sub.SearchAfter } :
          SubscriptionsRow) else r))
      = (fun r => r.hasKey sub.HypGroup sub.ChatID) := by
    funext r
    exact hasKey_update r sub _ _
  rw [hcomp]
  cases hf : List.find? (fun r => r.hasKey sub.HypGroup sub.ChatID) s.SubscriptionsTable with
  | none =>
    have : s.SubscriptionsTable.countP (fun r => r.hasKey sub.HypGroup sub.ChatID) = 0 := by
      rw [List.countP_eq_zero]
      intro r hr
      simpa using List.find?_eq_none.1 hf r hr
    omega
  | some r =>
    have hp : r.hasKey sub.HypGroup sub.ChatID = true := by
      have := List.find?_some hf
      simpa using this
    simp [hp]

/-- The subscription read from a table in which the key is present. -/
theorem Subscription_table_congr {s s' : DbStorage}
    (h : s'.SubscriptionsTable = s.SubscriptionsTable) (c : Int) (g : String) :
    s'.Subscription c g = s.Subscription c g := by
  unfold Subscription
  rw [h]

end db.DbStorage

/-! ## Lemmas on `handleAnnot` -/

namespace World
variable {σ τ : Type}

theorem Le.refl (w : World σ τ) : w.Le w :=
  ⟨rfl, rfl, rfl, ⟨[], by simp⟩, ⟨[], by simp⟩⟩

theorem Le.trans {w1 w2 w3 : World σ τ} (h12 : w1.Le w2) (h23 : w2.Le w3) : w1.Le w3 := by
  obtain ⟨r1, hr1⟩ := h12.rows
  obtain ⟨r2, hr2⟩ := h23.rows
  obtain ⟨e1, he1⟩ := h12.trace
  obtain ⟨e2, he2⟩ := h23.trace
  exact ⟨h23.hyp.trans h12.hyp, h23.mu.trans h12.mu, h23.subs.trans h12.subs,
    ⟨r1 ++ r2, by rw [hr2, hr1, List.append_assoc]⟩,
    ⟨e1 ++ e2, by rw [he2, he1, List.append_assoc]⟩⟩

theorem Le.log (w : World σ τ) (e : Event) : w.Le (w.log e) :=
  ⟨rfl, rfl, rfl, ⟨[], by simp [World.log]⟩, ⟨[e], rfl⟩⟩

end World

namespace poller
variable {σ τ : Type}

theorem isDone_false {w w1 : World σ τ} (h : isDone w = (false, w1)) :
    w1.hyp = w.hyp ∧ w1.tg = w.tg ∧ w1.Storage = w.Storage ∧ w1.trace = w.trace ∧
      w.ctxt ≠ some 0 := by
  unfold isDone at h
  split at h
  · simp only [Prod.mk.injEq, true_and] at h; subst h; simp [*]
  · simp at h
  · simp only [Prod.mk.injEq, true_and] at h; subst h; simp [*]

theorem isDone_true {w w1 : World σ τ} (h : isDone w = (true, w1)) :
    w1 = w ∧ w.ctxt = some 0 := by
  unfold isDone at h
  split at h
  · simp at h
  · simp only [Prod.mk.injEq, true_and] at h; exact ⟨h.symm, by assumption⟩
  · simp at h

theorem isDone_of_live {w : World σ τ} (h : w.ctxt = none) : isDone w = (false, w) := by
  unfold isDone; rw [h]

/-- What a successful second half of `handleAnnot` did. -/
theorem handleAnnotSend_ok {p : Poller σ τ} {annot : hyp.Annotation} {chatID pm m : Int}
    {w w' : World σ τ} (h : handleAnnotSend p annot chatID pm w = (.ok m, w')) :
    ∃ w1 tg' st',
      isDone w = (false, w1) ∧
      p.Tg.Send w.tg chatID pm (messageText annot pm) = (.ok m, tg') ∧
      w.Storage.SetMessageID annot.ID ⟨annot.References, annot.Group, annot.URI⟩ chatID m
        = (none, st') ∧
      w' = { hyp := w.hyp, tg := tg', Storage := st', ctxt := w1.ctxt,
             trace := w.trace ++
               [Event.Send annot.ID chatID pm (messageText annot pm) (.ok m),
                Event.SetMessageID annot.ID ⟨annot.References, annot.Group, annot.URI⟩
                  chatID m none] } := by
  unfold handleAnnotSend at h
  split at h
  · simp at h
  · rename_i w1 hd
    obtain ⟨hh, htg, hst, htr, -⟩ := isDone_false hd
    simp only at h
    split at h
    · simp at h
    · rename_i mid hsend
      split at h
      · simp at h
      · rename_i hset
        simp only [Prod.mk.injEq, Except.ok.injEq] at h
        obtain ⟨rfl, rfl⟩ := h
        refine ⟨w1, (p.Tg.Send w.tg chatID pm (messageText annot pm)).2,
          (w.Storage.SetMessageID annot.ID ⟨annot.References, annot.Group, annot.URI⟩
            chatID mid).2, hd, ?_, ?_, ?_⟩
        · rw [htg] at hsend
          exact Prod.ext hsend rfl
        · simp only [World.log, hst] at hset
          exact Prod.ext hset rfl
        · simp only [World.log, hst] at hset
          rw [htg] at hsend
          simp [World.log, hh, htg, hst, htr, hsend, hset]

theorem handleAnnotSend_le (p : Poller σ τ) (annot : hyp.Annotation) (chatID pm : Int)
    (w : World σ τ) : w.Le (handleAnnotSend p annot chatID pm w).2 := by
  unfold handleAnnotSend
  split
  · rename_i w1 hd
    rw [(isDone_true hd).1]
    exact World.Le.refl w
  · rename_i w1 hd
    obtain ⟨hh, htg, hst, htr, -⟩ := isDone_false hd
    simp only
    have hf := db.DbStorage.uriID_frame w.Storage annot.URI
    split
    · exact ⟨by simp [World.log, hh], by simp [World.log, hst], by simp [World.log, hst],
        ⟨[], by simp [World.log, hst]⟩,
        ⟨[Event.Send annot.ID chatID pm (messageText annot pm)
            (p.Tg.Send w1.tg chatID pm (messageText annot pm)).1], by simp [World.log, htr]⟩⟩
    · rename_i mid hsend
      cases hset : w.Storage.SetMessageID annot.ID ⟨annot.References, annot.Group, annot.URI⟩
        chatID mid with
      | mk e st =>
        cases e with
        | none =>
          obtain ⟨-, hst'⟩ := db.DbStorage.SetMessageID_ok hset
          simp only [World.log, hst, hset]
          exact ⟨hh, by rw [hst']; exact hf.2.2, by rw [hst']; exact hf.2.1,
            ⟨_, by rw [hst']⟩,
            ⟨[Event.Send annot.ID chatID pm (messageText annot pm)
                (p.Tg.Send w1.tg chatID pm (messageText annot pm)).1,
              Event.SetMessageID annot.ID ⟨annot.References, annot.Group, annot.URI⟩ chatID mid
                none], by simp [htr]⟩⟩
        | some e =>
          have hst' := db.DbStorage.SetMessageID_err hset
          simp only [World.log, hst, hset]
          exact ⟨hh, by rw [hst']; exact hf.2.2, by rw [hst']; exact hf.2.1,
            ⟨[], by rw [hst', hf.1]; simp⟩,
            ⟨[Event.Send annot.ID chatID pm (messageText annot pm)
                (p.Tg.Send w1.tg chatID pm (messageText annot pm)).1,
              Event.SetMessageID annot.ID ⟨annot.References, annot.Group, annot.URI⟩ chatID mid
                (some e)], by simp [htr]⟩⟩

theorem Bridged.le {p : Poller σ τ} {chatID : Int} {h : hyp.Client σ} {annot : hyp.Annotation}
    {w w' : World σ τ} {r : Except Error Int} (hb : Bridged p chatID h annot w r w') :
    w.Le w' := by
  induction hb with
  | mapped _ => exact World.Le.refl _
  | root _ _ => exact handleAnnotSend_le ..
  | reply _ _ _ => exact handleAnnotSend_le ..
  | fetchFailed _ _ _ _ => exact World.Le.log ..
  | ancestorFailed _ _ _ _ _ ih => exact (World.Le.log ..).trans ih
  | ancestor _ _ _ _ _ ih => exact ((World.Le.log ..).trans ih).trans (handleAnnotSend_le ..)

end poller

namespace db.DbStorage

theorem mapped_append {s s' : DbStorage} {a : String} {c : Int}
    {rows : List AnnotationMessagesRow} (h : s.mapped a c = true)
    (hrows : s'.AnnotationMessages = s.AnnotationMessages ++ rows) : s'.mapped a c = true := by
  unfold mapped at *
  rw [hrows, List.any_append, h, Bool.true_or]

theorem mapped_of_MessageID {s : DbStorage} {a : String} {c m : Int}
    (h : s.MessageID a c = some (.ok m)) : s.mapped a c = true := by
  rw [MessageID_of_free (free_of_MessageID h)] at h
  cases hf : List.find? (fun r => r.isFor a c) s.AnnotationMessages with
  | none => simp [hf] at h
  | some r =>
    unfold mapped
    have hp : r.isFor a c = true := by
      have := List.find?_some hf
      simpa using this
    exact List.any_eq_true.2 ⟨r, List.mem_of_find?_eq_some hf, hp⟩

theorem not_mapped_of_MessageID {s : DbStorage} {a : String} {c : Int} {e : Error}
    (h : s.MessageID a c = some (.error e)) : s.mapped a c = false := by
  rw [MessageID_of_free (free_of_MessageID h)] at h
  cases hf : List.find? (fun r => r.isFor a c) s.AnnotationMessages with
  | none =>
    unfold mapped
    rw [List.any_eq_false]
    intro r hr
    simpa using List.find?_eq_none.1 hf r hr
  | some r => simp [hf] at h

theorem not_mapped_of_conflicts {s : DbStorage} {a : String} {c m : Int}
    (h : s.conflicts a c m = false) : s.mapped a c = false := by
  unfold mapped
  rw [List.any_eq_false]
  intro r hr
  simp [(conflicts_false h r hr).1]

end db.DbStorage

namespace World
variable {σ τ : Type}

theorem Le.MessageID_ok {w w' : World σ τ} (hle : w.Le w') {a : String} {c m : Int}
    (h : w.Storage.MessageID a c = some (.ok m)) : w'.Storage.MessageID a c = some (.ok m) := by
  obtain ⟨rows, hrows⟩ := hle.rows
  exact db.DbStorage.MessageID_ok_append h hle.mu hrows

theorem Le.mapped {w w' : World σ τ} (hle : w.Le w') {a : String} {c : Int}
    (h : w.Storage.mapped a c = true) : w'.Storage.mapped a c = true := by
  obtain ⟨rows, hrows⟩ := hle.rows
  exact db.DbStorage.mapped_append h hrows

end World

namespace poller
variable {σ τ : Type}

/-- A successful second half of `handleAnnot` leaves the annotation mapped
to the message id it returns. -/
theorem handleAnnotSend_mapped {p : Poller σ τ} {annot : hyp.Annotation} {chatID pm m : Int}
    {w w' : World σ τ} (hfree : w.Storage.mu = false)
    (h : handleAnnotSend p annot chatID pm w = (.ok m, w')) :
    w'.Storage.MessageID annot.ID chatID = some (.ok m) := by
  obtain ⟨w1, tg', st', -, -, hset, rfl⟩ := handleAnnotSend_ok h
  exact db.DbStorage.MessageID_of_set hfree hset

/-- After a successful `handleAnnot` the annotation is mapped to the message
id returned. -/
theorem Bridged.mapped_of_ok {p : Poller σ τ} {chatID : Int} {h : hyp.Client σ}
    {annot : hyp.Annotation} {w w' : World σ τ} {r : Except Error Int}
    (hb : Bridged p chatID h annot w r w') (m : Int) (hr : r = .ok m) :
    w'.Storage.MessageID annot.ID chatID = some (.ok m) := by
  cases hb with
  | mapped hm => cases hr; exact hm
  | root hm _ =>
    exact handleAnnotSend_mapped (db.DbStorage.free_of_MessageID hm) (Prod.ext hr rfl)
  | reply hm _ _ =>
    exact handleAnnotSend_mapped (db.DbStorage.free_of_MessageID hm) (Prod.ext hr rfl)
  | fetchFailed _ _ _ _ => cases hr
  | ancestorFailed _ _ _ _ _ => cases hr
  | ancestor hm _ _ _ hrec =>
    have hle := (World.Le.log w _).trans hrec.le
    exact handleAnnotSend_mapped (hle.mu.trans (db.DbStorage.free_of_MessageID hm))
      (Prod.ext hr rfl)

/-- The calls in the trace of a `handleAnnot` are `Annotation`, `Send` and
`SetMessageID` calls. -/
theorem Bridged.trace {p : Poller σ τ} {chatID : Int} {h : hyp.Client σ}
    {annot : hyp.Annotation} {w w' : World σ τ} {r : Except Error Int}
    (hb : Bridged p chatID h annot w r w') :
    ∃ ext, w'.trace = w.trace ++ ext ∧ ∀ e ∈ ext, e.byHandleAnnot = true := by
  have hsend : ∀ (annot : hyp.Annotation) (pm : Int) (w : World σ τ),
      ∃ ext, (handleAnnotSend p annot chatID pm w).2.trace = w.trace ++ ext ∧
        ∀ e ∈ ext, e.byHandleAnnot = true := by
    intro annot pm w
    unfold handleAnnotSend
    split
    · rename_i w1 hd
      exact ⟨[], by simp [(isDone_true hd).1], by simp⟩
    · rename_i w1 hd
      obtain ⟨-, -, -, htr, -⟩ := isDone_false hd
      simp only
      split
      · exact ⟨[Event.Send annot.ID chatID pm (messageText annot pm)
            (p.Tg.Send w1.tg chatID pm (messageText annot pm)).1],
          by simp only [World.log, htr], by simp [Event.byHandleAnnot]⟩
      · rename_i mid _
        refine ⟨[Event.Send annot.ID chatID pm (messageText annot pm)
            (p.Tg.Send w1.tg chatID pm (messageText annot pm)).1,
          Event.SetMessageID annot.ID ⟨annot.References, annot.Group, annot.URI⟩ chatID mid
            (({ w1 with tg := (p.Tg.Send w1.tg chatID pm (messageText annot pm)).2 }.log
              (Event.Send annot.ID chatID pm (messageText annot pm)
                (p.Tg.Send w1.tg chatID pm (messageText annot pm)).1)).Storage.SetMessageID
              annot.ID ⟨annot.References, annot.Group, annot.URI⟩ chatID mid).1], ?_, ?_⟩
        · split <;> simp [World.log, htr]
        · simp [Event.byHandleAnnot]
  induction hb with
  | mapped _ => exact ⟨[], by simp, by simp⟩
  | root _ _ => exact hsend ..
  | reply _ _ _ => exact hsend ..
  | fetchFailed _ _ _ _ => exact ⟨[_], rfl, by simp [Event.byHandleAnnot]⟩
  | @ancestorFailed annot w pid parent err w1 _ _ _ _ _ ih =>
    obtain ⟨ext, hext, hall⟩ := ih
    refine ⟨Event.Annotation pid (.ok parent) :: ext, by simp [hext, World.log], ?_⟩
    intro e he
    rcases List.mem_cons.1 he with rfl | he
    · rfl
    · exact hall e he
  | @ancestor annot w pid parent pm w1 _ _ _ _ _ ih =>
    obtain ⟨ext, hext, hall⟩ := ih
    obtain ⟨ext2, hext2, hall2⟩ := hsend annot pm w1
    refine ⟨Event.Annotation pid (.ok parent) :: ext ++ ext2,
      by simp [hext2, hext, World.log], ?_⟩
    intro e he
    rcases List.mem_append.1 he with he | he
    · rcases List.mem_cons.1 he with rfl | he
      · rfl
      · exact hall e he
    · exact hall2 e he

end poller

namespace poller
variable {σ τ : Type}

/-- The calls and the rows of the second half of `handleAnnot` are for the
annotation at hand and the chat at hand. -/
theorem handleAnnotSend_own (p : Poller σ τ) (annot : hyp.Annotation) (chatID pm : Int)
    (w : World σ τ) :
    ∃ ext rows, (handleAnnotSend p annot chatID pm w).2.trace = w.trace ++ ext ∧
      (handleAnnotSend p annot chatID pm w).2.Storage.AnnotationMessages
        = w.Storage.AnnotationMessages ++ rows ∧
      (∀ e ∈ ext, ∀ a c, (e.sendFor a c = true ∨ e.mappingFor a c = true) →
        a = annot.ID ∧ c = chatID) ∧
      (∀ r ∈ rows, r.annot_id = annot.ID ∧ r.chat_id = chatID) := by
  unfold handleAnnotSend
  split
  · rename_i w1 hd
    exact ⟨[], [], by simp [(isDone_true hd).1], by simp [(isDone_true hd).1], by simp, by simp⟩
  · rename_i w1 hd
    obtain ⟨-, -, hst, htr, -⟩ := isDone_false hd
    have hf := db.DbStorage.uriID_frame w.Storage annot.URI
    simp only
    split
    · refine ⟨[Event.Send annot.ID chatID pm (messageText annot pm)
          (p.Tg.Send w1.tg chatID pm (messageText annot pm)).1], [],
        by simp only [World.log, htr], by simp [World.log, hst], ?_, by simp⟩
      intro e he a c hac
      rw [List.mem_singleton] at he
      subst he
      simp only [Event.sendFor, Event.mappingFor, decide_eq_true_eq, Bool.false_eq_true, or_false] at hac
      exact ⟨hac.1.symm, hac.2.symm⟩
    · rename_i mid hsend
      simp only [World.log, hst]
      cases hset : w.Storage.SetMessageID annot.ID ⟨annot.References, annot.Group, annot.URI⟩
        chatID mid with
      | mk e st =>
        have hev : ∀ ev ∈ [Event.Send annot.ID chatID pm (messageText annot pm)
              (p.Tg.Send w1.tg chatID pm (messageText annot pm)).1,
            Event.SetMessageID annot.ID ⟨annot.References, annot.Group, annot.URI⟩ chatID mid e],
            ∀ a c, (ev.sendFor a c = true ∨ ev.mappingFor a c = true) →
              a = annot.ID ∧ c = chatID := by
          intro ev hev a c hac
          simp only [List.mem_cons, List.mem_singleton, List.not_mem_nil, or_false] at hev
          rcases hev with rfl | rfl
          · simp only [Event.sendFor, Event.mappingFor, decide_eq_true_eq, Bool.false_eq_true, or_false] at hac
            exact ⟨hac.1.symm, hac.2.symm⟩
          · cases e with
            | none =>
              simp only [Event.sendFor, Event.mappingFor, decide_eq_true_eq, Bool.false_eq_true, false_or] at hac
              exact ⟨hac.1.symm, hac.2.symm⟩
            | some e => simp [Event.sendFor, Event.mappingFor] at hac
        cases e with
        | none =>
          obtain ⟨-, rfl⟩ := db.DbStorage.SetMessageID_ok hset
          refine ⟨_, [w.Storage.newRow annot.ID ⟨annot.References, annot.Group, annot.URI⟩
            chatID mid], by simp only [htr, List.append_assoc]; rfl, rfl, hev, ?_⟩
          simp [db.DbStorage.newRow]
        | some e =>
          have hst' := db.DbStorage.SetMessageID_err hset
          subst hst'
          exact ⟨_, [], by simp only [htr, List.append_assoc]; rfl, by simp [hf.1], hev,
            by simp⟩

/-- While an annotation is mapped in a chat, `handleAnnot` sends no message
for it into that chat and adds no mapping of it in that chat, whatever
annotation it is called on. -/
theorem Bridged.kept {p : Poller σ τ} {chatID : Int} {h : hyp.Client σ}
    {annot : hyp.Annotation} {w w' : World σ τ} {r : Except Error Int}
    (hb : Bridged p chatID h annot w r w') (a : String)
    (hmapped : w.Storage.mapped a chatID = true) :
    (∀ ext, w'.trace = w.trace ++ ext →
      ∀ e ∈ ext, e.sendFor a chatID = false ∧ e.mappingFor a chatID = false) ∧
    w'.Storage.AnnotationMessages.filter (fun r => r.isFor a chatID)
      = w.Storage.AnnotationMessages.filter (fun r => r.isFor a chatID) := by
  have hsend : ∀ (annot : hyp.Annotation) (pm : Int) (w : World σ τ), annot.ID ≠ a →
      (∀ ext, (handleAnnotSend p annot chatID pm w).2.trace = w.trace ++ ext →
        ∀ e ∈ ext, e.sendFor a chatID = false ∧ e.mappingFor a chatID = false) ∧
      (handleAnnotSend p annot chatID pm w).2.Storage.AnnotationMessages.filter
          (fun r => r.isFor a chatID)
        = w.Storage.AnnotationMessages.filter (fun r => r.isFor a chatID) := by
    intro annot pm w hne
    obtain ⟨ext0, rows, htr, hrows, hev, hr⟩ := handleAnnotSend_own p annot chatID pm w
    refine ⟨?_, ?_⟩
    · intro ext hext e he
      rw [htr] at hext
      have := List.append_cancel_left hext
      subst this
      constructor
      · by_contra hs
        exact hne (hev e he a chatID (Or.inl (by simpa using hs))).1.symm
      · by_contra hs
        exact hne (hev e he a chatID (Or.inr (by simpa using hs))).1.symm
    · rw [hrows, List.filter_append]
      have : rows.filter (fun r => r.isFor a chatID) = [] := by
        rw [List.filter_eq_nil_iff]
        intro r hrr
        have := (hr r hrr).1
        simp [db.AnnotationMessagesRow.isFor, this, hne]
      rw [this, List.append_nil]
  have hne_of : ∀ {annot : hyp.Annotation} {w : World σ τ},
      w.Storage.mapped a chatID = true →
      w.Storage.MessageID annot.ID chatID = some (.error Error.ErrNotFound) → annot.ID ≠ a := by
    intro annot w hmap hm heq
    have := db.DbStorage.not_mapped_of_MessageID hm
    rw [heq, hmap] at this
    exact Bool.noConfusion this
  induction hb with
  | mapped _ =>
    refine ⟨?_, rfl⟩
    intro ext hext e he
    have : ext = [] := by simpa using hext
    simp [this] at he
  | root hm _ => exact hsend _ _ _ (hne_of hmapped hm)
  | reply hm _ _ => exact hsend _ _ _ (hne_of hmapped hm)
  | fetchFailed _ _ _ _ =>
    refine ⟨?_, rfl⟩
    intro ext hext e he
    have : ext = [_] := (List.append_cancel_left hext).symm
    subst this
    rw [List.mem_singleton] at he
    subst he
    simp [Event.sendFor, Event.mappingFor]
  | @ancestorFailed annot w pid parent err w1 _ _ _ _ hrec ih =>
    have ih := ih hmapped
    obtain ⟨ext1, hext1, -⟩ := hrec.trace
    refine ⟨?_, ih.2⟩
    intro ext hext e he
    rw [hext1] at hext
    simp only [World.log, List.append_assoc] at hext
    have := List.append_cancel_left hext
    subst this
    rcases List.mem_append.1 he with he | he
    · rw [List.mem_singleton] at he
      subst he
      simp [Event.sendFor, Event.mappingFor]
    · exact ih.1 ext1 hext1 e he
  | @ancestor annot w pid parent pm w1 hm _ _ _ hrec ih =>
    have ih := ih hmapped
    obtain ⟨ext1, hext1, -⟩ := hrec.trace
    have hs := hsend annot pm w1 (hne_of hmapped hm)
    obtain ⟨ext2, -, hext2, -, -, -⟩ := handleAnnotSend_own p annot chatID pm w1
    refine ⟨?_, hs.2.trans ih.2⟩
    intro ext hext e he
    rw [hext2, hext1] at hext
    simp only [World.log, List.append_assoc] at hext
    have := List.append_cancel_left hext
    subst this
    rcases List.mem_append.1 he with he | he
    · rw [List.mem_singleton] at he
      subst he
      simp [Event.sendFor, Event.mappingFor]
    · rcases List.mem_append.1 he with he | he
      · exact ih.1 ext1 hext1 e he
      · exact hs.1 ext2 hext2 e he

/-- After a successful `handleAnnot`, every annotation it sent a message for
is mapped. -/
theorem Bridged.sends_mapped {p : Poller σ τ} {chatID : Int} {h : hyp.Client σ}
    {annot : hyp.Annotation} {w w' : World σ τ} {r : Except Error Int}
    (hb : Bridged p chatID h annot w r w') (m : Int) (hr : r = .ok m) :
    ∀ ext, w'.trace = w.trace ++ ext → ∀ e ∈ ext, ∀ a, e.sendFor a chatID = true →
      w'.Storage.mapped a chatID = true := by
  have hsend : ∀ (annot : hyp.Annotation) (pm m : Int) (w w' : World σ τ),
      w.Storage.mu = false →
      handleAnnotSend p annot chatID pm w = (.ok m, w') →
      ∀ ext, w'.trace = w.trace ++ ext → ∀ e ∈ ext, ∀ a, e.sendFor a chatID = true →
        w'.Storage.mapped a chatID = true := by
    intro annot pm m w w' hfree hs ext hext e he a ha
    obtain ⟨ext0, rows, htr, -, hev, -⟩ := handleAnnotSend_own p annot chatID pm w
    rw [hs] at htr
    rw [htr] at hext
    have := List.append_cancel_left hext
    subst this
    have := (hev e he a chatID (Or.inl ha)).1
    subst this
    exact db.DbStorage.mapped_of_MessageID (handleAnnotSend_mapped hfree hs)
  induction hb generalizing m with
  | mapped _ =>
    intro ext hext e he
    have : ext = [] := by simpa using hext
    simp [this] at he
  | root hm _ => exact hsend _ _ _ _ _ (db.DbStorage.free_of_MessageID hm) (Prod.ext hr rfl)
  | reply hm _ _ => exact hsend _ _ _ _ _ (db.DbStorage.free_of_MessageID hm) (Prod.ext hr rfl)
  | fetchFailed _ _ _ _ => cases hr
  | ancestorFailed _ _ _ _ _ _ => cases hr
  | @ancestor annot w pid parent pm w1 hm _ _ _ hrec ih =>
    have hle1 := (World.Le.log w (Event.Annotation pid (.ok parent))).trans hrec.le
    have hfree1 : w1.Storage.mu = false := hle1.mu.trans (db.DbStorage.free_of_MessageID hm)
    have hs : handleAnnotSend p annot chatID pm w1
        = (.ok m, (handleAnnotSend p annot chatID pm w1).2) := Prod.ext hr rfl
    obtain ⟨ext1, hext1, -⟩ := hrec.trace
    obtain ⟨ext2, -, hext2, -, -, -⟩ := handleAnnotSend_own p annot chatID pm w1
    intro ext hext e he a ha
    rw [hext2, hext1] at hext
    simp only [World.log, List.append_assoc] at hext
    have := List.append_cancel_left hext
    subst this
    rcases List.mem_append.1 he with he | he
    · rw [List.mem_singleton] at he
      subst he
      simp [Event.sendFor] at ha
    · rcases List.mem_append.1 he with he | he
      · exact (handleAnnotSend_le p annot chatID pm w1).mapped
          (ih pm rfl ext1 hext1 e he a ha)
      · exact hsend annot pm m w1 _ hfree1 hs ext2 hext2 e he a ha

end poller

/-! ## Theorems on `handleAnnot` -/

namespace poller
variable {σ τ : Type}

/-- How a successful `handleAnnot` on an annotation without mapping went:
first the parent was found or bridged (calls `pre`, none of them a `Send` for
the annotation), then the second half ran with the parent's message id. -/
theorem Bridged.unmapped_ok {p : Poller σ τ} {chatID : Int} {h : hyp.Client σ}
    {annot : hyp.Annotation} {w w' : World σ τ} {r : Except Error Int}
    (hb : Bridged p chatID h annot w r w') (m : Int) (hr : r = .ok m)
    (hun : w.Storage.mapped annot.ID chatID = false) :
    ∃ w1 pm pre,
      w.Le w1 ∧ w1.trace = w.trace ++ pre ∧
      (∀ e ∈ pre, e.sendFor annot.ID chatID = false) ∧
      handleAnnotSend p annot chatID pm w1 = (.ok m, w') ∧
      w1.Storage.mu = false ∧
      ((annot.References.getLast? = none ∧ pm = 0 ∧ pre = []) ∨
       (∃ pid, annot.References.getLast? = some pid ∧
          w.Storage.MessageID pid chatID = some (.ok pm) ∧ pre = []) ∨
       (∃ pid parent, annot.References.getLast? = some pid ∧
          h.Annotation w.hyp pid = .ok parent ∧
          w1.Storage.MessageID parent.ID chatID = some (.ok pm))) := by
  cases hb with
  | mapped hm =>
    rw [db.DbStorage.mapped_of_MessageID hm] at hun
    exact Bool.noConfusion hun
  | root hm hl =>
    exact ⟨w, 0, [], World.Le.refl w, by simp, by simp, Prod.ext hr rfl,
      db.DbStorage.free_of_MessageID hm, Or.inl ⟨hl, rfl, rfl⟩⟩
  | @reply _ _ pid pm hm hl hpm =>
    exact ⟨w, pm, [], World.Le.refl w, by simp, by simp, Prod.ext hr rfl,
      db.DbStorage.free_of_MessageID hm, Or.inr (Or.inl ⟨pid, hl, hpm, rfl⟩)⟩
  | fetchFailed _ _ _ _ => cases hr
  | ancestorFailed _ _ _ _ _ => cases hr
  | @ancestor _ _ pid parent pm w1 hm hl hpm hfetch hrec =>
    have hle1 := (World.Le.log w (Event.Annotation pid (.ok parent))).trans hrec.le
    have hfree1 : w1.Storage.mu = false := hle1.mu.trans (db.DbStorage.free_of_MessageID hm)
    have hs : handleAnnotSend p annot chatID pm w1
        = (.ok m, (handleAnnotSend p annot chatID pm w1).2) := Prod.ext hr rfl
    obtain ⟨ext1, hext1, -⟩ := hrec.trace
    refine ⟨w1, pm, Event.Annotation pid (.ok parent) :: ext1, hle1,
      by simp [hext1, World.log], ?_, hs, hfree1,
      Or.inr (Or.inr ⟨pid, parent, hl, hfetch, hrec.mapped_of_ok pm rfl⟩)⟩
    -- a `Send` for the annotation among the calls for its ancestors would have left it mapped
    obtain ⟨_, _, _, _, _, hset, _⟩ := handleAnnotSend_ok hs
    have hun1 := db.DbStorage.not_mapped_of_conflicts (db.DbStorage.SetMessageID_ok hset).1
    intro e he
    rcases List.mem_cons.1 he with rfl | he
    · rfl
    · cases hsf : e.sendFor annot.ID chatID with
      | false => rfl
      | true =>
        have := hrec.sends_mapped pm rfl ext1 hext1 e he annot.ID hsf
        rw [hun1] at this
        exact Bool.noConfusion this

/-- C1. If the store already maps the annotation in the chat to message `m`
(in particular if `w` is the world left by a first successful `handleAnnot` of
the annotation in the chat, that returned `m`), then `handleAnnot` returns `m`
with no error and leaves the world as it is: no chat message is sent, no
ancestor is fetched, the store is unchanged. So a second call after a first
successful one returns the message id of the first, and the world after both
is the world after the first: when the annotation had no mapping before the
first call, it holds exactly one mapping of the annotation in the chat and
exactly one `Send` was made for it. -/
theorem handleAnnot_idempotent (p : Poller σ τ) (h : hyp.Client σ) (annot : hyp.Annotation)
    (chatID : Int) (w : World σ τ) (m : Int)
    (hstate : w.Storage.MessageID annot.ID chatID = some (.ok m) ∨
      ∃ (d : Nat) (w0 : World σ τ), handleAnnot p d annot chatID h w0 = some (.ok m, w)) :
    (∀ depth, handleAnnot p (depth + 1) annot chatID h w = some (.ok m, w)) ∧
    (∀ (d : Nat) (w0 : World σ τ), handleAnnot p d annot chatID h w0 = some (.ok m, w) →
      w0.Storage.mapped annot.ID chatID = false →
      (w.Storage.AnnotationMessages.filter (fun r => r.isFor annot.ID chatID)).length = 1 ∧
      ∀ ext, w.trace = w0.trace ++ ext → ext.countP (Event.sendFor annot.ID chatID) = 1) := by
  have hm : w.Storage.MessageID annot.ID chatID = some (.ok m) := by
    rcases hstate with hm | ⟨d, w0, hfirst⟩
    · exact hm
    · exact (handleAnnot_sound p chatID h d annot w0 _ w hfirst).mapped_of_ok m rfl
  refine ⟨fun depth => by rw [handleAnnot, hm], ?_⟩
  intro d w0 hfirst hun
  have hb := handleAnnot_sound p chatID h d annot w0 _ w hfirst
  obtain ⟨w1, pm, pre, hle, hpre, hnone, hs, -, -⟩ := hb.unmapped_ok m rfl hun
  obtain ⟨_, tg', st', -, -, hset, rfl⟩ := handleAnnotSend_ok hs
  obtain ⟨hc, rfl⟩ := db.DbStorage.SetMessageID_ok hset
  have hun1 := db.DbStorage.not_mapped_of_conflicts hc
  constructor
  · have : w1.Storage.AnnotationMessages.filter (fun r => r.isFor annot.ID chatID) = [] := by
      rw [List.filter_eq_nil_iff]
      intro r hr
      unfold db.DbStorage.mapped at hun1
      simpa using (List.any_eq_false.1 hun1) r hr
    simp [List.filter_append, this, db.DbStorage.newRow_isFor]
  · intro ext hext
    simp only [hpre, List.append_assoc] at hext
    have := List.append_cancel_left hext
    subst this
    have h0 : pre.countP (Event.sendFor annot.ID chatID) = 0 := by
      rw [List.countP_eq_zero]
      intro e he
      simp [hnone e he]
    simp [List.countP_append, h0, List.countP_cons, Event.sendFor]

end poller

namespace poller
variable {σ τ : Type}

open sample in
/-- Witness of C1, on the first test of the poller: annotation `a1` is bridged
once, then `handleAnnot` is called on it again. -/
theorem handleAnnot_idempotent_witness :
    ∃ w1, handleAnnot sample.poller 1 a1 42 client (world [a1] 1000000000) = some (.ok 1, w1) ∧
      (∀ depth, handleAnnot sample.poller (depth + 1) a1 42 client w1 = some (.ok 1, w1)) ∧
      (w1.Storage.AnnotationMessages.filter (fun r => r.isFor "a1" 42)).length = 1 :=
  have hfirst : handleAnnot sample.poller 1 a1 42 client (world [a1] 1000000000)
      = some (.ok 1, _) := rfl
  have hthm := handleAnnot_idempotent sample.poller client a1 42 _ 1
    (Or.inr ⟨1, world [a1] 1000000000, hfirst⟩)
  ⟨_, hfirst, hthm.1, (hthm.2 1 _ hfirst (by decide)).1⟩

/-- C2. Let `annot` have no mapping in the chat and let its `N` ancestors
`ancs`, met by following immediate parents, be unmapped and retrievable by
point fetch, the last of them a root. Then `handleAnnot`, given a bound above
`N`, returns; and when it returns without error (no send, store write or
cancellation got in the way) it made `N` point fetches and `N + 1` sends, all
successful, for the annotations of the chain from the root-most ancestor down
to `annot`, the first one a root send and each later one a reply to the
message sent just before it, and it added `N + 1` mappings, one for each
message. The update times of the ancestors play no part. -/
theorem handleAnnot_bridges_ancestors (p : Poller σ τ) (h : hyp.Client σ) (chatID : Int)
    (annot : hyp.Annotation) (ancs : List hyp.Annotation) (w : World σ τ) (depth : Nat)
    (hun : w.Storage.MessageID annot.ID chatID = some (.error Error.ErrNotFound))
    (hchain : UnmappedChain h w.hyp w.Storage chatID annot ancs)
    (hdepth : ancs.length < depth) :
    ∃ r w', handleAnnot p depth annot chatID h w = some (r, w') ∧
      ∀ m, r = .ok m →
        ∃ ext rows, w'.trace = w.trace ++ ext ∧
          w'.Storage.AnnotationMessages = w.Storage.AnnotationMessages ++ rows ∧
          ChainBridged chatID annot ancs m ext rows := by
  induction ancs generalizing annot w depth with
  | nil =>
    obtain ⟨d, rfl⟩ : ∃ d, depth = d + 1 := ⟨depth - 1, by omega⟩
    have hl : annot.References.getLast? = none := hchain
    refine ⟨(handleAnnotSend p annot chatID 0 w).1, (handleAnnotSend p annot chatID 0 w).2,
      by rw [handleAnnot, hun]; simp [hl], ?_⟩
    intro m hr
    obtain ⟨w1, tg', st', -, -, hset, hw'⟩ := handleAnnotSend_ok (Prod.ext hr rfl)
    obtain ⟨-, rfl⟩ := db.DbStorage.SetMessageID_ok hset
    refine ⟨[Event.Send annot.ID chatID 0 (messageText annot 0) (.ok m),
        Event.SetMessageID annot.ID ⟨annot.References, annot.Group, annot.URI⟩ chatID m none],
      [w.Storage.newRow annot.ID ⟨annot.References, annot.Group, annot.URI⟩ chatID m],
      by simp only [hw'], by simp only [hw'], ?_⟩
    constructor <;>
      simp [fetches, sends, deliveries, Event.fetched?, Event.isSend, Event.delivered?,
        db.DbStorage.newRow]
  | cons parent rest ih =>
    obtain ⟨d, rfl⟩ : ∃ d, depth = d + 1 := ⟨depth - 1, by omega⟩
    obtain ⟨pid, hl, hpm, hfetch, hpun, hrest⟩ := hchain
    have hd : rest.length < d := by simpa using hdepth
    obtain ⟨r1, w1, hrec, hok1⟩ :=
      ih parent (w.log (Event.Annotation pid (.ok parent))) d hpun hrest hd
    cases r1 with
    | error e =>
      exact ⟨.error (Error.Errorf "failed to post ancestors of %q starting from %q: %v"
          [annot.ID, pid, e.text]), w1,
        by rw [handleAnnot, hun]; simp [hl, hpm, handleAncestor, hfetch, hrec],
        fun m hr => by cases hr⟩
    | ok pm =>
      refine ⟨(handleAnnotSend p annot chatID pm w1).1, (handleAnnotSend p annot chatID pm w1).2,
        by rw [handleAnnot, hun]; simp [hl, hpm, handleAncestor, hfetch, hrec], ?_⟩
      intro m hr
      obtain ⟨ext1, rows1, htr1, hrows1, hc⟩ := hok1 pm rfl
      obtain ⟨_, tg', st', -, -, hset, hw'⟩ := handleAnnotSend_ok (Prod.ext hr rfl)
      obtain ⟨-, rfl⟩ := db.DbStorage.SetMessageID_ok hset
      refine ⟨Event.Annotation pid (.ok parent) :: ext1 ++
          [Event.Send annot.ID chatID pm (messageText annot pm) (.ok m),
           Event.SetMessageID annot.ID ⟨annot.References, annot.Group, annot.URI⟩ chatID m none],
        rows1 ++ [w1.Storage.newRow annot.ID ⟨annot.References, annot.Group, annot.URI⟩
          chatID m],
        by simp only [hw', htr1]; simp [World.log], by simp only [hw']; simp [hrows1, World.log],
        ?_⟩
      have hdel : deliveries (Event.Annotation pid (.ok parent) :: ext1 ++
          [Event.Send annot.ID chatID pm (messageText annot pm) (.ok m),
           Event.SetMessageID annot.ID ⟨annot.References, annot.Group, annot.URI⟩ chatID m
             none]) = deliveries ext1 ++ [⟨annot.ID, chatID, m, pm, messageText annot pm⟩] := by
        simp [deliveries, Event.delivered?]
      have hne : deliveries ext1 ≠ [] := by
        intro h0
        have := hc.sent.2
        rw [h0] at this
        simp at this
      constructor
      · simpa [fetches, Event.fetched?] using hc.fetched
      · constructor
        · simpa [sends, Event.isSend] using hc.sent.1
        · rw [hdel]; simpa using hc.sent.2
      · rw [hdel]; simp [hc.order]
      · rw [hdel]
        intro x hx
        rcases List.mem_append.1 hx with hx | hx
        · exact hc.chat x hx
        · simp at hx; subst hx; rfl
      · rw [hdel]
        intro x hx
        rw [List.head?_append_of_ne_nil _ hne] at hx
        exact hc.first x hx
      · rw [hdel]
        refine List.Chain'.append hc.threaded (by simp) ?_
        intro x hx y hy
        simp at hy
        subst hy
        exact (hc.last x hx).symm
      · rw [hdel]
        intro x hx
        simp at hx
        subst hx
        rfl
      · rw [hdel]
        simp [hc.mappings, db.DbStorage.newRow]

open sample in
/-- Witness of C2, on test `TestHandleSub_ReplyToUnposted`: `a2` replies to
`a1`, which was updated before the watermark and has no mapping. -/
theorem handleAnnot_bridges_ancestors_witness :
    ∃ w', handleAnnot sample.poller 2 a2 42 client (world [annot "a1" 1000000000 [] "Parent", a2]
        2000000000) = some (.ok 2, w') ∧
      ∃ ext rows, w'.trace = (world [annot "a1" 1000000000 [] "Parent", a2] 2000000000).trace ++ ext ∧
        w'.Storage.AnnotationMessages = rows ∧
        ChainBridged 42 a2 [annot "a1" 1000000000 [] "Parent"] 2 ext rows := by
  obtain ⟨r, w', hres, hok⟩ := handleAnnot_bridges_ancestors sample.poller client 42 a2
    [annot "a1" 1000000000 [] "Parent"] (world [annot "a1" 1000000000 [] "Parent", a2] 2000000000) 2
    rfl ⟨"a1", rfl, rfl, rfl, rfl, rfl⟩ (by decide)
  have heval : handleAnnot sample.poller 2 a2 42 client
      (world [annot "a1" 1000000000 [] "Parent", a2] 2000000000) = some (.ok 2, _) := rfl
  rw [heval] at hres
  simp only [Option.some.injEq, Prod.mk.injEq] at hres
  obtain ⟨hr, rfl⟩ := hres
  obtain ⟨ext, rows, htr, hrows, hc⟩ := hok 2 hr.symm
  exact ⟨_, rfl, ext, rows, htr, hrows, hc⟩

/-- C3. A successful `handleAnnot` on an annotation without mapping in the
chat, with a client whose point fetch returns the annotation asked for, makes
exactly one `Send` for the annotation. It is the last `Send` of the call and
it returned the message id that `handleAnnot` returns. Its parent message id
is 0 (a root send, and nothing was sent before it) when the reference chain is
empty; otherwise it is the message id that the store maps, in the chat, to
the last entry of the reference chain. -/
theorem handleAnnot_sends_one (p : Poller σ τ) (h : hyp.Client σ) (hfaithful : h.Faithful)
    (annot : hyp.Annotation) (chatID : Int) (w w' : World σ τ) (d : Nat) (m : Int)
    (hun : w.Storage.MessageID annot.ID chatID = some (.error Error.ErrNotFound))
    (hres : handleAnnot p d annot chatID h w = some (.ok m, w')) :
    ∃ pm pre,
      w'.trace = w.trace ++ (pre ++
        [Event.Send annot.ID chatID pm (messageText annot pm) (.ok m),
         Event.SetMessageID annot.ID ⟨annot.References, annot.Group, annot.URI⟩ chatID m none]) ∧
      (pre ++
        [Event.Send annot.ID chatID pm (messageText annot pm) (.ok m),
         Event.SetMessageID annot.ID ⟨annot.References, annot.Group, annot.URI⟩ chatID m none]
        ).countP (Event.sendFor annot.ID chatID) = 1 ∧
      (annot.References = [] → pm = 0 ∧ pre = []) ∧
      (∀ parentAnnotID, annot.References.getLast? = some parentAnnotID →
        w'.Storage.MessageID parentAnnotID chatID = some (.ok pm)) := by
  have hb := handleAnnot_sound p chatID h d annot w _ w' hres
  obtain ⟨w1, pm, pre, hle, hpre, hnone, hs, hfree1, hcases⟩ :=
    hb.unmapped_ok m rfl (db.DbStorage.not_mapped_of_MessageID hun)
  have hle' := handleAnnotSend_le p annot chatID pm w1
  rw [hs] at hle'
  obtain ⟨_, tg', st', -, -, -, hw'⟩ := handleAnnotSend_ok hs
  refine ⟨pm, pre, by rw [hw', hpre, List.append_assoc], ?_, ?_, ?_⟩
  · have h0 : pre.countP (Event.sendFor annot.ID chatID) = 0 := by
      rw [List.countP_eq_zero]
      intro e he
      simp [hnone e he]
    simp [List.countP_append, h0, List.countP_cons, Event.sendFor]
  · intro hrefs
    rcases hcases with ⟨-, hpm, hp⟩ | ⟨pid, hl, -, -⟩ | ⟨pid, parent, hl, -, -⟩
    · exact ⟨hpm, hp⟩
    · simp [hrefs] at hl
    · simp [hrefs] at hl
  · intro parentAnnotID hlast
    rcases hcases with ⟨hl, -, -⟩ | ⟨pid, hl, hpm, -⟩ | ⟨pid, parent, hl, hfetch, hpm⟩
    · simp [hl] at hlast
    · rw [hl] at hlast
      cases hlast
      exact (hle.trans hle').MessageID_ok hpm
    · rw [hl] at hlast
      cases hlast
      rw [hfaithful _ _ _ hfetch] at hpm
      exact hle'.MessageID_ok hpm




end poller

/-- The fake client returns the annotation with the id asked for. -/
theorem fake.NewClient_faithful (now : Time) (token group : String) :
    (fake.NewClient now token group).Faithful := by
  intro s id a hfetch
  simp only [fake.NewClient, fake.Hyp.Annotation] at hfetch
  split at hfetch
  · rename_i a' hfind
    cases hfetch
    have := List.find?_some hfind
    simpa using this
  · cases hfetch

namespace poller
variable {σ τ : Type}

open sample in
/-- Witness of C3, on test `TestHandleSub_ReplyToUnposted`. -/
theorem handleAnnot_sends_one_witness :
    ∃ w' pm pre, handleAnnot sample.poller 2 a2 42 client (world [a1, a2] 1000000000)
        = some (.ok 2, w') ∧
      w'.trace = (world [a1, a2] 1000000000).trace ++ (pre ++
        [Event.Send "a2" 42 pm (messageText a2 pm) (.ok 2),
         Event.SetMessageID "a2" ⟨["a1"], "grp", ""⟩ 42 2 none]) ∧
      w'.Storage.MessageID "a1" 42 = some (.ok pm) :=
  have hres : handleAnnot sample.poller 2 a2 42 client (world [a1, a2] 1000000000)
      = some (.ok 2, _) := rfl
  let ⟨pm, pre, htr, _, _, hparent⟩ := handleAnnot_sends_one sample.poller client
    (fake.NewClient_faithful 0 "ht" "grp") a2 42 (world [a1, a2] 1000000000) _ 2 2 rfl hres
  ⟨_, pm, pre, hres, htr, hparent "a1" rfl⟩

/-- C8, amended. When `handleAnnot` succeeds on an annotation without mapping
in the chat, the message id it returns is the one its last `Send` returned;
the mapping it records carries the annotation's own reference chain, group
and document URI; afterwards the store maps the annotation in the chat to
that message id, and maps the message back to the annotation id with the
annotation's group and document URI and with the reference chain as the store
encodes it, which is the annotation's own reference chain provided no id in
it contains the separator `|`. -/
theorem handleAnnot_records_mapping (p : Poller σ τ) (h : hyp.Client σ)
    (annot : hyp.Annotation) (chatID : Int) (w w' : World σ τ) (d : Nat) (m : Int)
    (hun : w.Storage.MessageID annot.ID chatID = some (.error Error.ErrNotFound))
    (hres : handleAnnot p d annot chatID h w = some (.ok m, w')) :
    (∃ pm pre, w'.trace = w.trace ++ (pre ++
        [Event.Send annot.ID chatID pm (messageText annot pm) (.ok m),
         Event.SetMessageID annot.ID ⟨annot.References, annot.Group, annot.URI⟩ chatID m none])) ∧
    w'.Storage.MessageID annot.ID chatID = some (.ok m) ∧
    ((∀ x ∈ annot.References, '|' ∉ x.data) →
      w'.Storage.AnnotationID chatID m
        = .ok (annot.ID, ⟨annot.References, annot.Group, annot.URI⟩)) := by
  have hb := handleAnnot_sound p chatID h d annot w _ w' hres
  obtain ⟨w1, pm, pre, -, hpre, -, hs, -, -⟩ :=
    hb.unmapped_ok m rfl (db.DbStorage.not_mapped_of_MessageID hun)
  obtain ⟨_, tg', st', -, -, hset, hw'⟩ := handleAnnotSend_ok hs
  refine ⟨⟨pm, pre, by rw [hw', hpre, List.append_assoc]⟩, hb.mapped_of_ok m rfl, ?_⟩
  intro hsep
  rw [hw']
  simp only
  rw [db.DbStorage.AnnotationID_of_set hset]
  by_cases hlen : annot.References.length > 0
  · have hne : annot.References ≠ [] := by
      intro h0; simp [h0] at hlen
    simp only [hlen, ↓reduceIte, strings.Split_Join '|' annot.References hne hsep]
  · have h0 : annot.References = [] := by
      cases hrefs : annot.References with
      | nil => rfl
      | cons x xs => simp [hrefs] at hlen
    simp [h0]

open sample in
/-- Witness of C8, on test `TestHandleSub_ReplyToUnposted`. -/
theorem handleAnnot_records_mapping_witness :
    ∃ w', handleAnnot sample.poller 2 a2 42 client (world [a1, a2] 1000000000)
        = some (.ok 2, w') ∧
      w'.Storage.MessageID "a2" 42 = some (.ok 2) ∧
      w'.Storage.AnnotationID 42 2 = .ok ("a2", ⟨["a1"], "grp", ""⟩) :=
  have hres : handleAnnot sample.poller 2 a2 42 client (world [a1, a2] 1000000000)
      = some (.ok 2, _) := rfl
  have hthm := handleAnnot_records_mapping sample.poller client a2 42
    (world [a1, a2] 1000000000) _ 2 2 rfl hres
  ⟨_, hres, hthm.2.1, hthm.2.2 (by decide)⟩

open sample in
/-- C8 as stated fails: an annotation that replies to the annotation with id
`x|y` is bridged with success, and the store then gives the reference chain
`x`, `y` for its message, not the annotation's own chain `x|y`. -/
theorem handleAnnot_records_mapping_counterexample :
    ∃ w', handleAnnot sample.poller 2 (annot "b" 3000000000 ["x|y"] "Child") 42 client
        (world [annot "x|y" 2000000000 [] "Parent", annot "b" 3000000000 ["x|y"] "Child"]
          1000000000) = some (.ok 2, w') ∧
      w'.Storage.AnnotationID 42 2 = .ok ("b", ⟨["x", "y"], "grp", ""⟩) ∧
      w'.Storage.AnnotationID 42 2 ≠ .ok ("b", ⟨["x|y"], "grp", ""⟩) := by
  refine ⟨_, rfl, rfl, ?_⟩
  intro hsame
  have hread : (Except.ok ("b", ⟨["x", "y"], "grp", ""⟩) :
      Except Error (String × common.AnnotationMetadata))
      = .ok ("b", ⟨["x|y"], "grp", ""⟩) := Eq.trans rfl hsame
  simp at hread

end poller

/-! ## Lemmas on `handleSub` -/

namespace poller
variable {σ τ : Type}

theorem bridged_append (e1 e2 : List Event) : bridged (e1 ++ e2) = bridged e1 ++ bridged e2 := by
  simp [bridged]

theorem bridged_of_byHandleAnnot {ext : List Event} (h : ∀ e ∈ ext, e.byHandleAnnot = true) :
    bridged ext = [] := by
  unfold bridged
  rw [List.filterMap_eq_nil_iff]
  intro e he
  have := h e he
  cases e <;> simp [Event.byHandleAnnot] at this <;> rfl

theorem Advanced.of_quiet {sub : common.Subscription} {w w' : World σ τ} {ext : List Event}
    (htr : w'.trace = w.trace ++ ext) (hq : bridged ext = [])
    (hsubs : w'.Storage.SubscriptionsTable = w.Storage.SubscriptionsTable) :
    Advanced sub w ext sub w' :=
  ⟨htr, rfl, rfl, rfl, fun g c => by rw [hsubs], fun _ => ⟨rfl, hsubs⟩,
    fun a ha => by simp [hq] at ha⟩

theorem Advanced.append {sub sub1 sub2 : common.Subscription} {w w1 w2 : World σ τ}
    {e1 e2 : List Event} (h1 : Advanced sub w e1 sub1 w1) (h2 : Advanced sub1 w1 e2 sub2 w2) :
    Advanced sub w (e1 ++ e2) sub2 w2 := by
  refine ⟨by rw [h2.trace, h1.trace, List.append_assoc], h2.token.trans h1.token,
    h2.group.trans h1.group, h2.chat.trans h1.chat,
    fun g c => (h2.count g c).trans (h1.count g c), ?_, ?_⟩
  · intro hnone
    rw [bridged_append, List.getLast?_append] at hnone
    cases h2l : (bridged e2).getLast? with
    | some a => simp [h2l] at hnone
    | none =>
      have h1l : (bridged e1).getLast? = none := by simpa [h2l] using hnone
      obtain ⟨hs2, ht2⟩ := h2.still h2l
      obtain ⟨hs1, ht1⟩ := h1.still h1l
      exact ⟨hs2.trans hs1, ht2.trans ht1⟩
  · intro a ha
    rw [bridged_append, List.getLast?_append] at ha
    cases h2l : (bridged e2).getLast? with
    | some a2 =>
      have : a2 = a := by simpa [h2l] using ha
      subst this
      obtain ⟨t, hup, hsa, hst⟩ := h2.moved a2 h2l
      refine ⟨t, hup, hsa, fun hc => ?_⟩
      have := hst (by rw [h1.group, h1.chat, h1.count]; exact hc)
      rw [h1.group, h1.chat, h1.token] at this
      exact this
    | none =>
      have h1l : (bridged e1).getLast? = some a := by simpa [h2l] using ha
      obtain ⟨hs2, ht2⟩ := h2.still h2l
      obtain ⟨t, hup, hsa, hst⟩ := h1.moved a h1l
      refine ⟨t, hup, by rw [hs2]; exact hsa, fun hc => ?_⟩
      rw [db.DbStorage.Subscription_table_congr ht2]
      exact hst hc

/-- A run of `handleAnnot` moves no watermark. -/
theorem Advanced.of_handleAnnot {p : Poller σ τ} {chatID : Int} {h : hyp.Client σ}
    {annot : hyp.Annotation} {w w' : World σ τ} {r : Except Error Int} {d : Nat}
    (sub : common.Subscription) (hres : handleAnnot p d annot chatID h w = some (r, w')) :
    ∃ ext, Advanced sub w ext sub w' := by
  have hb := handleAnnot_sound p chatID h d annot w r w' hres
  obtain ⟨ext, htr, hall⟩ := hb.trace
  exact ⟨ext, Advanced.of_quiet htr (bridged_of_byHandleAnnot hall) hb.le.subs⟩

/-- One successful turn of the loop over the annotations fetched: the
annotation is bridged, then its update time is written. -/
theorem Advanced.turn (sub : common.Subscription) (w1 : World σ τ) (annot : hyp.Annotation)
    (t : Time) (m : Int) (hup : annot.Updated = some t) :
    Advanced sub w1
      [Event.Handled annot (.ok m),
       Event.UpdateSubscription { sub with SearchAfter := t }
        ((w1.log (Event.Handled annot (.ok m))).Storage.UpdateSubscription
          { sub with SearchAfter := t }).1]
      { sub with SearchAfter := t }
      ({ w1.log (Event.Handled annot (.ok m)) with
          Storage := ((w1.log (Event.Handled annot (.ok m))).Storage.UpdateSubscription
            { sub with SearchAfter := t }).2 }.log
        (Event.UpdateSubscription { sub with SearchAfter := t }
          ((w1.log (Event.Handled annot (.ok m))).Storage.UpdateSubscription
            { sub with SearchAfter := t }).1)) := by
  refine ⟨by simp [World.log], rfl, rfl, rfl, ?_, ?_, ?_⟩
  · intro g c
    exact db.DbStorage.UpdateSubscription_countP _ _ g c
  · intro hnone
    simp [bridged, Event.bridged?] at hnone
  · intro a ha
    have : a = annot := by
      simp [bridged, Event.bridged?] at ha
      exact ha.symm
    subst this
    refine ⟨t, hup, rfl, fun hc => ?_⟩
    exact db.DbStorage.Subscription_of_update w1.Storage { sub with SearchAfter := t } hc

theorem handleSubRange_advanced (p : Poller σ τ) (depth : Nat) (h : hyp.Client σ) :
    ∀ (annots : List hyp.Annotation) (sub : common.Subscription) (w : World σ τ) (flag : Bool)
      (sub' : common.Subscription) (w' : World σ τ),
      handleSubRange p depth h annots sub w = some (flag, sub', w') →
      ∃ ext, Advanced sub w ext sub' w' := by
  intro annots
  induction annots with
  | nil =>
    intro sub w flag sub' w' hres
    simp only [handleSubRange, Option.some.injEq, Prod.mk.injEq] at hres
    obtain ⟨-, rfl, rfl⟩ := hres
    exact ⟨[], Advanced.of_quiet (by simp) rfl rfl⟩
  | cons annot rest ih =>
    intro sub w flag sub' w' hres
    rw [handleSubRange] at hres
    cases hup : annot.Updated with
    | none =>
      simp only [hup, Option.some.injEq, Prod.mk.injEq] at hres
      obtain ⟨-, rfl, rfl⟩ := hres
      exact ⟨[], Advanced.of_quiet (by simp) rfl rfl⟩
    | some t =>
      simp only [hup] at hres
      cases hha : handleAnnot p depth annot sub.ChatID h w with
      | none => simp [hha] at hres
      | some out =>
        obtain ⟨r, w1⟩ := out
        obtain ⟨ext1, hadv1⟩ := Advanced.of_handleAnnot sub hha
        cases r with
        | error e =>
          simp only [hha, Option.some.injEq, Prod.mk.injEq] at hres
          obtain ⟨-, rfl, rfl⟩ := hres
          exact ⟨ext1 ++ [Event.Handled annot (.error e)],
            hadv1.append (Advanced.of_quiet rfl (by simp [bridged, Event.bridged?]) rfl)⟩
        | ok m =>
          simp only [hha] at hres
          obtain ⟨ext2, hadv2⟩ := ih _ _ _ _ _ hres
          exact ⟨ext1 ++ (_ ++ ext2), hadv1.append ((Advanced.turn sub w1 annot t m hup).append hadv2)⟩

theorem handleSubLoop_advanced (p : Poller σ τ) (depth : Nat) (h : hyp.Client σ) :
    ∀ (passes : Nat) (sub : common.Subscription) (w : World σ τ) (err : Option Error)
      (sub' : common.Subscription) (w' : World σ τ),
      handleSubLoop p depth h passes sub w = some (err, sub', w') →
      ∃ ext, Advanced sub w ext sub' w' := by
  intro passes
  induction passes with
  | zero => intro sub w err sub' w' hres; simp [handleSubLoop] at hres
  | succ n ih =>
    intro sub w err sub' w' hres
    rw [handleSubLoop] at hres
    split at hres
    · rename_i w0 hd
      simp only [Option.some.injEq, Prod.mk.injEq] at hres
      obtain ⟨-, rfl, rfl⟩ := hres
      rw [(isDone_true hd).1]
      exact ⟨[], Advanced.of_quiet (by simp) rfl rfl⟩
    · rename_i w0 hd
      obtain ⟨-, -, hst, htr, -⟩ := isDone_false hd
      have hadv0 : Advanced sub w
          [Event.AnnotationsAfter sub.HypToken sub.HypGroup sub.SearchAfter
            (h.AnnotationsAfter w0.hyp sub.SearchAfter)] sub
          (w0.log (Event.AnnotationsAfter sub.HypToken sub.HypGroup sub.SearchAfter
            (h.AnnotationsAfter w0.hyp sub.SearchAfter))) :=
        Advanced.of_quiet (by simp [World.log, htr]) (by simp [bridged, Event.bridged?])
          (by simp [World.log, hst])
      simp only at hres
      split at hres
      · simp only [Option.some.injEq, Prod.mk.injEq] at hres
        obtain ⟨-, rfl, rfl⟩ := hres
        exact ⟨_, hadv0⟩
      · rename_i annots hfetch
        split at hres
        · simp only [Option.some.injEq, Prod.mk.injEq] at hres
          obtain ⟨-, rfl, rfl⟩ := hres
          exact ⟨_, hadv0⟩
        · split at hres
          · simp at hres
          · rename_i sub1 w2 hrange
            simp only [Option.some.injEq, Prod.mk.injEq] at hres
            obtain ⟨-, rfl, rfl⟩ := hres
            obtain ⟨ext1, hadv1⟩ := handleSubRange_advanced p depth h _ _ _ _ _ _ hrange
            exact ⟨_, hadv0.append hadv1⟩
          · rename_i sub1 w2 hrange
            obtain ⟨ext1, hadv1⟩ := handleSubRange_advanced p depth h _ _ _ _ _ _ hrange
            obtain ⟨ext2, hadv2⟩ := ih _ _ _ _ _ hres
            exact ⟨_, hadv0.append (hadv1.append hadv2)⟩

end poller

namespace poller
variable {σ τ : Type}

theorem not_failed_of_byHandleAnnot {ext : List Event}
    (h : ∀ e ∈ ext, e.byHandleAnnot = true) : ∀ e ∈ ext, e.failed = false := by
  intro e he
  have := h e he
  cases e <;> simp [Event.byHandleAnnot] at this <;> rfl

theorem dropLast_append_quiet {e1 e2 : List Event} (h1 : ∀ e ∈ e1, e.failed = false)
    (h2 : ∀ e ∈ e2.dropLast, e.failed = false) : ∀ e ∈ (e1 ++ e2).dropLast, e.failed = false := by
  intro e he
  by_cases hnil : e2 = []
  · subst hnil
    rw [List.append_nil] at he
    exact h1 e (List.mem_of_mem_dropLast he)
  · rw [List.dropLast_append_of_ne_nil _ hnil] at he
    rcases List.mem_append.1 he with he | he
    · exact h1 e he
    · exact h2 e he

/-- In the loop over the annotations fetched, a failed bridging is the last
event, and it makes the loop return. -/
theorem handleSubRange_stops (p : Poller σ τ) (depth : Nat) (h : hyp.Client σ) :
    ∀ (annots : List hyp.Annotation) (sub : common.Subscription) (w : World σ τ) (flag : Bool)
      (sub' : common.Subscription) (w' : World σ τ),
      handleSubRange p depth h annots sub w = some (flag, sub', w') →
      ∃ ext, w'.trace = w.trace ++ ext ∧ (∀ e ∈ ext.dropLast, e.failed = false) ∧
        (flag = false → ∀ e ∈ ext, e.failed = false) := by
  intro annots
  induction annots with
  | nil =>
    intro sub w flag sub' w' hres
    simp only [handleSubRange, Option.some.injEq, Prod.mk.injEq] at hres
    obtain ⟨-, -, rfl⟩ := hres
    exact ⟨[], by simp, by simp, by simp⟩
  | cons annot rest ih =>
    intro sub w flag sub' w' hres
    rw [handleSubRange] at hres
    cases hup : annot.Updated with
    | none =>
      simp only [hup, Option.some.injEq, Prod.mk.injEq] at hres
      obtain ⟨-, -, rfl⟩ := hres
      exact ⟨[], by simp, by simp, by simp⟩
    | some t =>
      simp only [hup] at hres
      cases hha : handleAnnot p depth annot sub.ChatID h w with
      | none => simp [hha] at hres
      | some out =>
        obtain ⟨r, w1⟩ := out
        obtain ⟨ext1, htr1, hall1⟩ := (handleAnnot_sound p _ h depth annot w r w1 hha).trace
        have hq1 := not_failed_of_byHandleAnnot hall1
        cases r with
        | error e =>
          simp only [hha, Option.some.injEq, Prod.mk.injEq] at hres
          obtain ⟨rfl, -, rfl⟩ := hres
          refine ⟨ext1 ++ [Event.Handled annot (.error e)], by simp [World.log, htr1], ?_,
            by simp⟩
          exact dropLast_append_quiet hq1 (by simp)
        | ok m =>
          simp only [hha] at hres
          obtain ⟨ext2, htr2, hdl2, hfl2⟩ := ih _ _ _ _ _ hres
          have hq : ∀ e ∈ ext1 ++ [Event.Handled annot (.ok m),
              Event.UpdateSubscription { sub with SearchAfter := t }
                ((w1.log (Event.Handled annot (.ok m))).Storage.UpdateSubscription
                  { sub with SearchAfter := t }).1], e.failed = false := by
            intro e he
            rcases List.mem_append.1 he with he | he
            · exact hq1 e he
            · simp only [List.mem_cons, List.mem_singleton, List.not_mem_nil, or_false] at he
              rcases he with rfl | rfl <;> rfl
          refine ⟨(ext1 ++ [Event.Handled annot (.ok m),
              Event.UpdateSubscription { sub with SearchAfter := t }
                ((w1.log (Event.Handled annot (.ok m))).Storage.UpdateSubscription
                  { sub with SearchAfter := t }).1]) ++ ext2,
            by rw [htr2]; simp [World.log, htr1], dropLast_append_quiet hq hdl2, ?_⟩
          intro hflag e he
          rcases List.mem_append.1 he with he | he
          · exact hq e he
          · exact hfl2 hflag e he

/-- A failed bridging is the last event of `handleSub`, which then returns no error. -/
theorem handleSubLoop_stops (p : Poller σ τ) (depth : Nat) (h : hyp.Client σ) :
    ∀ (passes : Nat) (sub : common.Subscription) (w : World σ τ) (err : Option Error)
      (sub' : common.Subscription) (w' : World σ τ),
      handleSubLoop p depth h passes sub w = some (err, sub', w') →
      ∃ ext, w'.trace = w.trace ++ ext ∧ (∀ e ∈ ext.dropLast, e.failed = false) ∧
        ((∃ e ∈ ext, e.failed = true) → err = none) := by
  intro passes
  induction passes with
  | zero => intro sub w err sub' w' hres; simp [handleSubLoop] at hres
  | succ n ih =>
    intro sub w err sub' w' hres
    rw [handleSubLoop] at hres
    split at hres
    · rename_i w0 hd
      simp only [Option.some.injEq, Prod.mk.injEq] at hres
      obtain ⟨-, -, rfl⟩ := hres
      rw [(isDone_true hd).1]
      exact ⟨[], by simp, by simp, by simp⟩
    · rename_i w0 hd
      obtain ⟨-, -, -, htr, -⟩ := isDone_false hd
      have hq0 : ∀ e ∈ [Event.AnnotationsAfter sub.HypToken sub.HypGroup sub.SearchAfter
          (h.AnnotationsAfter w0.hyp sub.SearchAfter)], e.failed = false := by
        intro e he
        rw [List.mem_singleton] at he
        subst he
        rfl
      simp only at hres
      split at hres
      · simp only [Option.some.injEq, Prod.mk.injEq] at hres
        obtain ⟨rfl, -, rfl⟩ := hres
        exact ⟨[Event.AnnotationsAfter sub.HypToken sub.HypGroup sub.SearchAfter
          (h.AnnotationsAfter w0.hyp sub.SearchAfter)], by simp only [World.log, htr],
          by simp, fun _ => rfl⟩
      · rename_i annots hfetch
        split at hres
        · simp only [Option.some.injEq, Prod.mk.injEq] at hres
          obtain ⟨rfl, -, rfl⟩ := hres
          exact ⟨[Event.AnnotationsAfter sub.HypToken sub.HypGroup sub.SearchAfter
          (h.AnnotationsAfter w0.hyp sub.SearchAfter)], by simp only [World.log, htr],
          by simp, fun _ => rfl⟩
        · split at hres
          · simp at hres
          · rename_i sub1 w2 hrange
            simp only [Option.some.injEq, Prod.mk.injEq] at hres
            obtain ⟨rfl, -, rfl⟩ := hres
            obtain ⟨ext1, htr1, hdl1, -⟩ := handleSubRange_stops p depth h _ _ _ _ _ _ hrange
            exact ⟨_ ++ ext1, by rw [htr1]; simp [World.log, htr],
              dropLast_append_quiet hq0 hdl1, fun _ => rfl⟩
          · rename_i sub1 w2 hrange
            obtain ⟨ext1, htr1, -, hfl1⟩ := handleSubRange_stops p depth h _ _ _ _ _ _ hrange
            obtain ⟨ext2, htr2, hdl2, herr2⟩ := ih _ _ _ _ _ hres
            have hq : ∀ e ∈ [Event.AnnotationsAfter sub.HypToken sub.HypGroup sub.SearchAfter
                (h.AnnotationsAfter w0.hyp sub.SearchAfter)] ++ ext1, e.failed = false := by
              intro e he
              rcases List.mem_append.1 he with he | he
              · exact hq0 e he
              · exact hfl1 rfl e he
            refine ⟨(_ ++ ext1) ++ ext2, by rw [htr2, htr1]; simp [World.log, htr],
              dropLast_append_quiet hq hdl2, ?_⟩
            rintro ⟨e, he, hfe⟩
            rcases List.mem_append.1 he with he | he
            · rw [hq e he] at hfe
              exact Bool.noConfusion hfe
            · exact herr2 ⟨e, he, hfe⟩

/-- C5, amended. (1) When `handleAnnot` succeeds on the first annotation of a
batch, `handleSub` goes on with the rest of the batch from a world in which
the subscription in memory carries that annotation's update time and the
store, which was written at once, carries it in whole microseconds. (2) A
failed bridging is the last event of `handleSub`, which then returns no
error. (3) After `handleSub` on a subscription that the store holds, the
watermark in memory is the update time of the last annotation bridged and the
watermark stored is that time in whole microseconds; when no annotation was
bridged, both are what they were. -/
theorem handleSub_watermark (p : Poller σ τ) (depth passes : Nat) (sub sub' : common.Subscription)
    (w w' : World σ τ) (err : Option Error)
    (hrow : w.Storage.SubscriptionsTable.countP
      (fun r => r.hasKey sub.HypGroup sub.ChatID) = 1)
    (hres : handleSub p depth passes sub w = some (err, sub', w')) :
    (∀ (h : hyp.Client σ) (annot : hyp.Annotation) (rest : List hyp.Annotation)
        (cur : common.Subscription) (v v1 : World σ τ) (t : Time) (m : Int),
        annot.Updated = some t →
        handleAnnot p depth annot cur.ChatID h v = some (.ok m, v1) →
        v.Storage.SubscriptionsTable.countP (fun r => r.hasKey cur.HypGroup cur.ChatID) = 1 →
        ∃ v2, handleSubRange p depth h (annot :: rest) cur v
            = handleSubRange p depth h rest { cur with SearchAfter := t } v2 ∧
          v2.trace = v1.trace ++ [Event.Handled annot (.ok m),
            Event.UpdateSubscription { cur with SearchAfter := t } none] ∧
          v2.Storage.Subscription cur.ChatID cur.HypGroup
            = .ok ⟨cur.HypToken, cur.HypGroup, time.ofUnixMicro (time.UnixMicro t),
                cur.ChatID⟩) ∧
    ∃ ext, w'.trace = w.trace ++ ext ∧
      (∀ e ∈ ext.dropLast, e.failed = false) ∧
      ((∃ e ∈ ext, e.failed = true) → err = none) ∧
      ((bridged ext).getLast? = none →
        sub' = sub ∧ w'.Storage.Subscription sub.ChatID sub.HypGroup
          = w.Storage.Subscription sub.ChatID sub.HypGroup) ∧
      (∀ a, (bridged ext).getLast? = some a →
        ∃ t, a.Updated = some t ∧ sub'.SearchAfter = t ∧
          w'.Storage.Subscription sub.ChatID sub.HypGroup
            = .ok ⟨sub.HypToken, sub.HypGroup, time.ofUnixMicro (time.UnixMicro t),
                sub.ChatID⟩) := by
  constructor
  · intro h annot rest cur v v1 t m hup hha hcount
    have hb := handleAnnot_sound p _ h depth annot v _ v1 hha
    have hcount1 : v1.Storage.SubscriptionsTable.countP
        (fun r => r.hasKey cur.HypGroup cur.ChatID) = 1 := by rw [hb.le.subs]; exact hcount
    have hok : (v1.Storage.UpdateSubscription { cur with SearchAfter := t }).1 = none :=
      db.DbStorage.UpdateSubscription_ok v1.Storage { cur with SearchAfter := t }
        hcount1
    refine ⟨{ v1.log (Event.Handled annot (.ok m)) with
        Storage := ((v1.log (Event.Handled annot (.ok m))).Storage.UpdateSubscription
          { cur with SearchAfter := t }).2 }.log
        (Event.UpdateSubscription { cur with SearchAfter := t }
          ((v1.log (Event.Handled annot (.ok m))).Storage.UpdateSubscription
            { cur with SearchAfter := t }).1),
      by rw [handleSubRange]; simp only [hup, hha], ?_, ?_⟩
    · simp [World.log, hok]
    · exact db.DbStorage.Subscription_of_update v1.Storage { cur with SearchAfter := t } hcount1
  · unfold handleSub at hres
    obtain ⟨ext, hadv⟩ := handleSubLoop_advanced p depth _ passes sub w err sub' w' hres
    obtain ⟨ext2, htr2, hdl, herr⟩ := handleSubLoop_stops p depth _ passes sub w err sub' w' hres
    have hext : ext2 = ext := List.append_cancel_left (htr2.symm.trans hadv.trace)
    subst hext
    refine ⟨ext2, htr2, hdl, herr, ?_, ?_⟩
    · intro hnone
      obtain ⟨hs, ht⟩ := hadv.still hnone
      exact ⟨hs, db.DbStorage.Subscription_table_congr ht _ _⟩
    · intro a ha
      obtain ⟨t, hup, hsa, hst⟩ := hadv.moved a ha
      exact ⟨t, hup, hsa, hst hrow⟩

theorem updates_append (e1 e2 : List Event) : updates (e1 ++ e2) = updates e1 ++ updates e2 := by
  simp [updates]

theorem updates_of_byHandleAnnot {ext : List Event} (h : ∀ e ∈ ext, e.byHandleAnnot = true) :
    updates ext = [] := by
  unfold updates
  rw [List.filterMap_eq_nil_iff]
  intro e he
  have := h e he
  cases e <;> simp [Event.byHandleAnnot] at this <;> rfl

theorem Rising.of_silent (sub : common.Subscription) {ext : List Event} (h : updates ext = []) :
    Rising sub ext sub :=
  ⟨by simp [h], by simp [h]⟩

theorem Rising.concat {sub sub1 sub2 : common.Subscription} {e1 e2 : List Event}
    (h1 : Rising sub e1 sub1) (h2 : Rising sub1 e2 sub2) : Rising sub (e1 ++ e2) sub2 := by
  have hc2 := List.chain'_cons'.1 h2.chain
  constructor
  · rw [updates_append, List.map_append, ← List.cons_append]
    refine List.Chain'.append h1.chain hc2.2 ?_
    intro x hx y hy
    rw [h1.last] at hx
    cases hx
    exact hc2.1 y hy
  · rw [updates_append, List.map_append, ← List.cons_append, List.getLast?_append]
    have := h2.last
    rw [List.getLast?_cons] at this
    cases hl : (List.map (fun s : common.Subscription => s.SearchAfter) (updates e2)).getLast? with
    | none =>
      rw [hl] at this
      simp only [Option.getD_none, Option.some.injEq] at this
      simp [h1.last, this]
    | some v =>
      rw [hl] at this
      simp only [Option.getD_some, Option.some.injEq] at this
      simp [this]

theorem handleSubRange_rising (p : Poller σ τ) (depth : Nat) (h : hyp.Client σ) :
    ∀ (annots : List hyp.Annotation) (sub : common.Subscription) (w : World σ τ) (flag : Bool)
      (sub' : common.Subscription) (w' : World σ τ),
      (∀ a ∈ annots, ∀ u, a.Updated = some u → sub.SearchAfter ≤ u) →
      annots.Pairwise (fun a b => ∀ u v, a.Updated = some u → b.Updated = some v → u ≤ v) →
      handleSubRange p depth h annots sub w = some (flag, sub', w') →
      ∃ ext, w'.trace = w.trace ++ ext ∧ w'.hyp = w.hyp ∧ Rising sub ext sub' := by
  intro annots
  induction annots with
  | nil =>
    intro sub w flag sub' w' _ _ hres
    simp only [handleSubRange, Option.some.injEq, Prod.mk.injEq] at hres
    obtain ⟨-, rfl, rfl⟩ := hres
    exact ⟨[], by simp, rfl, Rising.of_silent _ rfl⟩
  | cons annot rest ih =>
    intro sub w flag sub' w' hlow hsorted hres
    rw [handleSubRange] at hres
    cases hup : annot.Updated with
    | none =>
      simp only [hup, Option.some.injEq, Prod.mk.injEq] at hres
      obtain ⟨-, rfl, rfl⟩ := hres
      exact ⟨[], by simp, rfl, Rising.of_silent _ rfl⟩
    | some t =>
      simp only [hup] at hres
      cases hha : handleAnnot p depth annot sub.ChatID h w with
      | none => simp [hha] at hres
      | some out =>
        obtain ⟨r, w1⟩ := out
        have hb := handleAnnot_sound p _ h depth annot w r w1 hha
        obtain ⟨ext1, htr1, hall1⟩ := hb.trace
        have hhyp1 := hb.le.hyp
        have hr1 : Rising sub ext1 sub := Rising.of_silent _ (updates_of_byHandleAnnot hall1)
        cases r with
        | error e =>
          simp only [hha, Option.some.injEq, Prod.mk.injEq] at hres
          obtain ⟨-, rfl, rfl⟩ := hres
          exact ⟨ext1 ++ [Event.Handled annot (.error e)], by simp [World.log, htr1], hhyp1,
            hr1.concat (Rising.of_silent _ (by simp [updates, Event.updated?]))⟩
        | ok m =>
          simp only [hha] at hres
          have hle : sub.SearchAfter ≤ t := hlow annot (by simp) t hup
          have hlow' : ∀ a ∈ rest, ∀ u, a.Updated = some u → t ≤ u :=
            fun a ha u hu => (List.pairwise_cons.1 hsorted).1 a ha t u hup hu
          obtain ⟨ext2, htr2, hhyp2, hr2⟩ := ih { sub with SearchAfter := t } _ _ _ _ hlow'
            (List.pairwise_cons.1 hsorted).2 hres
          have hturn : Rising sub [Event.Handled annot (.ok m),
              Event.UpdateSubscription { sub with SearchAfter := t }
                ((w1.log (Event.Handled annot (.ok m))).Storage.UpdateSubscription
                  { sub with SearchAfter := t }).1] { sub with SearchAfter := t } :=
            ⟨by simp [updates, Event.updated?, hle], by simp [updates, Event.updated?]⟩
          exact ⟨ext1 ++ (_ ++ ext2), by rw [htr2]; simp [World.log, htr1],
            hhyp2.trans hhyp1, hr1.concat (hturn.concat hr2)⟩

theorem handleSubLoop_rising (p : Poller σ τ) (depth : Nat) (h : hyp.Client σ) :
    ∀ (passes : Nat) (sub : common.Subscription) (w : World σ τ) (err : Option Error)
      (sub' : common.Subscription) (w' : World σ τ),
      h.SortedAfter w.hyp →
      handleSubLoop p depth h passes sub w = some (err, sub', w') →
      ∃ ext, w'.trace = w.trace ++ ext ∧ Rising sub ext sub' := by
  intro passes
  induction passes with
  | zero => intro sub w err sub' w' _ hres; simp [handleSubLoop] at hres
  | succ n ih =>
    intro sub w err sub' w' hsorted hres
    rw [handleSubLoop] at hres
    split at hres
    · rename_i w0 hd
      simp only [Option.some.injEq, Prod.mk.injEq] at hres
      obtain ⟨-, rfl, rfl⟩ := hres
      rw [(isDone_true hd).1]
      exact ⟨[], by simp, Rising.of_silent _ rfl⟩
    · rename_i w0 hd
      obtain ⟨hhyp0, -, -, htr, -⟩ := isDone_false hd
      rw [← hhyp0] at hsorted
      have hr0 : Rising sub [Event.AnnotationsAfter sub.HypToken sub.HypGroup sub.SearchAfter
          (h.AnnotationsAfter w0.hyp sub.SearchAfter)] sub :=
        Rising.of_silent _ (by simp [updates, Event.updated?])
      simp only at hres
      split at hres
      · simp only [Option.some.injEq, Prod.mk.injEq] at hres
        obtain ⟨-, rfl, rfl⟩ := hres
        exact ⟨_, by simp only [World.log, htr], hr0⟩
      · rename_i annots hfetch
        obtain ⟨hafter, hpair⟩ := hsorted _ _ hfetch
        have hlow : ∀ a ∈ annots, ∀ u, a.Updated = some u → sub.SearchAfter ≤ u :=
          fun a ha u hu => le_of_lt (hafter a ha u hu)
        split at hres
        · simp only [Option.some.injEq, Prod.mk.injEq] at hres
          obtain ⟨-, rfl, rfl⟩ := hres
          exact ⟨_, by simp only [World.log, htr], hr0⟩
        · split at hres
          · simp at hres
          · rename_i sub1 w2 hrange
            simp only [Option.some.injEq, Prod.mk.injEq] at hres
            obtain ⟨-, rfl, rfl⟩ := hres
            obtain ⟨ext1, htr1, -, hr1⟩ :=
              handleSubRange_rising p depth h _ _ _ _ _ _ hlow hpair hrange
            exact ⟨_ ++ ext1, by rw [htr1]; simp [World.log, htr], hr0.concat hr1⟩
          · rename_i sub1 w2 hrange
            obtain ⟨ext1, htr1, hhyp1, hr1⟩ :=
              handleSubRange_rising p depth h _ _ _ _ _ _ hlow hpair hrange
            obtain ⟨ext2, htr2, hr2⟩ := ih _ _ _ _ _
              (by rw [hhyp1]; exact hsorted) hres
            exact ⟨(_ ++ ext1) ++ ext2, by rw [htr2, htr1]; simp [World.log, htr],
              (hr0.concat hr1).concat hr2⟩

/-- Within the range of `int64` microseconds, `UnixMicro` is the number of
whole microseconds, rounded down. -/
theorem UnixMicro_of_representable {t : Time} (h : time.Representable t) :
    time.UnixMicro t = t / 1000 := by
  unfold time.UnixMicro int64
  rw [Int.fdiv_eq_ediv _ (by decide : (0 : Int) ≤ 1000000000)]
  unfold time.Representable at h
  have hint : ∀ x : Int, -9223372036854775808000 ≤ x → x < 9223372036854775808000 →
      ((x / 1000000000 * 1000000 + 9223372036854775808) % 18446744073709551616
          - 9223372036854775808 + x % 1000000000 / 1000 + 9223372036854775808)
        % 18446744073709551616 - 9223372036854775808 = x / 1000 := by
    intro x h1 h2
    omega
  exact hint t h.1 h.2

/-- Within the range of `int64` microseconds, `UnixMicro` keeps the order. -/
theorem UnixMicro_mono {t u : Time} (ht : time.Representable t) (hu : time.Representable u)
    (h : t ≤ u) : time.UnixMicro t ≤ time.UnixMicro u := by
  rw [UnixMicro_of_representable ht, UnixMicro_of_representable hu]
  exact Int.ediv_le_ediv (by decide) h

/-- Every entry of a non-decreasing list lies between the first and the last. -/
theorem chain_between {b : Time} :
    ∀ (l : List Time) (a : Time), List.Chain' (· ≤ ·) (a :: l) → (a :: l).getLast? = some b →
      ∀ x ∈ a :: l, a ≤ x ∧ x ≤ b := by
  intro l
  induction l with
  | nil =>
    intro a _ hlast x hx
    simp only [List.getLast?_singleton, Option.some.injEq] at hlast
    simp only [List.mem_singleton] at hx
    subst hlast hx
    exact ⟨le_refl _, le_refl _⟩
  | cons c l ih =>
    intro a hc hlast x hx
    rw [List.chain'_cons] at hc
    rw [List.getLast?_cons_cons] at hlast
    have hrest := ih c hc.2 hlast
    rcases List.mem_cons.1 hx with rfl | hx
    · exact ⟨le_refl _, le_trans hc.1 (hrest c (List.mem_cons_self _ _)).2⟩
    · exact ⟨le_trans hc.1 (hrest x hx).1, (hrest x hx).2⟩

/-- C7, amended. With a client whose bulk fetch, on the annotation service as
it is during the call, returns only annotations updated strictly after the
watermark asked for, in ascending order of update time, the watermark of the
subscription never decreases during `handleSub`: each subscription passed to
`UpdateSubscription` carries a watermark at least as large as the one passed
before it, the first one at least as large as the watermark `handleSub`
started with, and the watermark in memory at the end is the last one passed.
When the watermark at the start and the watermark at the end are instants
whose microseconds since the epoch fit an `int64`, so is every watermark
passed, and the values written to the store, `UnixMicro` of the watermarks
passed, never decrease either. -/
theorem handleSub_watermark_rises (p : Poller σ τ) (depth passes : Nat)
    (sub sub' : common.Subscription) (w w' : World σ τ) (err : Option Error)
    (hsorted : (p.Hyp.NewClient sub.HypToken sub.HypGroup).SortedAfter w.hyp)
    (hres : handleSub p depth passes sub w = some (err, sub', w')) :
    ∃ ext, w'.trace = w.trace ++ ext ∧
      List.Chain' (· ≤ ·) (sub.SearchAfter :: (updates ext).map (fun s => s.SearchAfter)) ∧
      (sub.SearchAfter :: (updates ext).map (fun s => s.SearchAfter)).getLast?
        = some sub'.SearchAfter ∧
      (time.Representable sub.SearchAfter → time.Representable sub'.SearchAfter →
        (∀ s ∈ updates ext, time.Representable s.SearchAfter) ∧
        List.Chain' (· ≤ ·) (time.UnixMicro sub.SearchAfter ::
          (updates ext).map (fun s => time.UnixMicro s.SearchAfter))) := by
  unfold handleSub at hres
  obtain ⟨ext, htr, hr⟩ := handleSubLoop_rising p depth _ passes sub w err sub' w' hsorted hres
  refine ⟨ext, htr, hr.chain, hr.last, ?_⟩
  intro hfirst hlast
  have hbetween := chain_between _ _ hr.chain hr.last
  have hrep : ∀ x ∈ sub.SearchAfter :: (updates ext).map (fun s => s.SearchAfter),
      time.Representable x := by
    intro x hx
    obtain ⟨hlow, hhigh⟩ := hbetween x hx
    exact ⟨le_trans hfirst.1 hlow, lt_of_le_of_lt hhigh hlast.2⟩
  constructor
  · intro s hs
    exact hrep _ (List.mem_cons_of_mem _ (List.mem_map.2 ⟨s, hs, rfl⟩))
  · have hmem := List.Chain'.iff_mem.1 hr.chain
    have hmapped : List.Chain' (fun a b => time.UnixMicro a ≤ time.UnixMicro b)
        (sub.SearchAfter :: (updates ext).map (fun s => s.SearchAfter)) :=
      hmem.imp (fun {a b} hab => UnixMicro_mono (hrep a hab.1) (hrep b hab.2.1) hab.2.2)
    have := (List.chain'_map time.UnixMicro).2 hmapped
    simpa [List.map_map, Function.comp_def] using this

end poller

/-- The fake client fetches in ascending order when the annotations of the
fake service are in ascending order of update time. -/
theorem fake.NewClient_sortedAfter (now : Time) (token group : String) (parent : fake.HypFactory)
    (hsorted : parent.Annots.Pairwise
      (fun a b => ∀ u v, a.Updated = some u → b.Updated = some v → u ≤ v)) :
    (fake.NewClient now token group).SortedAfter parent := by
  intro t annots hfetch
  simp only [fake.NewClient, fake.Hyp.AnnotationsAfter, Except.ok.injEq] at hfetch
  subst hfetch
  constructor
  · intro a ha u hu
    have := (List.mem_filter.1 ha).2
    simp only [hu, Bool.and_eq_true, decide_eq_true_eq, time.After] at this
    exact this.2
  · exact hsorted.sublist (List.filter_sublist _)

namespace poller

open sample in
/-- Witness of C5, on test `TestHandleSub_Reply`: both annotations are
bridged and the watermark ends at the update time of `a2`. -/
theorem handleSub_watermark_witness :
    ∃ sub' w', handleSub sample.poller 2 3 ⟨"ht", "grp", 1000000000, 42⟩
        (world [a1, a2] 1000000000) = some (none, sub', w') ∧
      ∃ ext, w'.trace = (world [a1, a2] 1000000000).trace ++ ext ∧
        ∀ a, (bridged ext).getLast? = some a →
          ∃ t, a.Updated = some t ∧ sub'.SearchAfter = t ∧
            w'.Storage.Subscription 42 "grp"
              = .ok ⟨"ht", "grp", time.ofUnixMicro (time.UnixMicro t), 42⟩ := by
  have hres : handleSub sample.poller 2 3 ⟨"ht", "grp", 1000000000, 42⟩
      (world [a1, a2] 1000000000) = some (none, _, _) := rfl
  have hrow : (world [a1, a2] 1000000000).Storage.SubscriptionsTable.countP
      (fun r => r.hasKey "grp" 42) = 1 := rfl
  have hthm := handleSub_watermark sample.poller 2 3
    ⟨"ht", "grp", 1000000000, 42⟩ _ (world [a1, a2] 1000000000) _ none hrow hres
  obtain ⟨ext, htr, -, -, -, hmoved⟩ := hthm.2
  exact ⟨_, _, hres, ext, htr, hmoved⟩

open sample in
/-- C5 as stated fails: an annotation updated 500 nanoseconds after a whole
microsecond is bridged, and the watermark stored afterwards is not its update
time but that time without the 500 nanoseconds. -/
theorem handleSub_watermark_counterexample :
    ∃ sub' w', handleSub sample.poller 1 2 ⟨"ht", "grp", 1000000000, 42⟩
        (world [annot "a1" 2000000500 [] "Parent"] 1000000000) = some (none, sub', w') ∧
      bridged w'.trace = [annot "a1" 2000000500 [] "Parent"] ∧
      (annot "a1" 2000000500 [] "Parent").Updated = some 2000000500 ∧
      w'.Storage.Subscription 42 "grp" = .ok ⟨"ht", "grp", 2000000000, 42⟩ ∧
      (2000000000 : Time) ≠ 2000000500 :=
  ⟨_, _, rfl, rfl, rfl, rfl, by decide⟩

open sample in
/-- Witness of C7, amended, on test `TestHandleSub_Reply`: the watermark
starts at one second and ends at three, and the values written to the store
do not decrease. -/
theorem handleSub_watermark_rises_witness :
    ∃ sub' w', handleSub sample.poller 2 3 ⟨"ht", "grp", 1000000000, 42⟩
        (world [a1, a2] 1000000000) = some (none, sub', w') ∧
      ∃ ext, w'.trace = (world [a1, a2] 1000000000).trace ++ ext ∧
        List.Chain' (· ≤ ·) ((1000000 : Int) ::
          (updates ext).map (fun s => time.UnixMicro s.SearchAfter)) :=
  have hres : handleSub sample.poller 2 3 ⟨"ht", "grp", 1000000000, 42⟩
      (world [a1, a2] 1000000000) = some (none, ⟨"ht", "grp", 3000000000, 42⟩, _) := rfl
  let ⟨ext, htr, _, _, hstored⟩ := handleSub_watermark_rises sample.poller 2 3
    ⟨"ht", "grp", 1000000000, 42⟩ _ (world [a1, a2] 1000000000) _ none
    (fake.NewClient_sortedAfter 0 "ht" "grp" _ (by simp [world, fake.NewHypFactory, a1, a2, annot]))
    hres
  ⟨_, _, hres, ext, htr, (hstored (by decide) (by decide)).2⟩

open sample in
/-- C7 as stated fails. Two annotations are updated one microsecond apart,
the first at the last instant whose microseconds fit an `int64`
(2^63 - 1 microseconds after the epoch); the fetch returns them after the
watermark and in ascending order, both are bridged, and the second value
written to the store is less than the first: the microseconds of the second
update time wrap around to -2^63. -/
theorem handleSub_watermark_rises_counterexample :
    (fake.NewClient 0 "ht" "grp").SortedAfter
      (world [annot "a1" 9223372036854775807000 [] "A",
        annot "a2" 9223372036854775808000 [] "B"] 1000000000).hyp ∧
    ∃ sub' w', handleSub sample.poller 1 3 ⟨"ht", "grp", 1000000000, 42⟩
        (world [annot "a1" 9223372036854775807000 [] "A",
          annot "a2" 9223372036854775808000 [] "B"] 1000000000) = some (none, sub', w') ∧
      (updates w'.trace).map (fun s => s.SearchAfter)
        = [9223372036854775807000, 9223372036854775808000] ∧
      (updates w'.trace).map (fun s => time.UnixMicro s.SearchAfter)
        = [9223372036854775807, -9223372036854775808] ∧
      w'.Storage.SubscriptionsTable = [⟨"ht", "grp", -9223372036854775808, 42⟩] ∧
      ¬ ((9223372036854775807 : Int) ≤ -9223372036854775808) :=
  ⟨fake.NewClient_sortedAfter 0 "ht" "grp" _
      (by simp [world, fake.NewHypFactory, annot]),
    _, _, rfl, rfl, rfl, rfl, by decide⟩

open sample in
/-- C6 fails on the code. Annotations `a` and `b` carry the same update time;
in the first poll cycle `a` is bridged and the watermark moves to that time,
then `b`, a reply whose parent cannot be fetched, fails. The second poll
cycle fetches nothing for the subscription: `b` is at the watermark, it has
no mapping, and it is not tried again. -/
theorem RunOnce_skips_tied_annotation :
    poller.RunOnce sample.poller 2 3 tied = some (none, tiedOnce) ∧
      bridged tiedOnce.trace = [annot "a" 2000000000 [] "A"] ∧
      tiedOnce.Storage.Subscription 42 "grp" = .ok ⟨"ht", "grp", 2000000000, 42⟩ ∧
      tiedOnce.Storage.MessageID "b" 42 = some (.error Error.ErrNotFound) ∧
      poller.RunOnce sample.poller 2 3 tiedOnce = some (none, tiedTwice) ∧
      tiedTwice.trace = tiedOnce.trace ++ [Event.AnnotationsAfter "ht" "grp" 2000000000 (.ok [])] ∧
      tiedTwice.Storage.Subscription 42 "grp" = .ok ⟨"ht", "grp", 2000000000, 42⟩ ∧
      tiedTwice.Storage.MessageID "b" 42 = some (.error Error.ErrNotFound) :=
  ⟨rfl, rfl, rfl, rfl, rfl, rfl, rfl, rfl⟩

end poller

/-! ## Lemmas and theorems on `onText` -/

namespace db.DbStorage

/-- `SetMessageID` neither reads nor writes the mutex. -/
theorem SetMessageID_mu (s : DbStorage) (b : Bool) (a : String) (meta : common.AnnotationMetadata)
    (c m : Int) :
    ({ s with mu := b } : DbStorage).SetMessageID a meta c m
      = ((s.SetMessageID a meta c m).1, { (s.SetMessageID a meta c m).2 with mu := b }) := by
  unfold SetMessageID uriID conflicts
  simp only
  cases s.URIs.indexOf? meta.URI <;> simp only <;> split <;> rfl

/-- The reference chain that `AnnotationID` returns has no `|` in its ids. -/
theorem AnnotationID_no_sep {s : DbStorage} {c m : Int} {a : String}
    {meta : common.AnnotationMetadata} (h : s.AnnotationID c m = .ok (a, meta)) :
    ∀ x ∈ meta.References, '|' ∉ x.data := by
  unfold AnnotationID at h
  split at h
  · cases h
  · rename_i r _
    split at h
    · cases h
    · simp only [Except.ok.injEq, Prod.mk.injEq] at h
      obtain ⟨-, rfl⟩ := h
      simp only
      split
      · exact strings.Split_no_sep '|' _
      · simp

end db.DbStorage

namespace tbot
variable {σ τ : Type}

/-- What `onText` does with a reply to a bridged message in a chat that has
the subscription, when the message has a sender and the mutex is free. -/
theorem onText_bridge (tb : Bot σ) (msg replyTo : tele.Message) (w : World σ τ)
    (parentAnnotID : String) (parentMeta : common.AnnotationMetadata) (sub : common.Subscription)
    (text : String)
    (hreply : msg.ReplyTo = some replyTo) (hchat : replyTo.Chat.ID = msg.Chat.ID)
    (hparent : w.Storage.AnnotationID msg.Chat.ID replyTo.ID = .ok (parentAnnotID, parentMeta))
    (hsub : w.Storage.Subscription msg.Chat.ID parentMeta.HypGroup = .ok sub)
    (htext : MessageText msg = some text) (hfree : w.Storage.mu = false) :
    onText tb (some msg) w =
      match (tb.Hyp.NewClient sub.HypToken sub.HypGroup).Reply w.hyp text
          (parentMeta.References ++ [parentAnnotID]) parentMeta.URI with
      | (.error err, service) =>
        some (.returned (some err), bridgedWorld w service w.Storage
          [Event.Reply sub.HypToken sub.HypGroup text (parentMeta.References ++ [parentAnnotID])
            parentMeta.URI (.error err)])
      | (.ok annotID, service) =>
        some (.returned (w.Storage.SetMessageID annotID
            ⟨parentMeta.References ++ [parentAnnotID], sub.HypGroup, parentMeta.URI⟩
            msg.Chat.ID msg.ID).1,
          bridgedWorld w service (w.Storage.SetMessageID annotID
            ⟨parentMeta.References ++ [parentAnnotID], sub.HypGroup, parentMeta.URI⟩
            msg.Chat.ID msg.ID).2
          [Event.Reply sub.HypToken sub.HypGroup text (parentMeta.References ++ [parentAnnotID])
            parentMeta.URI (.ok annotID),
           Event.SetMessageID annotID
            ⟨parentMeta.References ++ [parentAnnotID], sub.HypGroup, parentMeta.URI⟩
            msg.Chat.ID msg.ID (w.Storage.SetMessageID annotID
              ⟨parentMeta.References ++ [parentAnnotID], sub.HypGroup, parentMeta.URI⟩
              msg.Chat.ID msg.ID).1]) := by
  have hstore : ({ w.Storage with mu := false } : db.DbStorage) = w.Storage := by
    cases hs : w.Storage
    rw [hs] at hfree
    simp only at hfree
    subst hfree
    rfl
  unfold onText
  simp only [hreply, hchat, ne_eq, not_true_eq_false, ↓reduceIte, hparent, hsub,
    db.DbStorage.Lock, hfree, Bool.false_eq_true, htext]
  cases hrep : (tb.Hyp.NewClient sub.HypToken sub.HypGroup).Reply w.hyp text
      (parentMeta.References ++ [parentAnnotID]) parentMeta.URI with
  | mk res service =>
    cases res with
    | error err =>
      simp only [World.log, hrep, db.DbStorage.Unlock, bridgedWorld, hstore]
      simp
    | ok annotID =>
      have hmu := db.DbStorage.SetMessageID_mu w.Storage true annotID
        ⟨parentMeta.References ++ [parentAnnotID], sub.HypGroup, parentMeta.URI⟩
        msg.Chat.ID msg.ID
      have hmu2 := (db.DbStorage.uriID_frame w.Storage parentMeta.URI)
      have hkeep : (w.Storage.SetMessageID annotID
          ⟨parentMeta.References ++ [parentAnnotID], sub.HypGroup, parentMeta.URI⟩
          msg.Chat.ID msg.ID).2.mu = false := by
        cases hset : w.Storage.SetMessageID annotID
          ⟨parentMeta.References ++ [parentAnnotID], sub.HypGroup, parentMeta.URI⟩
          msg.Chat.ID msg.ID with
        | mk e st =>
          cases e with
          | none =>
            obtain ⟨-, rfl⟩ := db.DbStorage.SetMessageID_ok hset
            exact hmu2.2.2.trans hfree
          | some e =>
            rw [db.DbStorage.SetMessageID_err hset]
            exact hmu2.2.2.trans hfree
      have hstore2 : ({ (w.Storage.SetMessageID annotID
          ⟨parentMeta.References ++ [parentAnnotID], sub.HypGroup, parentMeta.URI⟩
          msg.Chat.ID msg.ID).2 with mu := false } : db.DbStorage)
          = (w.Storage.SetMessageID annotID
          ⟨parentMeta.References ++ [parentAnnotID], sub.HypGroup, parentMeta.URI⟩
          msg.Chat.ID msg.ID).2 := by
        generalize (w.Storage.SetMessageID annotID
          ⟨parentMeta.References ++ [parentAnnotID], sub.HypGroup, parentMeta.URI⟩
          msg.Chat.ID msg.ID).2 = st at hkeep
        cases st
        simp only at hkeep
        subst hkeep
        rfl
      simp only [World.log, hrep, db.DbStorage.Unlock, bridgedWorld, hmu, hstore2]
      simp

/-- C4. A reply, in the same chat, to a message that the store maps to
annotation `P` with reference chain `R`, in a chat that has the subscription
of that annotation's group, sent by a user while the store mutex is free:
`onText` returns and makes exactly one `Reply` call, for an annotation whose
reference chain is `R` followed by `P`; with `R` empty the chain is `[P]`. -/
theorem onText_reference_chain (tb : Bot σ) (msg replyTo : tele.Message) (w : World σ τ)
    (parentAnnotID : String) (parentMeta : common.AnnotationMetadata) (sub : common.Subscription)
    (text : String)
    (hreply : msg.ReplyTo = some replyTo) (hchat : replyTo.Chat.ID = msg.Chat.ID)
    (hparent : w.Storage.AnnotationID msg.Chat.ID replyTo.ID = .ok (parentAnnotID, parentMeta))
    (hsub : w.Storage.Subscription msg.Chat.ID parentMeta.HypGroup = .ok sub)
    (htext : MessageText msg = some text) (hfree : w.Storage.mu = false) :
    ∃ out w', onText tb (some msg) w = some (out, w') ∧
      ∃ ext res, w'.trace = w.trace ++ ext ∧
        replies ext = [(text, parentMeta.References ++ [parentAnnotID], parentMeta.URI, res)] ∧
        (parentMeta.References = [] →
          replies ext = [(text, [parentAnnotID], parentMeta.URI, res)]) := by
  have hon := onText_bridge tb msg replyTo w parentAnnotID parentMeta sub text hreply hchat
    hparent hsub htext hfree
  cases hrep : (tb.Hyp.NewClient sub.HypToken sub.HypGroup).Reply w.hyp text
      (parentMeta.References ++ [parentAnnotID]) parentMeta.URI with
  | mk res service =>
    rw [hrep] at hon
    cases res with
    | error err =>
      refine ⟨_, _, hon, _, .error err, rfl, ?_, ?_⟩
      · simp [replies, Event.replied?]
      · intro hnil
        simp [replies, Event.replied?, hnil]
    | ok annotID =>
      refine ⟨_, _, hon, _, .ok annotID, rfl, ?_, ?_⟩
      · simp [replies, Event.replied?]
      · intro hnil
        simp [replies, Event.replied?, hnil]

open sample in
/-- Witness of C4, on test `TestOnText_ReplyToReply`: the parent `a0` has the
reference chain `x`, `y`, `z`, and the annotation created in the fake service
has the chain `x`, `y`, `z`, `a0`. -/
theorem onText_reference_chain_witness :
    ∃ w', onText bot (some reply) (chatWorld [] "a0" ["x", "y", "z"]) = some (.returned none, w') ∧
      replies w'.trace = [("Ann (ann) wrote \"hello\"", ["x", "y", "z", "a0"], "", .ok "a1")] ∧
      w'.hyp.Annots.map (fun a => a.References) = [["x", "y", "z", "a0"]] := by
  obtain ⟨out, w', hon, ext, res, htr, hrep, -⟩ := onText_reference_chain bot reply
    (.mk 2 ⟨1⟩ none "" none) (chatWorld [] "a0" ["x", "y", "z"]) "a0" ⟨["x", "y", "z"], "g", ""⟩
    ⟨"hyptoken", "g", 1000000000, 1⟩ "Ann (ann) wrote \"hello\"" rfl rfl rfl rfl rfl rfl
  have heval : onText bot (some reply) (chatWorld [] "a0" ["x", "y", "z"])
      = some (.returned none, _) := rfl
  exact ⟨_, heval, rfl, rfl⟩

/-- C9, amended. When `onText` bridges a chat reply with success (the `Reply`
call returned the new annotation id and `onText` returned no error), the
mapping it recorded carries the reference chain built (the parent's chain
followed by the parent id), the subscription's group and the parent's document
URI; afterwards the store maps the new annotation in the chat to the replying
message, and maps that message back to the new annotation id with the
subscription's group and the parent's document URI and with the reference
chain as the store encodes it, which is the chain built provided the parent
id does not contain the separator `|`. -/
theorem onText_records_mapping (tb : Bot σ) (msg replyTo : tele.Message) (w w' : World σ τ)
    (parentAnnotID : String) (parentMeta : common.AnnotationMetadata) (sub : common.Subscription)
    (text annotID : String) (service : σ)
    (hreply : msg.ReplyTo = some replyTo) (hchat : replyTo.Chat.ID = msg.Chat.ID)
    (hparent : w.Storage.AnnotationID msg.Chat.ID replyTo.ID = .ok (parentAnnotID, parentMeta))
    (hsub : w.Storage.Subscription msg.Chat.ID parentMeta.HypGroup = .ok sub)
    (htext : MessageText msg = some text) (hfree : w.Storage.mu = false)
    (hrep : (tb.Hyp.NewClient sub.HypToken sub.HypGroup).Reply w.hyp text
      (parentMeta.References ++ [parentAnnotID]) parentMeta.URI = (.ok annotID, service))
    (hres : onText tb (some msg) w = some (.returned none, w')) :
    w'.trace = w.trace ++ [Event.Lock,
      Event.Reply sub.HypToken sub.HypGroup text (parentMeta.References ++ [parentAnnotID])
        parentMeta.URI (.ok annotID),
      Event.SetMessageID annotID
        ⟨parentMeta.References ++ [parentAnnotID], sub.HypGroup, parentMeta.URI⟩
        msg.Chat.ID msg.ID none,
      Event.Unlock] ∧
    w'.Storage.MessageID annotID msg.Chat.ID = some (.ok msg.ID) ∧
    ('|' ∉ parentAnnotID.data →
      w'.Storage.AnnotationID msg.Chat.ID msg.ID
        = .ok (annotID, ⟨parentMeta.References ++ [parentAnnotID], sub.HypGroup,
            parentMeta.URI⟩)) := by
  have hon := onText_bridge tb msg replyTo w parentAnnotID parentMeta sub text hreply hchat
    hparent hsub htext hfree
  rw [hrep, hres] at hon
  simp only [Option.some.injEq, Prod.mk.injEq, Outcome.returned.injEq] at hon
  obtain ⟨hnone, rfl⟩ := hon
  have hset : w.Storage.SetMessageID annotID
      ⟨parentMeta.References ++ [parentAnnotID], sub.HypGroup, parentMeta.URI⟩ msg.Chat.ID msg.ID
      = (none, (w.Storage.SetMessageID annotID
        ⟨parentMeta.References ++ [parentAnnotID], sub.HypGroup, parentMeta.URI⟩
        msg.Chat.ID msg.ID).2) := Prod.ext hnone.symm rfl
  refine ⟨by simp [bridgedWorld, ← hnone], ?_, ?_⟩
  · exact db.DbStorage.MessageID_of_set hfree hset
  · intro hsep
    simp only [bridgedWorld]
    rw [db.DbStorage.AnnotationID_of_set hset]
    have hne : parentMeta.References ++ [parentAnnotID] ≠ [] := by simp
    have hall : ∀ x ∈ parentMeta.References ++ [parentAnnotID], '|' ∉ x.data := by
      intro x hx
      rcases List.mem_append.1 hx with hx | hx
      · exact db.DbStorage.AnnotationID_no_sep hparent x hx
      · rw [List.mem_singleton] at hx
        subst hx
        exact hsep
    simp [strings.Split_Join '|' _ hne hall]

open sample in
/-- Witness of C9, on test `TestOnText_ReplyToBot`. -/
theorem onText_records_mapping_witness :
    ∃ w', onText bot (some reply) (chatWorld [] "a0" []) = some (.returned none, w') ∧
      w'.Storage.MessageID "a1" 1 = some (.ok 3) ∧
      w'.Storage.AnnotationID 1 3 = .ok ("a1", ⟨["a0"], "g", ""⟩) := by
  have heval : onText bot (some reply) (chatWorld [] "a0" []) = some (.returned none, _) := rfl
  have hthm := onText_records_mapping bot reply (.mk 2 ⟨1⟩ none "" none) (chatWorld [] "a0" []) _
    "a0" ⟨[], "g", ""⟩ ⟨"hyptoken", "g", 1000000000, 1⟩ "Ann (ann) wrote \"hello\"" "a1" _
    rfl rfl rfl rfl rfl rfl rfl heval
  exact ⟨_, heval, hthm.2.1, hthm.2.2 (by decide)⟩

open sample in
/-- C9 as stated fails: a reply to the message of the annotation with id
`p|q` is bridged with success; the chain built is `p|q` alone, and the store
then gives the chain `p`, `q` for the replying message. -/
theorem onText_records_mapping_counterexample :
    ∃ w', onText bot (some reply) (chatWorld [] "p|q" []) = some (.returned none, w') ∧
      replies w'.trace = [("Ann (ann) wrote \"hello\"", ["p|q"], "", .ok "a1")] ∧
      w'.Storage.AnnotationID 1 3 = .ok ("a1", ⟨["p", "q"], "g", ""⟩) ∧
      w'.Storage.AnnotationID 1 3 ≠ .ok ("a1", ⟨["p|q"], "g", ""⟩) := by
  refine ⟨_, rfl, rfl, rfl, ?_⟩
  intro hsame
  have hread : (Except.ok ("a1", ⟨["p", "q"], "g", ""⟩) :
      Except Error (String × common.AnnotationMetadata))
      = .ok ("a1", ⟨["p|q"], "g", ""⟩) := Eq.trans rfl hsame
  simp at hread

end tbot

/-! ## The two flows together -/

namespace poller
variable {σ τ : Type}

theorem Respected.of_handleSubRange {p : Poller σ τ} {Q : World σ τ → List Event → World σ τ → Prop}
    (hQ : Respected p Q) (depth : Nat) (h : hyp.Client σ) :
    ∀ (annots : List hyp.Annotation) (sub : common.Subscription) (w : World σ τ) (flag : Bool)
      (sub' : common.Subscription) (w' : World σ τ),
      handleSubRange p depth h annots sub w = some (flag, sub', w') → ∃ ext, Q w ext w' := by
  intro annots
  induction annots with
  | nil =>
    intro sub w flag sub' w' hres
    simp only [poller.handleSubRange, Option.some.injEq, Prod.mk.injEq] at hres
    obtain ⟨-, -, rfl⟩ := hres
    exact ⟨[], hQ.nil w⟩
  | cons annot rest ih =>
    intro sub w flag sub' w' hres
    rw [poller.handleSubRange] at hres
    cases hup : annot.Updated with
    | none =>
      simp only [hup, Option.some.injEq, Prod.mk.injEq] at hres
      obtain ⟨-, -, rfl⟩ := hres
      exact ⟨[], hQ.nil w⟩
    | some t =>
      simp only [hup] at hres
      cases hha : handleAnnot p depth annot sub.ChatID h w with
      | none => simp [hha] at hres
      | some out =>
        obtain ⟨r, w1⟩ := out
        obtain ⟨ext1, hq1⟩ := hQ.bridge _ _ _ _ _ _ _ hha
        cases r with
        | error e =>
          simp only [hha, Option.some.injEq, Prod.mk.injEq] at hres
          obtain ⟨-, -, rfl⟩ := hres
          exact ⟨_, hQ.comp hq1 (hQ.marker w1 annot (.error e))⟩
        | ok m =>
          simp only [hha] at hres
          obtain ⟨ext2, hq2⟩ := ih _ _ _ _ _ hres
          exact ⟨_, hQ.comp hq1 (hQ.comp (hQ.marker w1 annot (.ok m))
            (hQ.comp (hQ.update (w1.log (Event.Handled annot (.ok m)))
              { sub with SearchAfter := t }) hq2))⟩

theorem Respected.of_handleSubLoop {p : Poller σ τ} {Q : World σ τ → List Event → World σ τ → Prop}
    (hQ : Respected p Q) (depth : Nat) (h : hyp.Client σ) :
    ∀ (passes : Nat) (sub : common.Subscription) (w : World σ τ) (err : Option Error)
      (sub' : common.Subscription) (w' : World σ τ),
      handleSubLoop p depth h passes sub w = some (err, sub', w') → ∃ ext, Q w ext w' := by
  intro passes
  induction passes with
  | zero => intro sub w err sub' w' hres; simp [poller.handleSubLoop] at hres
  | succ n ih =>
    intro sub w err sub' w' hres
    rw [poller.handleSubLoop] at hres
    have hpoll := hQ.poll w
    split at hres
    · rename_i w0 hd
      simp only [Option.some.injEq, Prod.mk.injEq] at hres
      obtain ⟨-, -, rfl⟩ := hres
      rw [hd] at hpoll
      exact ⟨[], hpoll⟩
    · rename_i w0 hd
      rw [hd] at hpoll
      have hq0 := hQ.comp hpoll (hQ.fetch w0 sub.HypToken sub.HypGroup sub.SearchAfter
        (h.AnnotationsAfter w0.hyp sub.SearchAfter))
      simp only at hres
      split at hres
      · simp only [Option.some.injEq, Prod.mk.injEq] at hres
        obtain ⟨-, -, rfl⟩ := hres
        exact ⟨_, hq0⟩
      · split at hres
        · simp only [Option.some.injEq, Prod.mk.injEq] at hres
          obtain ⟨-, -, rfl⟩ := hres
          exact ⟨_, hq0⟩
        · split at hres
          · simp at hres
          · rename_i sub1 w2 hrange
            simp only [Option.some.injEq, Prod.mk.injEq] at hres
            obtain ⟨-, -, rfl⟩ := hres
            obtain ⟨ext1, hq1⟩ := hQ.of_handleSubRange depth h _ _ _ _ _ _ hrange
            exact ⟨_, hQ.comp hq0 hq1⟩
          · rename_i sub1 w2 hrange
            obtain ⟨ext1, hq1⟩ := hQ.of_handleSubRange depth h _ _ _ _ _ _ hrange
            obtain ⟨ext2, hq2⟩ := ih _ _ _ _ _ hres
            exact ⟨_, hQ.comp hq0 (hQ.comp hq1 hq2)⟩

theorem Respected.of_RunOnceRange {p : Poller σ τ} {Q : World σ τ → List Event → World σ τ → Prop}
    (hQ : Respected p Q) (depth passes : Nat) :
    ∀ (subs : List common.Subscription) (lastErr err : Option Error) (w w' : World σ τ),
      RunOnceRange p depth passes subs lastErr w = some (err, w') → ∃ ext, Q w ext w' := by
  intro subs
  induction subs with
  | nil =>
    intro lastErr err w w' hres
    simp only [poller.RunOnceRange, Option.some.injEq, Prod.mk.injEq] at hres
    obtain ⟨-, rfl⟩ := hres
    exact ⟨[], hQ.nil w⟩
  | cons sub rest ih =>
    intro lastErr err w w' hres
    rw [poller.RunOnceRange] at hres
    split at hres
    · simp at hres
    · rename_i e sub1 w1 hsub
      obtain ⟨ext1, hq1⟩ := hQ.of_handleSubLoop depth _ passes sub w _ _ _ hsub
      obtain ⟨ext2, hq2⟩ := ih _ _ _ _ hres
      exact ⟨_, hQ.comp hq1 hq2⟩
    · rename_i sub1 w1 hsub
      obtain ⟨ext1, hq1⟩ := hQ.of_handleSubLoop depth _ passes sub w _ _ _ hsub
      obtain ⟨ext2, hq2⟩ := ih _ _ _ _ hres
      exact ⟨_, hQ.comp hq1 hq2⟩

theorem Respected.of_RunOnce {p : Poller σ τ} {Q : World σ τ → List Event → World σ τ → Prop}
    (hQ : Respected p Q) (depth passes : Nat) (w w' : World σ τ) (err : Option Error)
    (hres : RunOnce p depth passes w = some (err, w')) : ∃ ext, Q w ext w' := by
  unfold poller.RunOnce at hres
  split at hres
  · simp only [Option.some.injEq, Prod.mk.injEq] at hres
    obtain ⟨-, rfl⟩ := hres
    exact ⟨[], hQ.nil w⟩
  · exact hQ.of_RunOnceRange depth passes _ _ _ _ _ hres

/-- The calls and the rows of a `handleAnnot` are for the chat it is called for. -/
theorem Bridged.own_chat {p : Poller σ τ} {chatID : Int} {h : hyp.Client σ}
    {annot : hyp.Annotation} {w w' : World σ τ} {r : Except Error Int}
    (hb : Bridged p chatID h annot w r w') :
    ∃ ext rows, w'.trace = w.trace ++ ext ∧
      w'.Storage.AnnotationMessages = w.Storage.AnnotationMessages ++ rows ∧
      (∀ e ∈ ext, ∀ a c, (e.sendFor a c = true ∨ e.mappingFor a c = true) → c = chatID) ∧
      (∀ r ∈ rows, r.chat_id = chatID) := by
  have hsend : ∀ (annot : hyp.Annotation) (pm : Int) (w : World σ τ),
      ∃ ext rows, (handleAnnotSend p annot chatID pm w).2.trace = w.trace ++ ext ∧
        (handleAnnotSend p annot chatID pm w).2.Storage.AnnotationMessages
          = w.Storage.AnnotationMessages ++ rows ∧
        (∀ e ∈ ext, ∀ a c, (e.sendFor a c = true ∨ e.mappingFor a c = true) → c = chatID) ∧
        (∀ r ∈ rows, r.chat_id = chatID) := by
    intro annot pm w
    obtain ⟨ext, rows, htr, hrows, hev, hr⟩ := handleAnnotSend_own p annot chatID pm w
    exact ⟨ext, rows, htr, hrows, fun e he a c hac => (hev e he a c hac).2,
      fun r hrr => (hr r hrr).2⟩
  have hfetch : ∀ (id : String) (res : Except Error hyp.Annotation) (e : Event),
      e ∈ [Event.Annotation id res] →
      ∀ a c, (e.sendFor a c = true ∨ e.mappingFor a c = true) → c = chatID := by
    intro id res e he a c hac
    rw [List.mem_singleton] at he
    subst he
    simp [Event.sendFor, Event.mappingFor] at hac
  induction hb with
  | mapped _ => exact ⟨[], [], by simp, by simp, by simp, by simp⟩
  | root _ _ => exact hsend ..
  | reply _ _ _ => exact hsend ..
  | fetchFailed _ _ _ _ => exact ⟨[_], [], rfl, by simp [World.log], hfetch _ _, by simp⟩
  | @ancestorFailed annot w pid parent err w1 _ _ _ _ _ ih =>
    obtain ⟨ext, rows, htr, hrows, hev, hr⟩ := ih
    refine ⟨Event.Annotation pid (.ok parent) :: ext, rows, by simp [htr, World.log],
      by simp [hrows, World.log], ?_, hr⟩
    intro e he
    rcases List.mem_cons.1 he with rfl | he
    · exact hfetch pid (.ok parent) _ (by simp)
    · exact hev e he
  | @ancestor annot w pid parent pm w1 _ _ _ _ _ ih =>
    obtain ⟨ext, rows, htr, hrows, hev, hr⟩ := ih
    obtain ⟨ext2, rows2, htr2, hrows2, hev2, hr2⟩ := hsend annot pm w1
    refine ⟨Event.Annotation pid (.ok parent) :: ext ++ ext2, rows ++ rows2,
      by simp [htr2, htr, World.log], by simp [hrows2, hrows, World.log], ?_, ?_⟩
    · intro e he
      rcases List.mem_append.1 he with he | he
      · rcases List.mem_cons.1 he with rfl | he
        · exact hfetch pid (.ok parent) _ (by simp)
        · exact hev e he
      · exact hev2 e he
    · intro r hrr
      rcases List.mem_append.1 hrr with hrr | hrr
      · exact hr r hrr
      · exact hr2 r hrr

theorem Kept.of_frame {a : String} {c : Int} {w w' : World σ τ} {ext : List Event}
    (htr : w'.trace = w.trace ++ ext)
    (hrows : w'.Storage.AnnotationMessages = w.Storage.AnnotationMessages)
    (hev : ∀ e ∈ ext, e.sendFor a c = false ∧ e.mappingFor a c = false) : Kept a c w ext w' := by
  refine ⟨htr, fun hm => ⟨?_, hev, by rw [hrows]⟩⟩
  unfold db.DbStorage.mapped at *
  rw [hrows]
  exact hm

/-- Every step of the poller keeps the mappings of an annotation that is mapped. -/
theorem kept_respected (p : Poller σ τ) (a : String) (c : Int) : Respected p (Kept a c) where
  nil w := Kept.of_frame (by simp) rfl (by simp)
  comp := by
    intro w w1 w2 e1 e2 h1 h2
    refine ⟨by rw [h2.1, h1.1, List.append_assoc], fun hm => ?_⟩
    obtain ⟨hm1, hev1, hrows1⟩ := h1.2 hm
    obtain ⟨hm2, hev2, hrows2⟩ := h2.2 hm1
    refine ⟨hm2, ?_, hrows2.trans hrows1⟩
    intro e he
    rcases List.mem_append.1 he with he | he
    · exact hev1 e he
    · exact hev2 e he
  poll w := by
    refine Kept.of_frame ?_ ?_ (by simp)
    · unfold isDone; split <;> simp
    · unfold isDone; split <;> rfl
  fetch w token group t res :=
    Kept.of_frame rfl rfl (by
      intro e he
      rw [List.mem_singleton] at he
      subst he
      exact ⟨rfl, rfl⟩)
  bridge := by
    intro d annot chatID h w w' r hres
    have hb := handleAnnot_sound p chatID h d annot w r w' hres
    obtain ⟨ext, rows, htr, hrows, hev, hr⟩ := hb.own_chat
    refine ⟨ext, htr, fun hm => ⟨hb.le.mapped hm, ?_⟩⟩
    by_cases hc : chatID = c
    · subst hc
      obtain ⟨hk1, hk2⟩ := hb.kept a hm
      exact ⟨hk1 ext htr, hk2⟩
    · constructor
      · intro e he
        constructor
        · by_contra hs
          exact hc (hev e he a c (Or.inl (by simpa using hs))).symm
        · by_contra hs
          exact hc (hev e he a c (Or.inr (by simpa using hs))).symm
      · rw [hrows, List.filter_append]
        have : rows.filter (fun r => r.isFor a c) = [] := by
          rw [List.filter_eq_nil_iff]
          intro r hrr
          have := hr r hrr
          simp [db.AnnotationMessagesRow.isFor, this, hc]
        rw [this, List.append_nil]
  marker w annot r :=
    Kept.of_frame rfl rfl (by
      intro e he
      rw [List.mem_singleton] at he
      subst he
      exact ⟨rfl, rfl⟩)
  update w sub :=
    Kept.of_frame rfl (db.DbStorage.UpdateSubscription_frame w.Storage sub).1 (by
      intro e he
      rw [List.mem_singleton] at he
      subst he
      exact ⟨rfl, rfl⟩)

end poller

namespace tbot
variable {σ τ : Type}

/-- C10. Let `onText` have bridged a chat reply into the new annotation `A`
and recorded its mapping. Then `A` has exactly one mapping in the chat, to
the replying message; `handleAnnot` on an annotation with id `A` for that chat
returns that message with no error and changes nothing; when such an
annotation heads a batch, `handleSub` moves the watermark and goes on with the
rest of the batch; and a `RunOnce` that follows, whatever its fetches return,
makes no `Send` for `A` into the chat, records no mapping of `A` in the chat
and leaves the rows of `A` in the chat as they are. -/
theorem poller_skips_bridged_reply (tb : Bot σ) (p : poller.Poller σ τ)
    (msg replyTo : tele.Message) (w w1 : World σ τ)
    (parentAnnotID : String) (parentMeta : common.AnnotationMetadata) (sub : common.Subscription)
    (text annotID : String) (service : σ)
    (hreply : msg.ReplyTo = some replyTo) (hchat : replyTo.Chat.ID = msg.Chat.ID)
    (hparent : w.Storage.AnnotationID msg.Chat.ID replyTo.ID = .ok (parentAnnotID, parentMeta))
    (hsub : w.Storage.Subscription msg.Chat.ID parentMeta.HypGroup = .ok sub)
    (htext : MessageText msg = some text) (hfree : w.Storage.mu = false)
    (hrep : (tb.Hyp.NewClient sub.HypToken sub.HypGroup).Reply w.hyp text
      (parentMeta.References ++ [parentAnnotID]) parentMeta.URI = (.ok annotID, service))
    (hres : onText tb (some msg) w = some (.returned none, w1)) :
    w1.Storage.MessageID annotID msg.Chat.ID = some (.ok msg.ID) ∧
    (w1.Storage.AnnotationMessages.filter (fun r => r.isFor annotID msg.Chat.ID)).length = 1 ∧
    (∀ (annot : hyp.Annotation) (h : hyp.Client σ) (d : Nat), annot.ID = annotID →
      poller.handleAnnot p (d + 1) annot msg.Chat.ID h w1 = some (.ok msg.ID, w1)) ∧
    (∀ (annot : hyp.Annotation) (rest : List hyp.Annotation) (h : hyp.Client σ) (d : Nat)
      (cur : common.Subscription) (t : Time), annot.ID = annotID → annot.Updated = some t →
      cur.ChatID = msg.Chat.ID →
      poller.handleSubRange p (d + 1) h (annot :: rest) cur w1
        = poller.handleSubRange p (d + 1) h rest { cur with SearchAfter := t }
          ({ w1.log (Event.Handled annot (.ok msg.ID)) with
              Storage := (w1.Storage.UpdateSubscription { cur with SearchAfter := t }).2 }.log
            (Event.UpdateSubscription { cur with SearchAfter := t }
              (w1.Storage.UpdateSubscription { cur with SearchAfter := t }).1))) ∧
    (∀ (depth passes : Nat) (err : Option Error) (w2 : World σ τ),
      poller.RunOnce p depth passes w1 = some (err, w2) →
      ∃ ext, w2.trace = w1.trace ++ ext ∧
        (∀ e ∈ ext, e.sendFor annotID msg.Chat.ID = false ∧
          e.mappingFor annotID msg.Chat.ID = false) ∧
        w2.Storage.AnnotationMessages.filter (fun r => r.isFor annotID msg.Chat.ID)
          = w1.Storage.AnnotationMessages.filter (fun r => r.isFor annotID msg.Chat.ID)) := by
  have hon := onText_bridge tb msg replyTo w parentAnnotID parentMeta sub text hreply hchat
    hparent hsub htext hfree
  rw [hrep, hres] at hon
  simp only [Option.some.injEq, Prod.mk.injEq, Outcome.returned.injEq] at hon
  obtain ⟨hnone, hw1⟩ := hon
  have hset : w.Storage.SetMessageID annotID
      ⟨parentMeta.References ++ [parentAnnotID], sub.HypGroup, parentMeta.URI⟩ msg.Chat.ID msg.ID
      = (none, (w.Storage.SetMessageID annotID
        ⟨parentMeta.References ++ [parentAnnotID], sub.HypGroup, parentMeta.URI⟩
        msg.Chat.ID msg.ID).2) := Prod.ext hnone.symm rfl
  have hmapped : w1.Storage.MessageID annotID msg.Chat.ID = some (.ok msg.ID) := by
    rw [hw1]
    exact db.DbStorage.MessageID_of_set hfree hset
  have hone : (w1.Storage.AnnotationMessages.filter
      (fun r => r.isFor annotID msg.Chat.ID)).length = 1 := by
    obtain ⟨hc, hst⟩ := db.DbStorage.SetMessageID_ok hset
    have hun := db.DbStorage.not_mapped_of_conflicts hc
    have h0 : w.Storage.AnnotationMessages.filter (fun r => r.isFor annotID msg.Chat.ID) = [] := by
      rw [List.filter_eq_nil_iff]
      intro r hr
      unfold db.DbStorage.mapped at hun
      simpa using (List.any_eq_false.1 hun) r hr
    rw [hw1]
    simp only [bridgedWorld]
    rw [hst]
    simp [List.filter_append, h0, db.DbStorage.newRow_isFor]
  refine ⟨hmapped, hone, ?_, ?_, ?_⟩
  · intro annot h d hid
    subst hid
    rw [poller.handleAnnot, hmapped]
  · intro annot rest h d cur t hid hup hcur
    subst hid
    rw [poller.handleSubRange]
    simp only [hup, hcur, poller.handleAnnot, hmapped]
    rfl
  · intro depth passes err w2 hrun
    obtain ⟨ext, htr, hkept⟩ := (poller.kept_respected p annotID msg.Chat.ID).of_RunOnce
      depth passes w1 w2 err hrun
    obtain ⟨-, hev, hrows⟩ := hkept (db.DbStorage.mapped_of_MessageID hmapped)
    exact ⟨ext, htr, hev, hrows⟩

open sample in
/-- Witness of C10, on test `TestPollerAfterBot`: the reply is bridged into
annotation `a1`; the poll cycle that follows fetches `a2` and `a1`, and sends
one message, a root message for `a2`. -/
theorem poller_skips_bridged_reply_witness :
    onText bot (some reply) (chatWorld [a2g] "a0" []) = some (.returned none, afterReply) ∧
      afterReply.Storage.MessageID "a1" 1 = some (.ok 3) ∧
      poller.RunOnce sample.poller 1 4 afterReply = some (none, afterPoll) ∧
      (∃ ext, afterPoll.trace = afterReply.trace ++ ext ∧
        ∀ e ∈ ext, e.sendFor "a1" 1 = false ∧ e.mappingFor "a1" 1 = false) ∧
      deliveries afterPoll.trace
        = [⟨"a2", 1, 1, 0, " selected \"\" and wrote \"Parent\"\nhttps://hypothes.is/a/a2"⟩] ∧
      (bridged afterPoll.trace).map (fun a => a.ID) = ["a2", "a1", "a2"] := by
  have heval : onText bot (some reply) (chatWorld [a2g] "a0" [])
      = some (.returned none, afterReply) := rfl
  have hrun : poller.RunOnce sample.poller 1 4 afterReply = some (none, afterPoll) := rfl
  have hthm := poller_skips_bridged_reply bot sample.poller reply (.mk 2 ⟨1⟩ none "" none)
    (chatWorld [a2g] "a0" []) afterReply "a0" ⟨[], "g", ""⟩ ⟨"hyptoken", "g", 1000000000, 1⟩
    "Ann (ann) wrote \"hello\"" "a1" _ rfl rfl rfl rfl rfl rfl rfl heval
  obtain ⟨ext, htr, hev, -⟩ := hthm.2.2.2.2 1 4 none afterPoll hrun
  exact ⟨heval, hthm.1, hrun, ⟨ext, htr, hev⟩, rfl, rfl⟩

end tbot

/-! ## Theorems on the store -/

namespace db.DbStorage

/-- `SetMessageID` on a key that conflicts returns the error of the insert
and leaves the store as the upsert of the URI left it. -/
theorem SetMessageID_conflict {s : DbStorage} {a : String} {c m : Int}
    (meta : common.AnnotationMetadata) (h : s.conflicts a c m = true) :
    s.SetMessageID a meta c m
      = (some (Error.Sql "UNIQUE constraint failed: AnnotationMessages"), (s.uriID meta.URI).2) := by
  have hc : (s.uriID meta.URI).2.conflicts a c m = true := by
    unfold conflicts
    rw [(uriID_frame s meta.URI).1]
    exact h
  unfold SetMessageID
  simp only [hc, ↓reduceIte]

theorem conflicts_of_isFor {s : DbStorage} {r : AnnotationMessagesRow}
    (hr : r ∈ s.AnnotationMessages) (a : String) (c m : Int) (h : r.isFor a c = true) :
    s.conflicts a c m = true := by
  unfold conflicts
  exact List.any_eq_true.2 ⟨r, hr, by simp [h]⟩

theorem conflicts_of_isAt {s : DbStorage} {r : AnnotationMessagesRow}
    (hr : r ∈ s.AnnotationMessages) (a : String) (c m : Int) (h : r.isAt c m = true) :
    s.conflicts a c m = true := by
  unfold conflicts
  exact List.any_eq_true.2 ⟨r, hr, by simp [h]⟩

/-- C13. In a store that holds a mapping (the row `r`: annotation `r.annot_id`,
chat `r.chat_id`, message `r.message_id`), `SetMessageID` returns an error
when asked for a second mapping of the same annotation in the same chat, with
any message id and any metadata, and when asked for a mapping of any
annotation (a different one in particular) to the same message of the same
chat. -/
theorem SetMessageID_rejects_duplicate (s : DbStorage) (r : AnnotationMessagesRow)
    (hr : r ∈ s.AnnotationMessages) (a : String) (meta : common.AnnotationMetadata) (m : Int) :
    (∃ e, (s.SetMessageID r.annot_id meta r.chat_id m).1 = some e) ∧
    (∃ e, (s.SetMessageID a meta r.chat_id r.message_id).1 = some e) := by
  constructor
  · rw [SetMessageID_conflict meta
      (conflicts_of_isFor hr r.annot_id r.chat_id m (by simp [AnnotationMessagesRow.isFor]))]
    exact ⟨_, rfl⟩
  · rw [SetMessageID_conflict meta
      (conflicts_of_isAt hr a r.chat_id r.message_id (by simp [AnnotationMessagesRow.isAt]))]
    exact ⟨_, rfl⟩

/-- Witness of C13, on the two cases of test `DoTestSetMessageID`: after
`SetMessageID("a", g, 1, 2)`, both `SetMessageID("a", g, 1, 3)` and
`SetMessageID("b", g, 1, 2)` return an error. -/
theorem SetMessageID_rejects_duplicate_witness :
    (∃ e, ((NewInMemoryStorage.SetMessageID "a" ⟨[], "g", ""⟩ 1 2).2.SetMessageID
      "a" ⟨[], "g", ""⟩ 1 3).1 = some e) ∧
    (∃ e, ((NewInMemoryStorage.SetMessageID "a" ⟨[], "g", ""⟩ 1 2).2.SetMessageID
      "b" ⟨[], "g", ""⟩ 1 2).1 = some e) :=
  SetMessageID_rejects_duplicate (NewInMemoryStorage.SetMessageID "a" ⟨[], "g", ""⟩ 1 2).2
    ⟨"a", none, "g", 1, 1, 2⟩ (by decide) "b" ⟨[], "g", ""⟩ 3

/-- The upsert of a URI adds a row exactly when the URI is new. -/
theorem uriID_URIs (s : DbStorage) (uri : String) :
    (uri ∈ s.URIs → (s.uriID uri).2.URIs = s.URIs) ∧
    (uri ∉ s.URIs → (s.uriID uri).2.URIs = s.URIs ++ [uri]) := by
  unfold uriID
  cases hidx : s.URIs.indexOf? uri with
  | none =>
    refine ⟨fun hmem => ?_, fun _ => rfl⟩
    unfold List.indexOf? at hidx
    rw [List.findIdx?_eq_none_iff] at hidx
    exact absurd (hidx uri hmem) (by simp)
  | some i =>
    refine ⟨fun _ => rfl, fun hmem => ?_⟩
    unfold List.indexOf? at hidx
    obtain ⟨hlt, hp, -⟩ := List.findIdx?_eq_some_iff_getElem.1 hidx
    have : s.URIs[i] = uri := by simpa using hp
    exact absurd (this ▸ List.getElem_mem hlt) hmem

/-- The table of URIs only grows at its end. -/
theorem uriID_prefix (s : DbStorage) (uri : String) :
    ∃ uris, (s.uriID uri).2.URIs = s.URIs ++ uris := by
  by_cases h : uri ∈ s.URIs
  · exact ⟨[], by simp [(uriID_URIs s uri).1 h]⟩
  · exact ⟨[uri], (uriID_URIs s uri).2 h⟩

/-- Reading a mapping back gives the same when the mappings are the same and
the table of URIs grew at its end. -/
theorem AnnotationID_of_prefix {s s' : DbStorage} {rows : List AnnotationMessagesRow}
    {uris : List String}
    (hrows : s'.AnnotationMessages = s.AnnotationMessages ++ rows)
    (huris : s'.URIs = s.URIs ++ uris) {c m : Int} {a : String}
    {meta : common.AnnotationMetadata} (h : s.AnnotationID c m = .ok (a, meta)) :
    s'.AnnotationID c m = .ok (a, meta) := by
  unfold AnnotationID at h ⊢
  rw [hrows, List.find?_append]
  cases hf : List.find? (fun r => r.isAt c m) s.AnnotationMessages with
  | none => simp [hf] at h
  | some r =>
    simp only [hf, Option.or] at h ⊢
    by_cases h0 : r.uri_id = 0
    · simp [h0] at h
    · simp only [h0, ↓reduceIte, List.get?_eq_getElem?] at h ⊢
      cases hg : s.URIs[r.uri_id - 1]? with
      | none => simp [hg] at h
      | some uri =>
        have hg' : s'.URIs[r.uri_id - 1]? = some uri := by
          rw [huris]
          obtain ⟨hlt, hget⟩ := List.getElem?_eq_some_iff.1 hg
          rw [List.getElem?_append_left hlt]
          exact hg
        simp only [hg] at h
        simp only [hg']
        exact h

/-- C14, amended. A `SetMessageID` call that fails leaves the mappings, the
subscriptions and the mutex as they were, and every lookup of a mapping gives
what it gave before; the table of document URIs keeps its rows, and gains one
row, for the URI of the rejected mapping, when the store had not seen that URI
before. -/
theorem SetMessageID_failure_frame (s s' : DbStorage) (a : String)
    (meta : common.AnnotationMetadata) (c m : Int) (e : Error)
    (h : s.SetMessageID a meta c m = (some e, s')) :
    s'.AnnotationMessages = s.AnnotationMessages ∧
    s'.SubscriptionsTable = s.SubscriptionsTable ∧
    s'.mu = s.mu ∧
    (meta.URI ∈ s.URIs → s' = s) ∧
    (meta.URI ∉ s.URIs → s'.URIs = s.URIs ++ [meta.URI]) ∧
    (∀ a0 c0, s'.MessageID a0 c0 = s.MessageID a0 c0) ∧
    (∀ c0 m0 a0 meta0, s.AnnotationID c0 m0 = .ok (a0, meta0) →
      s'.AnnotationID c0 m0 = .ok (a0, meta0)) := by
  have hs := SetMessageID_err h
  subst hs
  obtain ⟨hrows, hsubs, hmu⟩ := uriID_frame s meta.URI
  obtain ⟨hold, hnew⟩ := uriID_URIs s meta.URI
  refine ⟨hrows, hsubs, hmu, ?_, hnew, ?_, ?_⟩
  · intro hmem
    have hu := hold hmem
    generalize s.uriID meta.URI = out at hrows hsubs hmu hu
    obtain ⟨n, s1⟩ := out
    cases s1
    cases s
    simp only at hrows hsubs hmu hu
    subst hrows hsubs hmu hu
    rfl
  · intro a0 c0
    unfold MessageID Lock
    rw [hmu]
    cases s.mu <;> simp [hrows]
  · intro c0 m0 a0 meta0 hread
    obtain ⟨uris, huris⟩ := uriID_prefix s meta.URI
    have hsame : (s.uriID meta.URI).2.AnnotationMessages = s.AnnotationMessages ++ [] := by
      simp [hrows]
    exact AnnotationID_of_prefix hsame huris hread

/-- Witness of C14, amended: in the store of the tests after
`SetMessageID("a", g, 1, 2)`, the call `SetMessageID("a", meta, 1, 3)` with the
document `doc` is refused; mappings and subscriptions stay, the URI `doc` is
added. -/
theorem SetMessageID_failure_frame_witness :
    (sample.store.SetMessageID "a" ⟨[], "g", "doc"⟩ 1 3).2.AnnotationMessages
      = sample.store.AnnotationMessages ∧
    (sample.store.SetMessageID "a" ⟨[], "g", "doc"⟩ 1 3).2.URIs = sample.store.URIs ++ ["doc"] :=
  have hthm := SetMessageID_failure_frame sample.store _ "a" ⟨[], "g", "doc"⟩ 1 3
    (Error.Sql "UNIQUE constraint failed: AnnotationMessages") rfl
  ⟨hthm.1, hthm.2.2.2.2.1 (by decide)⟩

/-- C14 as stated fails: in the store of the tests after
`SetMessageID("a", g, 1, 2)`, the call `SetMessageID("a", meta, 1, 3)` with the
document `doc`, which the store has not seen, returns an error, and the table
of URIs holds `doc` afterwards: the store is not what it was. -/
theorem SetMessageID_failure_frame_counterexample :
    ∃ e s', sample.store.SetMessageID "a" ⟨[], "g", "doc"⟩ 1 3 = (some e, s') ∧
      sample.store.URIs = [""] ∧ s'.URIs = ["", "doc"] ∧ s' ≠ sample.store :=
  ⟨_, _, rfl, rfl, rfl, by decide⟩

/-- C15, amended. Mapping round trip: when `SetMessageID(a, meta, c, m)`
succeeds on a store whose mutex is free, and no id of the reference chain of
`meta` contains the separator `|`, then `MessageID(a, c)` returns `m` and
`AnnotationID(c, m)` returns `a` with the metadata stored: the same reference
chain (same entries, same order; the empty chain included), the same group and
the same document URI. -/
theorem mapping_round_trip (s s' : DbStorage) (a : String) (meta : common.AnnotationMetadata)
    (c m : Int) (hfree : s.mu = false)
    (hsep : ∀ x ∈ meta.References, '|' ∉ x.data)
    (h : s.SetMessageID a meta c m = (none, s')) :
    s'.MessageID a c = some (.ok m) ∧ s'.AnnotationID c m = .ok (a, meta) := by
  refine ⟨MessageID_of_set hfree h, ?_⟩
  rw [AnnotationID_of_set h]
  by_cases hlen : meta.References.length > 0
  · have hne : meta.References ≠ [] := by
      intro hnil
      simp [hnil] at hlen
    simp only [hlen, ↓reduceIte, strings.Split_Join '|' _ hne hsep]
  · have hnil : meta.References = [] := by
      cases hr : meta.References with
      | nil => rfl
      | cons x xs => simp [hr] at hlen
    simp only [hlen, ↓reduceIte]
    cases meta
    simp only at hnil
    subst hnil
    rfl

/-- Witness of C15, amended, on test `DoTestAnnotationID/Successful lookup`. -/
theorem mapping_round_trip_witness :
    (NewInMemoryStorage.SetMessageID "a" ⟨["p"], "g", ""⟩ 1 2).2.MessageID "a" 1 = some (.ok 2) ∧
    (NewInMemoryStorage.SetMessageID "a" ⟨["p"], "g", ""⟩ 1 2).2.AnnotationID 1 2
      = .ok ("a", ⟨["p"], "g", ""⟩) :=
  mapping_round_trip NewInMemoryStorage _ "a" ⟨["p"], "g", ""⟩ 1 2 rfl (by decide) rfl

/-- C15 as stated fails: `SetMessageID` succeeds for the reference chain
`p|q`, `r`, and `AnnotationID` then returns the chain `p`, `q`, `r`. -/
theorem mapping_round_trip_counterexample :
    ∃ s', NewInMemoryStorage.SetMessageID "a" ⟨["p|q", "r"], "g", "doc"⟩ 1 2 = (none, s') ∧
      s'.MessageID "a" 1 = some (.ok 2) ∧
      s'.AnnotationID 1 2 = .ok ("a", ⟨["p", "q", "r"], "g", "doc"⟩) ∧
      s'.AnnotationID 1 2 ≠ .ok ("a", ⟨["p|q", "r"], "g", "doc"⟩) := by
  refine ⟨_, rfl, rfl, rfl, ?_⟩
  intro hsame
  have hread : (Except.ok ("a", ⟨["p", "q", "r"], "g", "doc"⟩) :
      Except Error (String × common.AnnotationMetadata))
      = .ok ("a", ⟨["p|q", "r"], "g", "doc"⟩) := Eq.trans rfl hsame
  simp at hread

/-- C19. On a store whose mutex is free, `MessageID(a, c)` returns
`ErrNotFound` exactly when no mapping has both annotation id `a` and chat id
`c`, and a message id it returns is that of a mapping with both; and
`AnnotationID(c, m)` returns `ErrNotFound` exactly when no mapping has both
chat id `c` and message id `m`, and an annotation id it returns is that of a
mapping with both. A mapping that matches one component of the key only, or
the components swapped, is thus never returned. -/
theorem lookup_not_found (s : DbStorage) (a : String) (c m : Int) (hfree : s.mu = false) :
    (s.MessageID a c = some (.error Error.ErrNotFound) ↔
      ∀ r ∈ s.AnnotationMessages, ¬ (r.annot_id = a ∧ r.chat_id = c)) ∧
    (∀ m0, s.MessageID a c = some (.ok m0) →
      ∃ r ∈ s.AnnotationMessages, r.annot_id = a ∧ r.chat_id = c ∧ r.message_id = m0) ∧
    (s.AnnotationID c m = .error Error.ErrNotFound ↔
      ∀ r ∈ s.AnnotationMessages, ¬ (r.chat_id = c ∧ r.message_id = m)) ∧
    (∀ a0 meta, s.AnnotationID c m = .ok (a0, meta) →
      ∃ r ∈ s.AnnotationMessages, r.chat_id = c ∧ r.message_id = m ∧ r.annot_id = a0) := by
  refine ⟨?_, ?_, ?_, ?_⟩
  · rw [MessageID_of_free hfree]
    cases hf : List.find? (fun r => r.isFor a c) s.AnnotationMessages with
    | none =>
      simp only [true_iff]
      intro r hr
      have := List.find?_eq_none.1 hf r hr
      simpa [AnnotationMessagesRow.isFor] using this
    | some r =>
      simp only [Option.some.injEq, reduceCtorEq, false_iff]
      intro hall
      have hp := List.find?_some hf
      have hmem := List.mem_of_find?_eq_some hf
      exact hall r hmem (by simpa [AnnotationMessagesRow.isFor] using hp)
  · intro m0 hm
    rw [MessageID_of_free hfree] at hm
    cases hf : List.find? (fun r => r.isFor a c) s.AnnotationMessages with
    | none => simp [hf] at hm
    | some r =>
      simp only [hf, Option.some.injEq, Except.ok.injEq] at hm
      have hp := List.find?_some hf
      have hmem := List.mem_of_find?_eq_some hf
      have hk : r.annot_id = a ∧ r.chat_id = c := by
        simpa [AnnotationMessagesRow.isFor] using hp
      exact ⟨r, hmem, hk.1, hk.2, hm⟩
  · unfold AnnotationID
    cases hf : List.find? (fun r => r.isAt c m) s.AnnotationMessages with
    | none =>
      simp only [true_iff]
      intro r hr
      have := List.find?_eq_none.1 hf r hr
      simpa [AnnotationMessagesRow.isAt] using this
    | some r =>
      have hp := List.find?_some hf
      have hmem := List.mem_of_find?_eq_some hf
      have hk : r.chat_id = c ∧ r.message_id = m := by
        simpa [AnnotationMessagesRow.isAt] using hp
      constructor
      · intro herr
        simp only at herr
        split at herr <;> simp at herr
      · intro hall
        exact absurd hk (hall r hmem)
  · intro a0 meta hread
    unfold AnnotationID at hread
    cases hf : List.find? (fun r => r.isAt c m) s.AnnotationMessages with
    | none => simp [hf] at hread
    | some r =>
      have hp := List.find?_some hf
      have hmem := List.mem_of_find?_eq_some hf
      have hk : r.chat_id = c ∧ r.message_id = m := by
        simpa [AnnotationMessagesRow.isAt] using hp
      simp only [hf] at hread
      split at hread
      · cases hread
      · simp only [Except.ok.injEq, Prod.mk.injEq] at hread
        exact ⟨r, hmem, hk.1, hk.2, hread.1⟩


/-- Witness of C19, on the tests `Mismatch`: the store holds the mapping
(`a`, 1, 2) alone. -/
theorem lookup_not_found_witness :
    sample.store.MessageID "b" 1 = some (.error Error.ErrNotFound) ∧
    sample.store.MessageID "a" 2 = some (.error Error.ErrNotFound) ∧
    sample.store.AnnotationID 2 1 = .error Error.ErrNotFound ∧
    sample.store.AnnotationID 1 3 = .error Error.ErrNotFound ∧
    sample.store.AnnotationID 4 2 = .error Error.ErrNotFound :=
  ⟨(lookup_not_found sample.store "b" 1 2 rfl).1.2 (by decide),
    (lookup_not_found sample.store "a" 2 1 rfl).1.2 (by decide),
    (lookup_not_found sample.store "a" 2 1 rfl).2.2.1.2 (by decide),
    (lookup_not_found sample.store "a" 1 3 rfl).2.2.1.2 (by decide),
    (lookup_not_found sample.store "a" 4 2 rfl).2.2.1.2 (by decide)⟩

/-- C20. The store holds at most one subscription for each pair of group
and chat id: the new store does, and both `AddSubscription` and
`UpdateSubscription` keep it so. `AddSubscription` returns an error when a
subscription with the group and chat id exists already, and the store is then
unchanged; it returns no error when none exists. -/
theorem AddSubscription_unique (s : DbStorage) (sub : common.Subscription)
    (hinv : s.UniqueSubscriptions) :
    NewInMemoryStorage.UniqueSubscriptions ∧
    (s.AddSubscription sub).2.UniqueSubscriptions ∧
    (s.UpdateSubscription sub).2.UniqueSubscriptions ∧
    ((∃ r ∈ s.SubscriptionsTable, r.hyp_group = sub.HypGroup ∧ r.chat_id = sub.ChatID) →
      (∃ e, (s.AddSubscription sub).1 = some e) ∧ (s.AddSubscription sub).2 = s) ∧
    ((∀ r ∈ s.SubscriptionsTable, ¬ (r.hyp_group = sub.HypGroup ∧ r.chat_id = sub.ChatID)) →
      (s.AddSubscription sub).1 = none) := by
  have hany : s.SubscriptionsTable.any (fun r => r.hasKey sub.HypGroup sub.ChatID) = true ↔
      ∃ r ∈ s.SubscriptionsTable, r.hyp_group = sub.HypGroup ∧ r.chat_id = sub.ChatID := by
    simp [List.any_eq_true, SubscriptionsRow.hasKey]
  refine ⟨?_, ?_, ?_, ?_, ?_⟩
  · intro g c
    simp [NewInMemoryStorage]
  · intro g c
    unfold AddSubscription
    simp only
    split
    · exact hinv g c
    · rename_i hno
      simp only [List.countP_append, List.countP_cons, List.countP_nil]
      by_cases hk : (g = sub.HypGroup ∧ c = sub.ChatID)
      · obtain ⟨rfl, rfl⟩ := hk
        have hzero : s.SubscriptionsTable.countP (fun r => r.hasKey sub.HypGroup sub.ChatID) = 0 := by
          rw [List.countP_eq_zero]
          intro r hr hkey
          exact hno (List.any_eq_true.2 ⟨r, hr, hkey⟩)
        rw [hzero]
        split <;> omega
      · have hfalse : SubscriptionsRow.hasKey
            ⟨sub.HypToken, sub.HypGroup, time.UnixMicro sub.SearchAfter, sub.ChatID⟩ g c = false := by
          simp only [SubscriptionsRow.hasKey, decide_eq_false_iff_not]
          intro h
          exact hk ⟨h.1.symm, h.2.symm⟩
        simp only [hfalse, Bool.false_eq_true, ↓reduceIte]
        exact hinv g c
  · intro g c
    rw [UpdateSubscription_countP]
    exact hinv g c
  · intro hex
    unfold AddSubscription
    simp only [hany.2 hex, ↓reduceIte]
    exact ⟨⟨_, rfl⟩, trivial⟩
  · intro hno
    have : s.SubscriptionsTable.any (fun r => r.hasKey sub.HypGroup sub.ChatID) = false := by
      rw [Bool.eq_false_iff]
      intro h
      obtain ⟨r, hr, hk⟩ := hany.1 h
      exact hno r hr hk
    unfold AddSubscription
    simp [this]


/-- Witness of C20, on test `Duplicates prohibited`. -/
theorem AddSubscription_unique_witness :
    (∃ e, ((NewInMemoryStorage.AddSubscription ⟨"token", "group", 7, 42⟩).2.AddSubscription
      ⟨"token", "group", 7, 42⟩).1 = some e) ∧
    ((NewInMemoryStorage.AddSubscription ⟨"token", "group", 7, 42⟩).2.AddSubscription
      ⟨"token", "group", 7, 42⟩).2 = (NewInMemoryStorage.AddSubscription ⟨"token", "group", 7, 42⟩).2 ∧
    ((NewInMemoryStorage.AddSubscription ⟨"token", "group", 7, 42⟩).2.AddSubscription
      ⟨"token", "group", 7, 42⟩).2.SubscriptionsTable = [⟨"token", "group", 0, 42⟩] := by
  have hempty : NewInMemoryStorage.UniqueSubscriptions := by
    intro g c
    simp [NewInMemoryStorage]
  have hone := (AddSubscription_unique NewInMemoryStorage ⟨"token", "group", 7, 42⟩ hempty).2.1
  have hdup := (AddSubscription_unique (NewInMemoryStorage.AddSubscription
    ⟨"token", "group", 7, 42⟩).2 ⟨"token", "group", 7, 42⟩ hone).2.2.2.1
    ⟨⟨"token", "group", 0, 42⟩, by decide, rfl, rfl⟩
  exact ⟨hdup.1, hdup.2, by decide⟩

end db.DbStorage

/-! ## `onText`: messages ignored, and failures -/

namespace tbot
variable {σ τ : Type}

/-- C11. `onText` returns no error and leaves the world as it was (the
annotation service, so no annotation is created; the store, so no mapping is
written; the mutex and the trace, so the store lock is never acquired) when
the message is not a reply, when the replied-to message is in a different
chat, when no mapping of the store has the chat and the replied-to message, or
when that message has a mapping and no subscription of the store has the chat
and the group of that mapping. -/
theorem onText_ignores (tb : Bot σ) (msg : tele.Message) (w : World σ τ)
    (h : msg.ReplyTo = none ∨
      ∃ replyTo, msg.ReplyTo = some replyTo ∧
        (replyTo.Chat.ID ≠ msg.Chat.ID ∨
          (∀ r ∈ w.Storage.AnnotationMessages,
            ¬ (r.chat_id = msg.Chat.ID ∧ r.message_id = replyTo.ID)) ∨
          ∃ parentAnnotID parentMeta,
            w.Storage.AnnotationID msg.Chat.ID replyTo.ID = .ok (parentAnnotID, parentMeta) ∧
            ∀ r ∈ w.Storage.SubscriptionsTable,
              ¬ (r.hyp_group = parentMeta.HypGroup ∧ r.chat_id = msg.Chat.ID))) :
    onText tb (some msg) w = some (.returned none, w) := by
  unfold onText
  rcases h with h | ⟨replyTo, hreply, h⟩
  · simp only [h]
  · simp only [hreply]
    by_cases hchat : replyTo.Chat.ID = msg.Chat.ID
    · simp only [hchat, ne_eq, not_true_eq_false, ↓reduceIte]
      rcases h with h | h | ⟨parentAnnotID, parentMeta, hparent, hno⟩
      · exact absurd hchat h
      · have hnone : List.find? (fun r => r.isAt msg.Chat.ID replyTo.ID)
            w.Storage.AnnotationMessages = none :=
          List.find?_eq_none.2 (fun r hr => by
            simpa [db.AnnotationMessagesRow.isAt] using h r hr)
        simp only [db.DbStorage.AnnotationID, hnone, ↓reduceIte]
      · have hnone : List.find? (fun r => r.hasKey parentMeta.HypGroup msg.Chat.ID)
            w.Storage.SubscriptionsTable = none :=
          List.find?_eq_none.2 (fun r hr => by
            simpa [db.SubscriptionsRow.hasKey] using hno r hr)
        simp only [hparent, db.DbStorage.Subscription, hnone, ↓reduceIte]
    · simp only [ne_eq, hchat, not_false_eq_true, ↓reduceIte]

open sample in
/-- Witness of C11, one input for each of the four cases: a message that is
not a reply, a reply to a message of chat 9, a reply to message 5 that has no
mapping, and a reply to a mapped message in a chat without subscription. -/
theorem onText_ignores_witness :
    onText bot (some (.mk 3 ⟨1⟩ (some ⟨"Ann", "", "ann"⟩) "hello" none)) (chatWorld [] "a0" [])
      = some (.returned none, chatWorld [] "a0" []) ∧
    onText bot (some (.mk 3 ⟨1⟩ (some ⟨"Ann", "", "ann"⟩) "hello" (some (.mk 2 ⟨9⟩ none "" none))))
      (chatWorld [] "a0" []) = some (.returned none, chatWorld [] "a0" []) ∧
    onText bot (some (.mk 3 ⟨1⟩ (some ⟨"Ann", "", "ann"⟩) "hello" (some (.mk 5 ⟨1⟩ none "" none))))
      (chatWorld [] "a0" []) = some (.returned none, chatWorld [] "a0" []) ∧
    onText bot (some reply) unsubscribed = some (.returned none, unsubscribed) :=
  ⟨onText_ignores bot _ _ (Or.inl rfl),
    onText_ignores bot _ _ (Or.inr ⟨_, rfl, Or.inl (by decide)⟩),
    onText_ignores bot _ _ (Or.inr ⟨_, rfl, Or.inr (Or.inl (by decide))⟩),
    onText_ignores bot _ _ (Or.inr ⟨_, rfl, Or.inr (Or.inr ⟨"a0", ⟨[], "g", ""⟩, rfl,
      by decide⟩)⟩)⟩

/-- C12. A chat reply that passes the checks of `onText` (it replies, in
the same chat, to a message with a mapping, in a chat subscribed to the group
of that mapping), sent by a user while the store mutex is free: when the
`Reply` call of the annotation client fails with `err`, `onText` returns
`err`, the store is exactly what it was before the call, and the only calls
made are `Lock`, the failed `Reply` and `Unlock`: no mapping is written. -/
theorem onText_reply_failure (tb : Bot σ) (msg replyTo : tele.Message) (w : World σ τ)
    (parentAnnotID : String) (parentMeta : common.AnnotationMetadata) (sub : common.Subscription)
    (text : String) (err : Error) (service : σ)
    (hreply : msg.ReplyTo = some replyTo) (hchat : replyTo.Chat.ID = msg.Chat.ID)
    (hparent : w.Storage.AnnotationID msg.Chat.ID replyTo.ID = .ok (parentAnnotID, parentMeta))
    (hsub : w.Storage.Subscription msg.Chat.ID parentMeta.HypGroup = .ok sub)
    (htext : MessageText msg = some text) (hfree : w.Storage.mu = false)
    (hrep : (tb.Hyp.NewClient sub.HypToken sub.HypGroup).Reply w.hyp text
      (parentMeta.References ++ [parentAnnotID]) parentMeta.URI = (.error err, service)) :
    ∃ w', onText tb (some msg) w = some (.returned (some err), w') ∧
      w'.Storage = w.Storage ∧
      w'.trace = w.trace ++ [Event.Lock,
        Event.Reply sub.HypToken sub.HypGroup text (parentMeta.References ++ [parentAnnotID])
          parentMeta.URI (.error err),
        Event.Unlock] := by
  have hon := onText_bridge tb msg replyTo w parentAnnotID parentMeta sub text hreply hchat
    hparent hsub htext hfree
  rw [hrep] at hon
  exact ⟨_, hon, rfl, by simp [bridgedWorld]⟩

open sample in
/-- Witness of C12: the reply of test `TestOnText_ReplyToBot`, with the
annotation service answering 503. -/
theorem onText_reply_failure_witness :
    ∃ w', onText ⟨"token", unavailable⟩ (some reply) (chatWorld [] "a0" [])
        = some (.returned (some
            (Error.Errorf "failed to perform create: status=%v; want 200" ["503"])), w') ∧
      w'.Storage = (chatWorld [] "a0" []).Storage ∧
      w'.Storage.AnnotationMessages.length = 1 := by
  obtain ⟨w', hon, hstore, -⟩ := onText_reply_failure ⟨"token", unavailable⟩ reply
    (.mk 2 ⟨1⟩ none "" none) (chatWorld [] "a0" []) "a0" ⟨[], "g", ""⟩
    ⟨"hyptoken", "g", 1000000000, 1⟩ "Ann (ann) wrote \"hello\""
    (Error.Errorf "failed to perform create: status=%v; want 200" ["503"])
    (fake.NewHypFactory []) rfl rfl rfl rfl rfl rfl rfl
  exact ⟨w', hon, hstore, by rw [hstore]; rfl⟩

end tbot

/-! ## Mappings are immutable -/

namespace db.DbStorage

theorem Grown.same (s : DbStorage) : Grown s s := ⟨⟨[], by simp⟩, ⟨[], by simp⟩, rfl⟩

theorem Grown.then {s1 s2 s3 : DbStorage} (h12 : Grown s1 s2) (h23 : Grown s2 s3) :
    Grown s1 s3 := by
  obtain ⟨r1, hr1⟩ := h12.rows
  obtain ⟨r2, hr2⟩ := h23.rows
  obtain ⟨u1, hu1⟩ := h12.uris
  obtain ⟨u2, hu2⟩ := h23.uris
  exact ⟨⟨r1 ++ r2, by rw [hr2, hr1, List.append_assoc]⟩,
    ⟨u1 ++ u2, by rw [hu2, hu1, List.append_assoc]⟩, h23.mu.trans h12.mu⟩

theorem Grown.keeps {s s' : DbStorage} (h : Grown s s') : KeepsMappings s s' := by
  obtain ⟨rows, hrows⟩ := h.rows
  obtain ⟨uris, huris⟩ := h.uris
  refine ⟨?_, ?_, ?_⟩
  · intro r hr
    rw [hrows]
    exact List.mem_append_left _ hr
  · intro a c m hm
    exact MessageID_ok_append hm h.mu hrows
  · intro c m a meta hread
    exact AnnotationID_of_prefix hrows huris hread

theorem Grown.of_SetMessageID (s : DbStorage) (a : String) (meta : common.AnnotationMetadata)
    (c m : Int) : Grown s (s.SetMessageID a meta c m).2 := by
  obtain ⟨hrows, -, hmu⟩ := uriID_frame s meta.URI
  obtain ⟨uris, huris⟩ := uriID_prefix s meta.URI
  cases hset : s.SetMessageID a meta c m with
  | mk e st =>
    cases e with
    | none =>
      obtain ⟨-, rfl⟩ := SetMessageID_ok hset
      exact ⟨⟨_, rfl⟩, ⟨uris, huris⟩, hmu⟩
    | some e =>
      have hst := SetMessageID_err hset
      subst hst
      exact ⟨⟨[], by simp [hrows]⟩, ⟨uris, huris⟩, hmu⟩

theorem Grown.of_locked {s locked s' : DbStorage} (hlock : s.Lock = some locked)
    (h : Grown locked s') : Grown s s'.Unlock := by
  unfold Lock at hlock
  split at hlock
  · cases hlock
  · rename_i hmu
    simp only [Option.some.injEq] at hlock
    subst hlock
    exact ⟨h.rows, h.uris, by simpa [Unlock] using hmu⟩
theorem Grown.of_UpdateSubscription (s : DbStorage) (sub : common.Subscription) :
    Grown s (s.UpdateSubscription sub).2 := by
  obtain ⟨hrows, huris, hmu, -⟩ := UpdateSubscription_frame s sub
  exact ⟨⟨[], by simp [hrows]⟩, ⟨[], by simp [huris]⟩, hmu⟩

end db.DbStorage

namespace poller
variable {σ τ : Type}

theorem handleAnnotSend_grown (p : Poller σ τ) (annot : hyp.Annotation) (chatID pm : Int)
    (w : World σ τ) : w.Storage.Grown (handleAnnotSend p annot chatID pm w).2.Storage := by
  unfold handleAnnotSend
  split
  · rename_i w1 hd
    rw [(isDone_true hd).1]
    exact db.DbStorage.Grown.same _
  · rename_i w1 hd
    obtain ⟨-, -, hst, -, -⟩ := isDone_false hd
    simp only
    split
    · simp only [World.log, hst]
      exact db.DbStorage.Grown.same _
    · rename_i mid hsend
      have hg := db.DbStorage.Grown.of_SetMessageID w.Storage annot.ID
        ⟨annot.References, annot.Group, annot.URI⟩ chatID mid
      split <;> simpa only [World.log, hst] using hg

theorem Bridged.grown {p : Poller σ τ} {chatID : Int} {h : hyp.Client σ} {annot : hyp.Annotation}
    {w w' : World σ τ} {r : Except Error Int} (hb : Bridged p chatID h annot w r w') :
    w.Storage.Grown w'.Storage := by
  induction hb with
  | mapped _ => exact db.DbStorage.Grown.same _
  | root _ _ => exact handleAnnotSend_grown ..
  | reply _ _ _ => exact handleAnnotSend_grown ..
  | fetchFailed _ _ _ _ => exact db.DbStorage.Grown.same _
  | ancestorFailed _ _ _ _ _ ih => exact ih
  | ancestor _ _ _ _ _ ih => exact ih.then (handleAnnotSend_grown ..)

/-- Every step of the poller leaves the store grown. -/
theorem grown_respected (p : Poller σ τ) :
    Respected p (fun w _ w' => w.Storage.Grown w'.Storage) where
  nil w := db.DbStorage.Grown.same _
  comp := fun h1 h2 => h1.then h2
  poll w := by
    have : (isDone w).2.Storage = w.Storage := by unfold isDone; split <;> rfl
    rw [this]
    exact db.DbStorage.Grown.same _
  fetch w token group t res := db.DbStorage.Grown.same _
  bridge := by
    intro d annot chatID h w w' r hres
    exact ⟨[], (handleAnnot_sound p chatID h d annot w r w' hres).grown⟩
  marker w annot r := db.DbStorage.Grown.same _
  update w sub := db.DbStorage.Grown.of_UpdateSubscription _ _

end poller

namespace tbot
variable {σ τ : Type}

/-- Every return of `onText` leaves the store grown, the mutex as it was. -/
theorem onText_grown (tb : Bot σ) (msg : Option tele.Message) (w w' : World σ τ) (out : Outcome)
    (h : onText tb msg w = some (out, w')) : w.Storage.Grown w'.Storage := by
  have hsame : ∀ {o : Outcome}, some (o, w) = some (out, w') → w.Storage.Grown w'.Storage := by
    intro o ho
    simp only [Option.some.injEq, Prod.mk.injEq] at ho
    rw [← ho.2]
    exact db.DbStorage.Grown.same _
  unfold onText at h
  split at h
  · exact hsame h
  · split at h
    · exact hsame h
    · split at h
      · exact hsame h
      · split at h
        · split at h <;> exact hsame h
        · split at h
          · split at h <;> exact hsame h
          · split at h
            · cases h
            · rename_i locked hlock
              simp only at h
              split at h
              · simp only [Option.some.injEq, Prod.mk.injEq] at h
                rw [← h.2]
                exact db.DbStorage.Grown.of_locked hlock (db.DbStorage.Grown.same _)
              · split at h
                · simp only [Option.some.injEq, Prod.mk.injEq] at h
                  rw [← h.2]
                  exact db.DbStorage.Grown.of_locked hlock (db.DbStorage.Grown.same _)
                · simp only [Option.some.injEq, Prod.mk.injEq] at h
                  rw [← h.2]
                  exact db.DbStorage.Grown.of_locked hlock
                    (db.DbStorage.Grown.of_SetMessageID _ _ _ _ _)

end tbot

section
variable {σ τ : Type}

/-- C16. Mappings are immutable once created: whenever `SetMessageID`,
`handleAnnot`, `handleSub`, `RunOnce` or `onText` returns, with an error or
without, every mapping that the store held before the call is held after it,
unchanged: the same row (annotation id, reference chain, group, document,
chat id, message id), found by the same lookups, with the same metadata. -/
theorem mappings_immutable (p : poller.Poller σ τ) (tb : tbot.Bot σ) :
    (∀ (s : db.DbStorage) (a : String) (meta : common.AnnotationMetadata) (c m : Int),
      s.KeepsMappings (s.SetMessageID a meta c m).2) ∧
    (∀ (depth : Nat) (annot : hyp.Annotation) (chatID : Int) (h : hyp.Client σ)
      (w w' : World σ τ) (r : Except Error Int),
      poller.handleAnnot p depth annot chatID h w = some (r, w') →
        w.Storage.KeepsMappings w'.Storage) ∧
    (∀ (depth passes : Nat) (sub sub' : common.Subscription) (w w' : World σ τ)
      (err : Option Error),
      poller.handleSub p depth passes sub w = some (err, sub', w') →
        w.Storage.KeepsMappings w'.Storage) ∧
    (∀ (depth passes : Nat) (w w' : World σ τ) (err : Option Error),
      poller.RunOnce p depth passes w = some (err, w') → w.Storage.KeepsMappings w'.Storage) ∧
    (∀ (msg : Option tele.Message) (w w' : World σ τ) (out : tbot.Outcome),
      tbot.onText tb msg w = some (out, w') → w.Storage.KeepsMappings w'.Storage) := by
  refine ⟨?_, ?_, ?_, ?_, ?_⟩
  · intro s a meta c m
    exact (db.DbStorage.Grown.of_SetMessageID s a meta c m).keeps
  · intro depth annot chatID h w w' r hres
    exact (poller.handleAnnot_sound p chatID h depth annot w r w' hres).grown.keeps
  · intro depth passes sub sub' w w' err hres
    obtain ⟨-, hg⟩ := (poller.grown_respected p).of_handleSubLoop depth _ passes sub w err sub' w' hres
    exact hg.keeps
  · intro depth passes w w' err hres
    obtain ⟨-, hg⟩ := (poller.grown_respected p).of_RunOnce depth passes w w' err hres
    exact hg.keeps
  · intro msg w w' out hres
    exact (tbot.onText_grown tb msg w w' out hres).keeps

open sample in
/-- Witness of C16, on test `TestPollerAfterBot`: message 2 of chat 1 is
mapped to annotation `a0` before the bot handles the reply; it is so after,
and after the poll cycle that follows, which also keeps the mapping that the
bot made for the reply. -/
theorem mappings_immutable_witness :
    afterReply.Storage.AnnotationID 1 2 = .ok ("a0", ⟨[], "g", ""⟩) ∧
    afterPoll.Storage.AnnotationID 1 2 = .ok ("a0", ⟨[], "g", ""⟩) ∧
    afterPoll.Storage.MessageID "a1" 1 = some (.ok 3) := by
  have hthm := mappings_immutable sample.poller bot
  have hbot : tbot.onText bot (some reply) (chatWorld [a2g] "a0" [])
      = some (.returned none, afterReply) := rfl
  have hpoll : poller.RunOnce sample.poller 1 4 afterReply = some (none, afterPoll) := rfl
  have h1 := (hthm.2.2.2.2 _ _ _ _ hbot).2.2 1 2 "a0" ⟨[], "g", ""⟩ rfl
  exact ⟨h1, (hthm.2.2.2.1 _ _ _ _ _ hpoll).2.2 1 2 "a0" ⟨[], "g", ""⟩ h1,
    (hthm.2.2.2.1 _ _ _ _ _ hpoll).2.1 "a1" 1 3 rfl⟩

end

/-! ## The poll cycle over the subscriptions -/

namespace poller
variable {σ τ : Type}

theorem handleAnnotSend_live (p : Poller σ τ) (annot : hyp.Annotation) (chatID pm : Int)
    (w : World σ τ) (hlive : w.ctxt = none) : (handleAnnotSend p annot chatID pm w).2.ctxt = none := by
  unfold handleAnnotSend
  rw [isDone_of_live hlive]
  simp only
  split
  · exact hlive
  · split <;> exact hlive

theorem Bridged.live {p : Poller σ τ} {chatID : Int} {h : hyp.Client σ} {annot : hyp.Annotation}
    {w w' : World σ τ} {r : Except Error Int} (hb : Bridged p chatID h annot w r w')
    (hlive : w.ctxt = none) : w'.ctxt = none := by
  induction hb with
  | mapped _ => exact hlive
  | root _ _ => exact handleAnnotSend_live _ _ _ _ _ hlive
  | reply _ _ _ => exact handleAnnotSend_live _ _ _ _ _ hlive
  | fetchFailed _ _ _ _ => exact hlive
  | ancestorFailed _ _ _ _ _ ih => exact ih hlive
  | ancestor _ _ _ _ _ ih => exact handleAnnotSend_live _ _ _ _ _ (ih hlive)

/-- Every step of the poller adds its calls to the trace and leaves a
context that is never cancelled as it is. -/
theorem live_respected (p : Poller σ τ) : Respected p Live where
  nil w := ⟨by simp, id⟩
  comp := by
    intro w w1 w2 e1 e2 h1 h2
    exact ⟨by rw [h2.1, h1.1, List.append_assoc], fun hl => h2.2 (h1.2 hl)⟩
  poll w := by
    constructor
    · unfold isDone; split <;> simp
    · intro hl
      rw [isDone_of_live hl]
      exact hl
  fetch w token group t res := ⟨rfl, id⟩
  bridge := by
    intro d annot chatID h w w' r hres
    have hb := handleAnnot_sound p chatID h d annot w r w' hres
    obtain ⟨ext, htr, -⟩ := hb.trace
    exact ⟨ext, htr, hb.live⟩
  marker w annot r := ⟨rfl, id⟩
  update w sub := ⟨rfl, id⟩

/-- The only error that `handleSub` returns is that of a cancelled context. -/
theorem handleSubLoop_error (p : Poller σ τ) (depth : Nat) (h : hyp.Client σ) :
    ∀ (passes : Nat) (sub : common.Subscription) (w : World σ τ) (e : Error)
      (sub' : common.Subscription) (w' : World σ τ),
      handleSubLoop p depth h passes sub w = some (some e, sub', w') → e = Error.Canceled := by
  intro passes
  induction passes with
  | zero => intro sub w e sub' w' hres; simp [handleSubLoop] at hres
  | succ n ih =>
    intro sub w e sub' w' hres
    rw [handleSubLoop] at hres
    split at hres
    · simp only [Option.some.injEq, Prod.mk.injEq] at hres
      exact hres.1.symm
    · simp only at hres
      split at hres
      · simp at hres
      · split at hres
        · simp at hres
        · split at hres
          · simp at hres
          · simp at hres
          · exact ih _ _ _ _ _ hres

/-- With a context that is never cancelled `handleSub` returns no error. -/
theorem handleSubLoop_live (p : Poller σ τ) (depth : Nat) (h : hyp.Client σ) :
    ∀ (passes : Nat) (sub : common.Subscription) (w : World σ τ) (err : Option Error)
      (sub' : common.Subscription) (w' : World σ τ), w.ctxt = none →
      handleSubLoop p depth h passes sub w = some (err, sub', w') → err = none := by
  intro passes
  induction passes with
  | zero => intro sub w err sub' w' _ hres; simp [handleSubLoop] at hres
  | succ n ih =>
    intro sub w err sub' w' hlive hres
    rw [handleSubLoop, isDone_of_live hlive] at hres
    simp only at hres
    split at hres
    · simp only [Option.some.injEq, Prod.mk.injEq] at hres
      exact hres.1.symm
    · split at hres
      · simp only [Option.some.injEq, Prod.mk.injEq] at hres
        exact hres.1.symm
      · split at hres
        · simp at hres
        · simp only [Option.some.injEq, Prod.mk.injEq] at hres
          exact hres.1.symm
        · rename_i sub1 w2 hrange
          obtain ⟨-, -, hl⟩ := (live_respected p).of_handleSubRange depth h _ _ _ _ _ _ hrange
          exact ih _ _ _ _ _ (hl hlive) hres

/-- With a context that is never cancelled, the calls of a `handleSub` that
returns start with the bulk fetch for the subscription at its watermark. -/
theorem handleSubLoop_first (p : Poller σ τ) (depth : Nat) (h : hyp.Client σ)
    (passes : Nat) (sub : common.Subscription) (w : World σ τ) (err : Option Error)
    (sub' : common.Subscription) (w' : World σ τ) (hlive : w.ctxt = none)
    (hres : handleSubLoop p depth h passes sub w = some (err, sub', w')) :
    w'.ctxt = none ∧ ∃ res ext, w'.trace = w.trace ++
      Event.AnnotationsAfter sub.HypToken sub.HypGroup sub.SearchAfter res :: ext := by
  obtain ⟨-, -, hl⟩ := (live_respected p).of_handleSubLoop depth h passes sub w err sub' w' hres
  refine ⟨hl hlive, ?_⟩
  cases passes with
  | zero => simp [handleSubLoop] at hres
  | succ n =>
    rw [handleSubLoop, isDone_of_live hlive] at hres
    simp only at hres
    split at hres
    · simp only [Option.some.injEq, Prod.mk.injEq] at hres
      obtain ⟨-, -, rfl⟩ := hres
      exact ⟨_, [], rfl⟩
    · split at hres
      · simp only [Option.some.injEq, Prod.mk.injEq] at hres
        obtain ⟨-, -, rfl⟩ := hres
        exact ⟨_, [], rfl⟩
      · split at hres
        · simp at hres
        · rename_i sub1 w2 hrange
          simp only [Option.some.injEq, Prod.mk.injEq] at hres
          obtain ⟨-, -, rfl⟩ := hres
          obtain ⟨ext, htr, -⟩ := (live_respected p).of_handleSubRange depth h _ _ _ _ _ _ hrange
          exact ⟨h.AnnotationsAfter w.hyp sub.SearchAfter, ext, by rw [htr]; simp [World.log]⟩
        · rename_i sub1 w2 hrange
          obtain ⟨ext, htr, -⟩ := (live_respected p).of_handleSubRange depth h _ _ _ _ _ _ hrange
          obtain ⟨ext2, htr2, -⟩ := (live_respected p).of_handleSubLoop depth h _ _ _ _ _ _ hres
          exact ⟨h.AnnotationsAfter w.hyp sub.SearchAfter, ext ++ ext2,
            by rw [htr2, htr]; simp [World.log]⟩



theorem lastError_cons_none (errs : List (Option Error)) :
    lastError (none :: errs) = lastError errs := by
  simp [lastError]

theorem lastError_cons_some (e : Error) (errs : List (Option Error)) :
    lastError (some e :: errs) = (lastError errs).or (some e) := by
  simp only [lastError, List.filterMap_cons, id_eq]
  cases hl : List.filterMap id errs with
  | nil => rfl
  | cons x xs =>
    rw [List.getLast?_cons_cons]
    cases hx : (x :: xs).getLast? with
    | none => simp at hx
    | some y => rfl

/-- The loop of `RunOnce` is a `Cycle` over the subscriptions, and returns
the last error of the runs, or the one it started with. -/
theorem RunOnceRange_cycle (p : Poller σ τ) (depth passes : Nat) :
    ∀ (subs : List common.Subscription) (lastErr err : Option Error) (w w' : World σ τ),
      RunOnceRange p depth passes subs lastErr w = some (err, w') →
        ∃ errs, Cycle p depth passes subs w errs w' ∧ err = (lastError errs).or lastErr := by
  intro subs
  induction subs with
  | nil =>
    intro lastErr err w w' hres
    simp only [RunOnceRange, Option.some.injEq, Prod.mk.injEq] at hres
    obtain ⟨rfl, rfl⟩ := hres
    exact ⟨[], Cycle.done w, by simp [lastError]⟩
  | cons sub rest ih =>
    intro lastErr err w w' hres
    rw [RunOnceRange] at hres
    split at hres
    · simp at hres
    · rename_i e sub1 w1 hsub
      obtain ⟨errs, hc, herr⟩ := ih _ _ _ _ hres
      refine ⟨some e :: errs, Cycle.next hsub hc, ?_⟩
      rw [herr, lastError_cons_some]
      cases lastError errs <;> rfl
    · rename_i sub1 w1 hsub
      obtain ⟨errs, hc, herr⟩ := ih _ _ _ _ hres
      exact ⟨none :: errs, Cycle.next hsub hc, by rw [herr, lastError_cons_none]⟩

/-- A `Cycle` over the subscriptions makes the loop of `RunOnce` return. -/
theorem Cycle.returns {p : Poller σ τ} {depth passes : Nat} {subs : List common.Subscription}
    {w w' : World σ τ} {errs : List (Option Error)} (hc : Cycle p depth passes subs w errs w') :
    ∀ lastErr, RunOnceRange p depth passes subs lastErr w
      = some ((lastError errs).or lastErr, w') := by
  induction hc with
  | done w => intro lastErr; simp [RunOnceRange, lastError]
  | @next sub sub' rest w w1 w' err errs hsub _ ih =>
    intro lastErr
    rw [RunOnceRange, hsub]
    cases err with
    | none => simp only [ih, lastError_cons_none]
    | some e =>
      simp only [ih, lastError_cons_some]
      cases lastError errs <;> rfl

theorem Cycle.length {p : Poller σ τ} {depth passes : Nat} {subs : List common.Subscription}
    {w w' : World σ τ} {errs : List (Option Error)} (hc : Cycle p depth passes subs w errs w') :
    errs.length = subs.length := by
  induction hc with
  | done w => rfl
  | next _ _ ih => simp [ih]

/-- In a `Cycle` with a context that is never cancelled, each subscription
gets its bulk fetch, in the order of the subscriptions, and no run returns an
error. -/
theorem Cycle.fetches {p : Poller σ τ} {depth passes : Nat} {subs : List common.Subscription}
    {w w' : World σ τ} {errs : List (Option Error)} (hc : Cycle p depth passes subs w errs w')
    (hlive : w.ctxt = none) :
    w'.ctxt = none ∧ (∀ e ∈ errs, e = none) ∧
    ∃ ext, w'.trace = w.trace ++ ext ∧
      (subs.map (fun sub => (sub.HypToken, sub.HypGroup, sub.SearchAfter))).Sublist
        (bulkFetches ext) := by
  induction hc with
  | done w => exact ⟨hlive, by simp, [], by simp, by simp [bulkFetches]⟩
  | @next sub sub' rest w w1 w' err errs hsub _ ih =>
    obtain ⟨hl1, res, ext1, htr1⟩ := handleSubLoop_first p depth _ passes sub w err sub' w1 hlive hsub
    have herr := handleSubLoop_live p depth _ passes sub w err sub' w1 hlive hsub
    obtain ⟨hl2, hnone, ext2, htr2, hsl⟩ := ih hl1
    refine ⟨hl2, ?_, Event.AnnotationsAfter sub.HypToken sub.HypGroup sub.SearchAfter res ::
      (ext1 ++ ext2), by rw [htr2, htr1]; simp, ?_⟩
    · intro e he
      rcases List.mem_cons.1 he with rfl | he
      · exact herr
      · exact hnone e he
    · simp only [List.map_cons, bulkFetches, List.filterMap_cons, Event.bulkFetch?,
        List.filterMap_append]
      exact List.Sublist.cons₂ _ (hsl.trans (List.sublist_append_right _ _))

theorem Cycle.errors {p : Poller σ τ} {depth passes : Nat} {subs : List common.Subscription}
    {w w' : World σ τ} {errs : List (Option Error)} (hc : Cycle p depth passes subs w errs w') :
    ∀ e ∈ errs, e = none ∨ e = some Error.Canceled := by
  induction hc with
  | done w => simp
  | @next sub sub' rest w w1 w' err errs hsub _ ih =>
    intro e he
    rcases List.mem_cons.1 he with rfl | he
    · cases e with
      | none => exact Or.inl rfl
      | some e => exact Or.inr (by rw [handleSubLoop_error p depth _ passes sub w e sub' w1 hsub])
    · exact ih e he


/-- C17. With `subs` the subscriptions that the store returns, `RunOnce`
runs the per-subscription loop on every subscription of `subs`, in order,
each run starting in the world the run before it left, whatever the runs
return: when `RunOnce` returns, there was such a `Cycle`, with one result for
each subscription; and when each run returns, whatever it returns, `RunOnce`
returns. With a context that is never cancelled, the trace of a `RunOnce` that
returns holds a bulk fetch for each subscription of `subs` at its watermark,
in the order of `subs`: a run that meets a failed fetch, an annotation without
update time or a failed bridging does not keep the later subscriptions from
being processed. -/
theorem RunOnce_every_subscription (p : Poller σ τ) (depth passes : Nat) (w : World σ τ)
    (subs : List common.Subscription) (hsubs : w.Storage.Subscriptions = .ok subs) :
    (∀ err w', RunOnce p depth passes w = some (err, w') →
      ∃ errs, Cycle p depth passes subs w errs w' ∧ errs.length = subs.length) ∧
    (∀ errs w', Cycle p depth passes subs w errs w' →
      ∃ err, RunOnce p depth passes w = some (err, w')) ∧
    (w.ctxt = none → ∀ err w', RunOnce p depth passes w = some (err, w') →
      ∃ ext, w'.trace = w.trace ++ ext ∧
        (subs.map (fun sub => (sub.HypToken, sub.HypGroup, sub.SearchAfter))).Sublist
          (bulkFetches ext)) := by
  have hrun : ∀ err w', RunOnce p depth passes w = some (err, w') →
      ∃ errs, Cycle p depth passes subs w errs w' ∧ err = (lastError errs).or none := by
    intro err w' hres
    unfold RunOnce at hres
    rw [hsubs] at hres
    exact RunOnceRange_cycle p depth passes subs none err w w' hres
  refine ⟨?_, ?_, ?_⟩
  · intro err w' hres
    obtain ⟨errs, hc, -⟩ := hrun err w' hres
    exact ⟨errs, hc, hc.length⟩
  · intro errs w' hc
    unfold RunOnce
    rw [hsubs]
    exact ⟨_, hc.returns none⟩
  · intro hlive err w' hres
    obtain ⟨errs, hc, -⟩ := hrun err w' hres
    exact (hc.fetches hlive).2.2

open sample in
/-- Witness of C17: chat 42 is subscribed to a group whose annotation cannot
be bridged (its parent cannot be fetched), chat 43 to a group with a root
annotation. The cycle fails on the first and bridges the second. -/
theorem RunOnce_every_subscription_witness :
    RunOnce sample.poller 2 3 twoChats = some (none, twoChatsOnce) ∧
    twoChatsOnce.trace.any Event.failed = true ∧
    deliveries twoChatsOnce.trace
      = [⟨"c", 43, 1, 0, " selected \"\" and wrote \"C\"\nhttps://hypothes.is/a/c"⟩] ∧
    ∃ ext, twoChatsOnce.trace = twoChats.trace ++ ext ∧
      [("ht", "grp", 1000000000), ("ht2", "g2", 1000000000)].Sublist (bulkFetches ext) := by
  have hrun : RunOnce sample.poller 2 3 twoChats = some (none, twoChatsOnce) := rfl
  have hthm := (RunOnce_every_subscription sample.poller 2 3 twoChats
    [⟨"ht", "grp", 1000000000, 42⟩, ⟨"ht2", "g2", 1000000000, 43⟩] rfl).2.2 rfl none
    twoChatsOnce hrun
  exact ⟨hrun, rfl, rfl, hthm⟩

/-- C18, amended. `RunOnce` returns the last error that a run of the
per-subscription loop returned, and no error when none returned one. The only
error that a run returns is that of a cancelled context: a failed fetch and a
failed bridging are logged, and the run returns no error. So `RunOnce` returns
no error exactly when no run was cancelled, and never returns an error with a
context that is never cancelled. -/
theorem RunOnce_last_error (p : Poller σ τ) (depth passes : Nat) (w w' : World σ τ)
    (subs : List common.Subscription) (err : Option Error)
    (hsubs : w.Storage.Subscriptions = .ok subs)
    (hres : RunOnce p depth passes w = some (err, w')) :
    ∃ errs, Cycle p depth passes subs w errs w' ∧ err = lastError errs ∧
      (∀ e ∈ errs, e = none ∨ e = some Error.Canceled) ∧
      (err = none ↔ ∀ e ∈ errs, e = none) ∧
      (w.ctxt = none → err = none) := by
  unfold RunOnce at hres
  rw [hsubs] at hres
  obtain ⟨errs, hc, herr⟩ := RunOnceRange_cycle p depth passes subs none err w w' hres
  have herr' : err = lastError errs := by
    rw [herr]
    cases lastError errs <;> rfl
  have hiff : err = none ↔ ∀ e ∈ errs, e = none := by
    rw [herr']
    unfold lastError
    rw [List.getLast?_eq_none_iff, List.filterMap_eq_nil_iff]
    simp
  refine ⟨errs, hc, herr', hc.errors, hiff, ?_⟩
  intro hlive
  exact hiff.2 (hc.fetches hlive).2.1

open sample in
/-- Witness of C18, amended: the context is cancelled after the first poll
of it; the run for chat 42 fails to bridge and returns no error, the run for
chat 43 is cancelled, and `RunOnce` returns the cancellation. -/
theorem RunOnce_last_error_witness :
    RunOnce sample.poller 2 3 { twoChats with ctxt := some 1 }
      = some (some Error.Canceled, twoChatsCancelled) ∧
    ∃ errs, Cycle sample.poller 2 3
        [⟨"ht", "grp", 1000000000, 42⟩, ⟨"ht2", "g2", 1000000000, 43⟩]
        { twoChats with ctxt := some 1 } errs twoChatsCancelled ∧
      some Error.Canceled = lastError errs := by
  have hrun : RunOnce sample.poller 2 3 { twoChats with ctxt := some 1 }
      = some (some Error.Canceled, twoChatsCancelled) := rfl
  obtain ⟨errs, hc, herr, -⟩ := RunOnce_last_error sample.poller 2 3
    { twoChats with ctxt := some 1 } twoChatsCancelled
    [⟨"ht", "grp", 1000000000, 42⟩, ⟨"ht2", "g2", 1000000000, 43⟩] (some Error.Canceled)
    rfl hrun
  exact ⟨hrun, errs, hc, herr⟩

open sample in
/-- C18 as stated fails: a poll cycle in which the bridging of an annotation
failed returns no error, and so does a poll cycle in which the fetch failed. -/
theorem RunOnce_last_error_counterexample :
    (RunOnce sample.poller 2 3 tied = some (none, tiedOnce) ∧
      tiedOnce.trace.any Event.failed = true) ∧
    (∃ w', RunOnce ⟨unavailable, fake.Sender⟩ 1 1 (world [] 0) = some (none, w') ∧
      w'.trace = [Event.AnnotationsAfter "ht" "grp" 0
        (.error (Error.Errorf "failed to perform search: status=%v; want 200" ["503"]))]) :=
  ⟨⟨rfl, rfl⟩, _, rfl, rfl⟩

end poller

/-! ## Subscriptions in the store -/

namespace db.DbStorage

/-- A successful `AddSubscription` met no row with the key and added one. -/
theorem AddSubscription_ok {s s' : DbStorage} {sub : common.Subscription}
    (h : s.AddSubscription sub = (none, s')) :
    (∀ r ∈ s.SubscriptionsTable, r.hasKey sub.HypGroup sub.ChatID = false) ∧
    s' = { s with SubscriptionsTable := s.SubscriptionsTable ++
      [⟨sub.HypToken, sub.HypGroup, time.UnixMicro sub.SearchAfter, sub.ChatID⟩] } := by
  unfold AddSubscription at h
  simp only at h
  split at h
  · simp at h
  · rename_i hno
    simp only [Prod.mk.injEq, true_and] at h
    refine ⟨?_, h.symm⟩
    intro r hr
    by_contra hk
    exact hno (List.any_eq_true.2 ⟨r, hr, by simpa using hk⟩)

/-- A time whose microseconds fit an `int64` comes back from the store
without its nanoseconds below the microsecond. -/
theorem ofUnixMicro_UnixMicro_floor {t : Time} (hrange : time.Representable t) :
    time.ofUnixMicro (time.UnixMicro t) = t - t % 1000 := by
  rw [poller.UnixMicro_of_representable hrange]
  unfold time.ofUnixMicro
  have hint : ∀ x : Int, x / 1000 * 1000 = x - x % 1000 := by
    intro x
    omega
  exact hint t

/-- A whole number of microseconds that fits an `int64` comes back from the
store as it went in. -/
theorem ofUnixMicro_UnixMicro {t : Time} (hrange : time.Representable t) (h : t % 1000 = 0) :
    time.ofUnixMicro (time.UnixMicro t) = t := by
  rw [ofUnixMicro_UnixMicro_floor hrange]
  have hint : ∀ x : Int, x % 1000 = 0 → x - x % 1000 = x := by
    intro x hx
    omega
  exact hint t h

/-- C21, amended. Subscription round trip: after `AddSubscription(sub)`
succeeds, `Subscription(sub.ChatID, sub.HypGroup)` returns a record whose
token, group and chat id are those of `sub` and whose watermark is the one
stored, `UnixMicro` of the watermark of `sub`, converted back. When the
watermark of `sub` is an instant whose microseconds since the epoch fit an
`int64`, the watermark returned is that of `sub` without its nanoseconds
below the microsecond (rounded down to a whole microsecond), and the record
is equal to `sub` when moreover the watermark of `sub` is a whole number of
microseconds. -/
theorem subscription_round_trip (s s' : DbStorage) (sub : common.Subscription)
    (h : s.AddSubscription sub = (none, s')) :
    s'.Subscription sub.ChatID sub.HypGroup
      = .ok ⟨sub.HypToken, sub.HypGroup, time.ofUnixMicro (time.UnixMicro sub.SearchAfter),
          sub.ChatID⟩ ∧
    (time.Representable sub.SearchAfter →
      s'.Subscription sub.ChatID sub.HypGroup
        = .ok ⟨sub.HypToken, sub.HypGroup, sub.SearchAfter - sub.SearchAfter % 1000,
            sub.ChatID⟩ ∧
      (sub.SearchAfter % 1000 = 0 → s'.Subscription sub.ChatID sub.HypGroup = .ok sub)) := by
  obtain ⟨hno, rfl⟩ := AddSubscription_ok h
  have hnone : List.find? (fun r => r.hasKey sub.HypGroup sub.ChatID) s.SubscriptionsTable = none :=
    List.find?_eq_none.2 (fun r hr => by simp [hno r hr])
  have hread : ({ s with SubscriptionsTable := s.SubscriptionsTable ++
      [⟨sub.HypToken, sub.HypGroup, time.UnixMicro sub.SearchAfter, sub.ChatID⟩] } :
      DbStorage).Subscription sub.ChatID sub.HypGroup
      = .ok ⟨sub.HypToken, sub.HypGroup, time.ofUnixMicro (time.UnixMicro sub.SearchAfter),
        sub.ChatID⟩ := by
    unfold Subscription
    simp only [List.find?_append, hnone, Option.none_or, List.find?_cons]
    simp [SubscriptionsRow.hasKey]
  refine ⟨hread, ?_⟩
  intro hrange
  refine ⟨by rw [hread, ofUnixMicro_UnixMicro_floor hrange], ?_⟩
  intro hwhole
  rw [hread, ofUnixMicro_UnixMicro hrange hwhole]

/-- Witness of C21, amended, with a watermark of one second. -/
theorem subscription_round_trip_witness :
    (NewInMemoryStorage.AddSubscription ⟨"token", "group", 1000000000, 42⟩).2.Subscription 42 "group"
      = .ok ⟨"token", "group", 1000000000, 42⟩ :=
  ((subscription_round_trip NewInMemoryStorage _ ⟨"token", "group", 1000000000, 42⟩ rfl).2
    (by decide)).2 (by decide)

/-- C21 as stated fails, in two ways. A subscription whose watermark is 500
nanoseconds after a second is added, and the record read back has the
watermark at the second. A subscription whose watermark is
`time.Unix(9223372036855, 0)`, an instant whose microseconds do not fit an
`int64`, is added, and the record read back has a watermark before the
epoch. -/
theorem subscription_round_trip_counterexample :
    (∃ s', NewInMemoryStorage.AddSubscription ⟨"token", "group", 1000000500, 42⟩ = (none, s') ∧
      s'.Subscription 42 "group" = .ok ⟨"token", "group", 1000000000, 42⟩ ∧
      s'.Subscription 42 "group" ≠ .ok ⟨"token", "group", 1000000500, 42⟩) ∧
    (∃ s', NewInMemoryStorage.AddSubscription ⟨"token", "group", 9223372036855000000000, 42⟩
        = (none, s') ∧
      s'.Subscription 42 "group" = .ok ⟨"token", "group", -9223372036854551616000, 42⟩ ∧
      s'.Subscription 42 "group" ≠ .ok ⟨"token", "group", 9223372036855000000000, 42⟩) := by
  refine ⟨⟨_, rfl, rfl, ?_⟩, ⟨_, rfl, rfl, ?_⟩⟩
  · intro hsame
    have hread : (Except.ok ⟨"token", "group", 1000000000, 42⟩ : Except Error common.Subscription)
        = .ok ⟨"token", "group", 1000000500, 42⟩ := Eq.trans rfl hsame
    simp at hread
  · intro hsame
    have hread : (Except.ok ⟨"token", "group", -9223372036854551616000, 42⟩ :
        Except Error common.Subscription)
        = .ok ⟨"token", "group", 9223372036855000000000, 42⟩ := Eq.trans rfl hsame
    simp at hread

/-- No row is counted for a key exactly when no row has the key. -/
theorem countP_hasKey_eq_zero (s : DbStorage) (g : String) (c : Int) :
    s.SubscriptionsTable.countP (fun r => r.hasKey g c) = 0 ↔
      ∀ r ∈ s.SubscriptionsTable, ¬ (r.hyp_group = g ∧ r.chat_id = c) := by
  rw [List.countP_eq_zero]
  constructor
  · intro h r hr hk
    exact h r hr (by simpa [SubscriptionsRow.hasKey] using hk)
  · intro h r hr hk
    exact h r hr (by simpa [SubscriptionsRow.hasKey] using hk)

/-- `UpdateSubscription` on a key that the table does not hold changes nothing. -/
theorem UpdateSubscription_miss (s : DbStorage) (sub : common.Subscription)
    (h : ∀ r ∈ s.SubscriptionsTable, ¬ (r.hyp_group = sub.HypGroup ∧ r.chat_id = sub.ChatID)) :
    (s.UpdateSubscription sub).2 = s := by
  have hmap : s.SubscriptionsTable.map
      (fun r : SubscriptionsRow => if r.hasKey sub.HypGroup sub.ChatID then
        ({ r with hyp_token := sub.HypToken, search_after := time.UnixMicro sub.SearchAfter } :
          SubscriptionsRow)
        else r) = s.SubscriptionsTable := by
    conv_rhs => rw [← List.map_id s.SubscriptionsTable]
    apply List.map_congr_left
    intro r hr
    have : r.hasKey sub.HypGroup sub.ChatID = false := by
      simpa [SubscriptionsRow.hasKey] using h r hr
    simp [this]
  obtain ⟨hrows, huris, hmu, hsubs⟩ := UpdateSubscription_frame s sub
  rw [hmap] at hsubs
  generalize (s.UpdateSubscription sub).2 = s' at hrows huris hmu hsubs
  cases s'
  cases s
  simp only at hrows huris hmu hsubs
  subst hrows huris hmu hsubs
  rfl

/-- C22, amended. `UpdateSubscription(sub)` returns `ErrNotFound` exactly
when no row of `Subscriptions` has the group and chat id of `sub`, and the
store is then what it was. In every case the rows with that key get the token
of `sub` and, as watermark, `UnixMicro` of the watermark of `sub` (the unit of
the column, whole microseconds in an `int64`) and keep group and chat id,
every other row is unchanged, rows are neither added nor removed, the other
tables are untouched, and the subscription read for any other key is what it
was. When the key is held (once, as the unique constraint has it), no error
is returned and the subscription read back carries the token of `sub` and the
watermark stored, converted back: when the watermark of `sub` is an instant
whose microseconds since the epoch fit an `int64`, that is the watermark of
`sub` without its nanoseconds below the microsecond, and the watermark of
`sub` itself when it is a whole number of microseconds. -/
theorem UpdateSubscription_effect (s : DbStorage) (sub : common.Subscription) :
    ((s.UpdateSubscription sub).1 = some Error.ErrNotFound ↔
      ∀ r ∈ s.SubscriptionsTable, ¬ (r.hyp_group = sub.HypGroup ∧ r.chat_id = sub.ChatID)) ∧
    ((s.UpdateSubscription sub).1 = some Error.ErrNotFound → (s.UpdateSubscription sub).2 = s) ∧
    (s.UpdateSubscription sub).2.SubscriptionsTable = s.SubscriptionsTable.map
      (fun r : SubscriptionsRow => if r.hasKey sub.HypGroup sub.ChatID then
        ({ r with hyp_token := sub.HypToken, search_after := time.UnixMicro sub.SearchAfter } :
          SubscriptionsRow)
        else r) ∧
    (s.UpdateSubscription sub).2.AnnotationMessages = s.AnnotationMessages ∧
    (s.UpdateSubscription sub).2.URIs = s.URIs ∧
    (∀ (c : Int) (g : String), ¬ (g = sub.HypGroup ∧ c = sub.ChatID) →
      (s.UpdateSubscription sub).2.Subscription c g = s.Subscription c g) ∧
    (s.UniqueSubscriptions →
      (∃ r ∈ s.SubscriptionsTable, r.hyp_group = sub.HypGroup ∧ r.chat_id = sub.ChatID) →
      (s.UpdateSubscription sub).1 = none ∧
      (s.UpdateSubscription sub).2.Subscription sub.ChatID sub.HypGroup
        = .ok ⟨sub.HypToken, sub.HypGroup, time.ofUnixMicro (time.UnixMicro sub.SearchAfter),
            sub.ChatID⟩ ∧
      (time.Representable sub.SearchAfter →
        (s.UpdateSubscription sub).2.Subscription sub.ChatID sub.HypGroup
          = .ok ⟨sub.HypToken, sub.HypGroup, sub.SearchAfter - sub.SearchAfter % 1000,
              sub.ChatID⟩ ∧
        (sub.SearchAfter % 1000 = 0 →
          (s.UpdateSubscription sub).2.Subscription sub.ChatID sub.HypGroup = .ok sub))) := by
  obtain ⟨hrows, huris, hmu, hsubs⟩ := UpdateSubscription_frame s sub
  have hiff : (s.UpdateSubscription sub).1 = some Error.ErrNotFound ↔
      ∀ r ∈ s.SubscriptionsTable, ¬ (r.hyp_group = sub.HypGroup ∧ r.chat_id = sub.ChatID) := by
    rw [← countP_hasKey_eq_zero]
    unfold UpdateSubscription
    simp only
    split
    · rename_i h0
      simp [h0]
    · rename_i h0
      split <;> simp [h0]
  refine ⟨hiff, fun herr => UpdateSubscription_miss s sub (hiff.1 herr), hsubs, hrows, huris,
    ?_, ?_⟩
  · intro c g hne
    unfold Subscription
    rw [hsubs, List.find?_map]
    have hcomp : ((fun r : SubscriptionsRow => r.hasKey g c) ∘
        (fun r : SubscriptionsRow => if r.hasKey sub.HypGroup sub.ChatID then
          ({ r with hyp_token := sub.HypToken, search_after := time.UnixMicro sub.SearchAfter } :
            SubscriptionsRow) else r))
        = (fun r => r.hasKey g c) := by
      funext r
      exact hasKey_update r sub g c
    rw [hcomp]
    cases hf : List.find? (fun r => r.hasKey g c) s.SubscriptionsTable with
    | none => rfl
    | some r =>
      have hp : r.hasKey g c = true := by
        have := List.find?_some hf
        simpa using this
      have hk : r.hyp_group = g ∧ r.chat_id = c := by
        simpa [SubscriptionsRow.hasKey] using hp
      have hmiss : r.hasKey sub.HypGroup sub.ChatID = false := by
        simp only [SubscriptionsRow.hasKey, decide_eq_false_iff_not]
        intro hhit
        exact hne ⟨hk.1.symm.trans hhit.1, hk.2.symm.trans hhit.2⟩
      simp [hmiss]
  · intro huniq hex
    have hpos : s.SubscriptionsTable.countP (fun r => r.hasKey sub.HypGroup sub.ChatID) ≠ 0 := by
      intro h0
      obtain ⟨r, hr, hk⟩ := hex
      exact (countP_hasKey_eq_zero s _ _).1 h0 r hr hk
    have hone : s.SubscriptionsTable.countP (fun r => r.hasKey sub.HypGroup sub.ChatID) = 1 := by
      have := huniq sub.HypGroup sub.ChatID
      omega
    refine ⟨UpdateSubscription_ok s sub hone, Subscription_of_update s sub hone, ?_⟩
    intro hrange
    refine ⟨by rw [Subscription_of_update s sub hone, ofUnixMicro_UnixMicro_floor hrange], ?_⟩
    intro hwhole
    rw [Subscription_of_update s sub hone, ofUnixMicro_UnixMicro hrange hwhole]


/-- Witness of C22, amended, on the tests of `DoTestUpdateSubscription`: the
store holds the subscription of chat 42 to `group`; an update for `group2`
returns `ErrNotFound`, an update for chat 99 leaves the store as it was, an
update of the token and the watermark for the key held changes that row, and
the subscription read back is the one written. -/
theorem UpdateSubscription_effect_witness :
    ((NewInMemoryStorage.AddSubscription ⟨"token", "group", 1000000, 42⟩).2.UpdateSubscription
      ⟨"token", "group2", 2000000, 42⟩).1 = some Error.ErrNotFound ∧
    ((NewInMemoryStorage.AddSubscription ⟨"token", "group", 1000000, 42⟩).2.UpdateSubscription
      ⟨"token", "group", 2000000, 99⟩).2
      = (NewInMemoryStorage.AddSubscription ⟨"token", "group", 1000000, 42⟩).2 ∧
    ((NewInMemoryStorage.AddSubscription ⟨"token", "group", 1000000, 42⟩).2.UpdateSubscription
      ⟨"CHANGED1", "group", 2000000, 42⟩).2.SubscriptionsTable
      = [⟨"CHANGED1", "group", 2000, 42⟩] ∧
    ((NewInMemoryStorage.AddSubscription ⟨"token", "group", 1000000, 42⟩).2.UpdateSubscription
      ⟨"CHANGED1", "group", 2000000, 42⟩).2.Subscription 42 "group"
      = .ok ⟨"CHANGED1", "group", 2000000, 42⟩ := by
  have h1 := UpdateSubscription_effect
    (NewInMemoryStorage.AddSubscription ⟨"token", "group", 1000000, 42⟩).2
    ⟨"token", "group2", 2000000, 42⟩
  have h2 := UpdateSubscription_effect
    (NewInMemoryStorage.AddSubscription ⟨"token", "group", 1000000, 42⟩).2
    ⟨"token", "group", 2000000, 99⟩
  have h3 := UpdateSubscription_effect
    (NewInMemoryStorage.AddSubscription ⟨"token", "group", 1000000, 42⟩).2
    ⟨"CHANGED1", "group", 2000000, 42⟩
  have huniq : (NewInMemoryStorage.AddSubscription
      ⟨"token", "group", 1000000, 42⟩).2.UniqueSubscriptions := by
    intro g c
    have hrows : (NewInMemoryStorage.AddSubscription
        ⟨"token", "group", 1000000, 42⟩).2.SubscriptionsTable
        = [⟨"token", "group", 1000, 42⟩] := by decide
    rw [hrows, List.countP_singleton]
    split <;> omega
  refine ⟨h1.1.2 (by decide), h2.2.1 (h2.1.2 (by decide)), ?_,
    ((h3.2.2.2.2.2.2 huniq ⟨⟨"token", "group", 1000, 42⟩, by decide, rfl, rfl⟩).2.2
      (by decide)).2 (by decide)⟩
  rw [h3.2.2.1]
  decide

/-- C22 as stated fails: the subscription of chat 42 to `group` is updated
with a watermark 500 nanoseconds after two seconds; no error is returned, and
the watermark of the subscription is then not the one of the update but the
two seconds, the nanoseconds below the microsecond dropped. -/
theorem UpdateSubscription_effect_counterexample :
    ∃ s', (NewInMemoryStorage.AddSubscription ⟨"token", "group", 1000000000, 42⟩).2.UpdateSubscription
        ⟨"token", "group", 2000000500, 42⟩ = (none, s') ∧
      s'.SubscriptionsTable = [⟨"token", "group", 2000000, 42⟩] ∧
      s'.Subscription 42 "group" = .ok ⟨"token", "group", 2000000000, 42⟩ ∧
      s'.Subscription 42 "group" ≠ .ok ⟨"token", "group", 2000000500, 42⟩ := by
  refine ⟨_, rfl, rfl, rfl, ?_⟩
  intro hsame
  have hread : (Except.ok ⟨"token", "group", 2000000000, 42⟩ : Except Error common.Subscription)
      = .ok ⟨"token", "group", 2000000500, 42⟩ := Eq.trans rfl hsame
  simp at hread

end db.DbStorage

/-! ## `onText`: the lock and the reference chain -/

namespace tbot
variable {σ τ : Type}

/-- What a call of `onText` that returns did: nothing at all, or `Lock`, the
calls of the window and `Unlock`, the mutex free before and after. -/
theorem onText_calls (tb : Bot σ) (msg : Option tele.Message) (w w' : World σ τ) (out : Outcome)
    (h : onText tb msg w = some (out, w')) :
    w' = w ∨
    ∃ m replyTo parentAnnotID parentMeta sub calls,
      msg = some m ∧ m.ReplyTo = some replyTo ∧
      w.Storage.AnnotationID m.Chat.ID replyTo.ID = .ok (parentAnnotID, parentMeta) ∧
      w.Storage.Subscription m.Chat.ID parentMeta.HypGroup = .ok sub ∧
      w.Storage.mu = false ∧ w'.Storage.mu = false ∧
      w'.trace = w.trace ++ (Event.Lock :: calls ++ [Event.Unlock]) ∧
      Window parentAnnotID parentMeta sub m.Chat.ID m.ID calls := by
  have hsame : ∀ {o : Outcome}, some (o, w) = some (out, w') → w' = w := by
    intro o ho
    simp only [Option.some.injEq, Prod.mk.injEq] at ho
    exact ho.2.symm
  unfold onText at h
  split at h
  · exact Or.inl (hsame h)
  · rename_i m
    split at h
    · exact Or.inl (hsame h)
    · rename_i replyTo hreply
      split at h
      · exact Or.inl (hsame h)
      · split at h
        · split at h <;> exact Or.inl (hsame h)
        · rename_i parentAnnotID parentMeta hparent
          split at h
          · split at h <;> exact Or.inl (hsame h)
          · rename_i sub hsub
            split at h
            · cases h
            · rename_i locked hlock
              have hfree : w.Storage.mu = false := by
                unfold db.DbStorage.Lock at hlock
                split at hlock
                · cases hlock
                · rename_i hmu
                  simpa using hmu
              clear hsame
              right
              refine ⟨m, replyTo, parentAnnotID, parentMeta, sub, ?_⟩
              simp only at h
              split at h
              · simp only [Option.some.injEq, Prod.mk.injEq] at h
                obtain ⟨-, rfl⟩ := h
                exact ⟨[], rfl, hreply, hparent, hsub, hfree, rfl, by simp [World.log], Or.inl rfl⟩
              · rename_i text htext
                split at h
                · rename_i err herr
                  simp only [Option.some.injEq, Prod.mk.injEq] at h
                  obtain ⟨-, rfl⟩ := h
                  refine ⟨[Event.Reply sub.HypToken sub.HypGroup text
                      (parentMeta.References ++ [parentAnnotID]) parentMeta.URI (.error err)],
                    rfl, hreply, hparent, hsub, hfree, rfl, ?_,
                    Or.inr (Or.inl ⟨text, err, rfl⟩)⟩
                  simp only [World.log] at herr
                  simp [World.log, herr]
                · rename_i annotID hok
                  simp only [Option.some.injEq, Prod.mk.injEq] at h
                  obtain ⟨-, rfl⟩ := h
                  refine ⟨[Event.Reply sub.HypToken sub.HypGroup text
                      (parentMeta.References ++ [parentAnnotID]) parentMeta.URI (.ok annotID),
                    Event.SetMessageID annotID
                      ⟨parentMeta.References ++ [parentAnnotID], sub.HypGroup, parentMeta.URI⟩
                      m.Chat.ID m.ID (locked.SetMessageID annotID
                        ⟨parentMeta.References ++ [parentAnnotID], sub.HypGroup, parentMeta.URI⟩
                        m.Chat.ID m.ID).1], rfl, hreply, hparent, hsub, hfree, rfl, ?_,
                    Or.inr (Or.inr ⟨text, annotID, _, rfl⟩)⟩
                  simp only [World.log] at hok
                  simp [World.log, hok]


/-- With the mutex free `onText` returns, or panics: it never waits. -/
theorem onText_returns (tb : Bot σ) (msg : Option tele.Message) (w : World σ τ)
    (hfree : w.Storage.mu = false) : ∃ out w', onText tb msg w = some (out, w') := by
  unfold onText
  split
  · exact ⟨_, _, rfl⟩
  · split
    · exact ⟨_, _, rfl⟩
    · split
      · exact ⟨_, _, rfl⟩
      · split
        · split <;> exact ⟨_, _, rfl⟩
        · split
          · split <;> exact ⟨_, _, rfl⟩
          · split
            · rename_i hlock
              simp [db.DbStorage.Lock, hfree] at hlock
            · simp only
              split
              · exact ⟨_, _, rfl⟩
              · split <;> exact ⟨_, _, rfl⟩

/-- C25. With the store mutex free `onText` returns (or panics): it never
waits for the mutex it holds, `MessageID`, the one store operation that takes
the mutex, not being called. A run that returns leaves the mutex as it found
it, and either made no call at all, or made `Lock` first and `Unlock` last
with the calls of the window in between: the `Reply` call comes after `Lock`,
the `SetMessageID` call comes after a successful `Reply` and before `Unlock`,
and `Unlock` is made on every way out, a failed `Reply` and a panic
included. -/
theorem onText_lock_discipline (tb : Bot σ) (msg : Option tele.Message) (w : World σ τ) :
    (w.Storage.mu = false → ∃ out w', onText tb msg w = some (out, w')) ∧
    (∀ out w', onText tb msg w = some (out, w') →
      w'.Storage.mu = w.Storage.mu ∧
      ∃ ext, w'.trace = w.trace ++ ext ∧
        (ext = [] ∨
          ∃ parentAnnotID parentMeta sub chatID messageID calls,
            w.Storage.mu = false ∧
            ext = Event.Lock :: calls ++ [Event.Unlock] ∧
            Window parentAnnotID parentMeta sub chatID messageID calls)) := by
  refine ⟨onText_returns tb msg w, ?_⟩
  intro out w' h
  rcases onText_calls tb msg w w' out h with rfl | ⟨m, replyTo, parentAnnotID, parentMeta, sub,
    calls, -, -, -, -, hfree, hfree', htr, hwin⟩
  · exact ⟨rfl, [], by simp, Or.inl rfl⟩
  · exact ⟨hfree'.trans hfree.symm, _, htr,
      Or.inr ⟨parentAnnotID, parentMeta, sub, m.Chat.ID, m.ID, calls, hfree, rfl, hwin⟩⟩

open sample in
/-- Witness of C25, on test `TestOnText_ReplyToBot`. -/
theorem onText_lock_discipline_witness :
    ∃ w', onText bot (some reply) (chatWorld [] "a0" []) = some (.returned none, w') ∧
      w'.Storage.mu = false ∧
      w'.trace = [Event.Lock,
        Event.Reply "hyptoken" "g" "Ann (ann) wrote \"hello\"" ["a0"] "" (.ok "a1"),
        Event.SetMessageID "a1" ⟨["a0"], "g", ""⟩ 1 3 none,
        Event.Unlock] := by
  have heval : onText bot (some reply) (chatWorld [] "a0" []) = some (.returned none, _) := rfl
  have hthm := (onText_lock_discipline bot (some reply) (chatWorld [] "a0" [])).2 _ _ heval
  exact ⟨_, heval, hthm.1, rfl⟩

/-- C28. Every `Reply` call that `onText` makes passes a reference chain
that is not empty (the chain of the parent mapping followed by the id of the
parent), whatever the store holds and whatever the message is: the branch of
the client that panics on an empty chain is not reached from `onText`. -/
theorem onText_reply_references (tb : Bot σ) (msg : Option tele.Message) (w w' : World σ τ)
    (out : Outcome) (h : onText tb msg w = some (out, w')) :
    ∃ ext, w'.trace = w.trace ++ ext ∧ ∀ x ∈ replies ext, x.2.1 ≠ [] := by
  rcases onText_calls tb msg w w' out h with rfl | ⟨m, replyTo, parentAnnotID, parentMeta, sub,
    calls, -, -, -, -, -, -, htr, hwin⟩
  · exact ⟨[], by simp, by simp [replies]⟩
  · refine ⟨_, htr, ?_⟩
    rcases hwin with rfl | ⟨text, err, rfl⟩ | ⟨text, annotID, res, rfl⟩ <;>
      simp [replies, Event.replied?]

open sample in
/-- Witness of C28, on test `TestOnText_ReplyToBot`. -/
theorem onText_reply_references_witness :
    ∃ w', onText bot (some reply) (chatWorld [] "a0" []) = some (.returned none, w') ∧
      replies w'.trace = [("Ann (ann) wrote \"hello\"", ["a0"], "", .ok "a1")] ∧
      ∃ ext, w'.trace = (chatWorld [] "a0" []).trace ++ ext ∧ ∀ x ∈ replies ext, x.2.1 ≠ [] := by
  have heval : onText bot (some reply) (chatWorld [] "a0" []) = some (.returned none, _) := rfl
  exact ⟨_, heval, rfl, onText_reply_references bot (some reply) (chatWorld [] "a0" []) _ _ heval⟩

end tbot

/-! ## The text of a root message -/

namespace poller
variable {σ τ : Type}

/-- The text composed for a root send is the root template. -/
theorem messageText_root (annot : hyp.Annotation) :
    messageText annot 0 = RootMessageText annot.User annot.Text (selection annot)
      ("https://hypothes.is/a/" ++ annot.ID) := by
  unfold messageText selection
  simp only [↓reduceIte]

/-- C23, amended. For every root annotation (empty reference chain)
without mapping in the chat that `handleAnnot` bridges, the one `Send` of the
call is a root send whose text follows the template
`<user> selected "<quote>" and wrote "<text>"`, the quote being the
`TextQuote` selector of the first target of the annotation (empty when there
is none), followed on a new line by the link to the annotation,
`https://hypothes.is/a/` and the annotation id. The URI of the document is not
part of the text. -/
theorem handleAnnot_root_text (p : Poller σ τ) (h : hyp.Client σ) (annot : hyp.Annotation)
    (chatID : Int) (w w' : World σ τ) (d : Nat) (m : Int)
    (hroot : annot.References = [])
    (hun : w.Storage.MessageID annot.ID chatID = some (.error Error.ErrNotFound))
    (hres : handleAnnot p d annot chatID h w = some (.ok m, w')) :
    ∃ text,
      w'.trace = w.trace ++
        [Event.Send annot.ID chatID 0 text (.ok m),
         Event.SetMessageID annot.ID ⟨annot.References, annot.Group, annot.URI⟩ chatID m none] ∧
      text = RootMessageText annot.User annot.Text (selection annot)
        ("https://hypothes.is/a/" ++ annot.ID) ∧
      text = annot.User ++ " selected \"" ++ selection annot ++ "\" and wrote \"" ++ annot.Text
        ++ "\"\n" ++ ("https://hypothes.is/a/" ++ annot.ID) := by
  have hl : annot.References.getLast? = none := by rw [hroot]; rfl
  have hb := handleAnnot_sound p chatID h d annot w _ w' hres
  have hsend : handleAnnotSend p annot chatID 0 w = (.ok m, w') := by
    cases d with
    | zero => simp [handleAnnot] at hres
    | succ d =>
      rw [handleAnnot, hun] at hres
      simp only [ne_eq, not_true_eq_false, ↓reduceIte, hl, Option.some.injEq] at hres
      exact hres
  obtain ⟨w1, tg', st', -, -, -, hw'⟩ := handleAnnotSend_ok hsend
  refine ⟨messageText annot 0, by rw [hw'], messageText_root annot, ?_⟩
  rw [messageText_root]
  rfl

open sample in
/-- Witness of C23, amended. -/
theorem handleAnnot_root_text_witness :
    ∃ w', handleAnnot sample.poller 1 quoted 42 client (world [quoted] 1000000000)
        = some (.ok 1, w') ∧
      w'.trace = [Event.Send "a1" 42 0
          "ann selected \"some words\" and wrote \"nice\"\nhttps://hypothes.is/a/a1" (.ok 1),
        Event.SetMessageID "a1" ⟨[], "grp", "https://example.com/doc"⟩ 42 1 none] := by
  have hres : handleAnnot sample.poller 1 quoted 42 client (world [quoted] 1000000000)
      = some (.ok 1, _) := rfl
  obtain ⟨text, htr, -, htext⟩ := handleAnnot_root_text sample.poller client quoted 42
    (world [quoted] 1000000000) _ 1 1 rfl rfl hres
  exact ⟨_, hres, rfl⟩

set_option maxRecDepth 100000 in
open sample in
/-- C23 as stated fails: a root annotation on the document
`https://example.com/doc` is bridged, and the text sent does not contain the
URI of the document. -/
theorem handleAnnot_root_text_counterexample :
    ∃ w', handleAnnot sample.poller 1 quoted 42 client (world [quoted] 1000000000)
        = some (.ok 1, w') ∧
      quoted.References = [] ∧ quoted.URI = "https://example.com/doc" ∧
      deliveries w'.trace = [⟨"a1", 42, 1, 0,
        "ann selected \"some words\" and wrote \"nice\"\nhttps://hypothes.is/a/a1"⟩] ∧
      ¬ ("https://example.com/doc".data <:+:
        "ann selected \"some words\" and wrote \"nice\"\nhttps://hypothes.is/a/a1".data) := by
  refine ⟨_, rfl, rfl, rfl, rfl, ?_⟩
  decide

end poller

/-! ## Termination of `handleAnnot` and of `handleSub` -/

namespace poller
variable {σ τ : Type}

/-- Every lookup of a mapping returns when the mutex is free. -/
theorem MessageID_total {s : db.DbStorage} (hfree : s.mu = false) (a : String) (c : Int) :
    (∃ m, s.MessageID a c = some (.ok m)) ∨
      s.MessageID a c = some (.error Error.ErrNotFound) := by
  rw [db.DbStorage.MessageID_of_free hfree]
  cases List.find? (fun r => r.isFor a c) s.AnnotationMessages with
  | none => exact Or.inr rfl
  | some r => exact Or.inl ⟨_, rfl⟩

/-- The second half of `handleAnnot` makes no point fetch and at most one `Send`. -/
theorem handleAnnotSend_count (p : Poller σ τ) (annot : hyp.Annotation) (chatID pm : Int)
    (w : World σ τ) :
    ∃ ext, (handleAnnotSend p annot chatID pm w).2.trace = w.trace ++ ext ∧
      fetches ext = [] ∧ (sends ext).length ≤ 1 := by
  unfold handleAnnotSend
  split
  · rename_i w1 hd
    exact ⟨[], by simp [(isDone_true hd).1], rfl, by simp [sends]⟩
  · rename_i w1 hd
    obtain ⟨-, -, -, htr, -⟩ := isDone_false hd
    simp only
    split
    · exact ⟨[Event.Send annot.ID chatID pm (messageText annot pm)
          (p.Tg.Send w1.tg chatID pm (messageText annot pm)).1],
        by simp [World.log, htr], rfl, by simp [sends, Event.isSend]⟩
    · rename_i mid hsend
      have hshape : ∀ res : Option Error,
          fetches [Event.Send annot.ID chatID pm (messageText annot pm)
              (p.Tg.Send w1.tg chatID pm (messageText annot pm)).1,
            Event.SetMessageID annot.ID ⟨annot.References, annot.Group, annot.URI⟩ chatID mid
              res] = [] ∧
          (sends [Event.Send annot.ID chatID pm (messageText annot pm)
              (p.Tg.Send w1.tg chatID pm (messageText annot pm)).1,
            Event.SetMessageID annot.ID ⟨annot.References, annot.Group, annot.URI⟩ chatID mid
              res]).length ≤ 1 :=
        fun res => ⟨rfl, by simp [sends, Event.isSend]⟩
      split
      · exact ⟨_, by simp [World.log, htr]; rfl, (hshape _).1, (hshape _).2⟩
      · exact ⟨_, by simp [World.log, htr]; rfl, (hshape _).1, (hshape _).2⟩


/-- C26. Ancestor resolution terminates on a finite chain: with the mutex
free, if following immediate parents from `annot` (the last entry of the
reference chain, resolved by point fetch) reaches a root annotation or an
annotation mapped in the chat after `k` steps, then `handleAnnot` returns,
having made at most `k` point fetches and at most `k + 1` sends. The bound on
the depth of the recursion, which the source does not have, plays no part:
every bound above `k` gives the same result and the same world. -/
theorem handleAnnot_terminates (p : Poller σ τ) (h : hyp.Client σ) (chatID : Int) (k : Nat) :
    ∀ (annot : hyp.Annotation) (w : World σ τ), w.Storage.mu = false →
      Reaches h w.hyp w.Storage chatID k annot →
      ∃ r w' ext,
        (∀ depth, k < depth → handleAnnot p depth annot chatID h w = some (r, w')) ∧
        w'.trace = w.trace ++ ext ∧
        (fetches ext).length ≤ k ∧ (sends ext).length ≤ k + 1 := by
  -- what `handleAnnot` does when the annotation or its parent is mapped, or it is a root
  have hshort : ∀ (annot : hyp.Annotation) (w : World σ τ) (n : Nat), w.Storage.mu = false →
      ((∃ m, w.Storage.MessageID annot.ID chatID = some (.ok m)) ∨
        annot.References.getLast? = none ∨
        ∃ pid m, annot.References.getLast? = some pid ∧
          w.Storage.MessageID pid chatID = some (.ok m)) →
      ∃ r w' ext,
        (∀ depth, 0 < depth → handleAnnot p depth annot chatID h w = some (r, w')) ∧
        w'.trace = w.trace ++ ext ∧
        (fetches ext).length ≤ n ∧ (sends ext).length ≤ n + 1 := by
    intro annot w n hfree hcase
    rcases MessageID_total hfree annot.ID chatID with ⟨m, hm⟩ | hun
    · refine ⟨.ok m, w, [], ?_, by simp, by simp [fetches], by simp [sends]⟩
      intro depth hd
      obtain ⟨d, rfl⟩ : ∃ d, depth = d + 1 := ⟨depth - 1, by omega⟩
      rw [handleAnnot, hm]
    · rcases hcase with ⟨m, hm⟩ | hl | ⟨pid, pm, hl, hpm⟩
      · rw [hm] at hun
        cases hun
      · obtain ⟨ext, htr, hf, hs⟩ := handleAnnotSend_count p annot chatID 0 w
        refine ⟨(handleAnnotSend p annot chatID 0 w).1, (handleAnnotSend p annot chatID 0 w).2,
          ext, ?_, htr, by simp [hf], by omega⟩
        intro depth hd
        obtain ⟨d, rfl⟩ : ∃ d, depth = d + 1 := ⟨depth - 1, by omega⟩
        rw [handleAnnot, hun]
        simp [hl]
      · obtain ⟨ext, htr, hf, hs⟩ := handleAnnotSend_count p annot chatID pm w
        refine ⟨(handleAnnotSend p annot chatID pm w).1, (handleAnnotSend p annot chatID pm w).2,
          ext, ?_, htr, by simp [hf], by omega⟩
        intro depth hd
        obtain ⟨d, rfl⟩ : ∃ d, depth = d + 1 := ⟨depth - 1, by omega⟩
        rw [handleAnnot, hun]
        simp [hl, hpm]
  induction k with
  | zero =>
    intro annot w hfree hchain
    rcases hchain with hl | hm
    · exact hshort annot w 0 hfree (Or.inr (Or.inl hl))
    · rcases MessageID_total hfree annot.ID chatID with hok | hun
      · exact hshort annot w 0 hfree (Or.inl hok)
      · rw [db.DbStorage.not_mapped_of_MessageID hun] at hm
        cases hm
  | succ k ih =>
    intro annot w hfree hchain
    obtain ⟨pid, parent, hl, hfetch, hrest⟩ := hchain
    rcases MessageID_total hfree annot.ID chatID with hok | hun
    · obtain ⟨r, w', ext, hd, hrest⟩ := hshort annot w (k + 1) hfree (Or.inl hok)
      exact ⟨r, w', ext, fun depth hlt => hd depth (by omega), hrest⟩
    rcases MessageID_total hfree pid chatID with ⟨pm, hpm⟩ | hpun
    · obtain ⟨r, w', ext, hd, hrest⟩ :=
        hshort annot w (k + 1) hfree (Or.inr (Or.inr ⟨pid, pm, hl, hpm⟩))
      exact ⟨r, w', ext, fun depth hlt => hd depth (by omega), hrest⟩
    obtain ⟨r1, w1, ext1, hrec, htr1, hf1, hs1⟩ :=
      ih parent (w.log (Event.Annotation pid (.ok parent))) hfree hrest
    cases r1 with
    | error aerr =>
      refine ⟨.error (Error.Errorf "failed to post ancestors of %q starting from %q: %v"
          [annot.ID, pid, aerr.text]), w1, Event.Annotation pid (.ok parent) :: ext1, ?_,
        by rw [htr1]; simp [World.log], ?_, ?_⟩
      · intro depth hd
        obtain ⟨d, rfl⟩ : ∃ d, depth = d + 1 := ⟨depth - 1, by omega⟩
        rw [handleAnnot, hun]
        simp only [ne_eq, not_true_eq_false, ↓reduceIte, hl, hpun, handleAncestor, hfetch,
          hrec d (by omega)]
      · have hfe : fetches (Event.Annotation pid (.ok parent) :: ext1) = pid :: fetches ext1 := by
          simp [fetches, Event.fetched?]
        rw [hfe, List.length_cons]
        omega
      · have hse : sends (Event.Annotation pid (.ok parent) :: ext1) = sends ext1 := by
          simp [sends, Event.isSend]
        rw [hse]
        omega
    | ok pm =>
      obtain ⟨ext2, htr2, hf2, hs2⟩ := handleAnnotSend_count p annot chatID pm w1
      refine ⟨(handleAnnotSend p annot chatID pm w1).1, (handleAnnotSend p annot chatID pm w1).2,
        Event.Annotation pid (.ok parent) :: (ext1 ++ ext2), ?_,
        by rw [htr2, htr1]; simp [World.log], ?_, ?_⟩
      · intro depth hd
        obtain ⟨d, rfl⟩ : ∃ d, depth = d + 1 := ⟨depth - 1, by omega⟩
        rw [handleAnnot, hun]
        simp only [ne_eq, not_true_eq_false, ↓reduceIte, hl, hpun, handleAncestor, hfetch,
          hrec d (by omega)]
      · have hfe : fetches (Event.Annotation pid (.ok parent) :: (ext1 ++ ext2))
            = pid :: (fetches ext1 ++ fetches ext2) := by
          simp [fetches, Event.fetched?]
        rw [hfe, hf2, List.append_nil, List.length_cons]
        omega
      · have hse : sends (Event.Annotation pid (.ok parent) :: (ext1 ++ ext2))
            = sends ext1 ++ sends ext2 := by
          simp [sends, Event.isSend]
        rw [hse, List.length_append]
        omega


open sample in
/-- Witness of C26, on test `TestHandleSub_ReplyToUnposted`: `a2` replies to
the root `a1`; one step, one point fetch, two sends, the same with a bound of
2 and of 9. -/
theorem handleAnnot_terminates_witness :
    ∃ w', handleAnnot sample.poller 2 a2 42 client (world [a1, a2] 1000000000) = some (.ok 2, w') ∧
      handleAnnot sample.poller 9 a2 42 client (world [a1, a2] 1000000000) = some (.ok 2, w') ∧
      (fetches w'.trace).length = 1 ∧ (sends w'.trace).length = 2 := by
  obtain ⟨r, w', ext, hd, -, -, -⟩ := handleAnnot_terminates sample.poller client 42 1 a2
    (world [a1, a2] 1000000000) rfl ⟨"a1", a1, rfl, rfl, Or.inl rfl⟩
  have heval : handleAnnot sample.poller 2 a2 42 client (world [a1, a2] 1000000000)
      = some (.ok 2, _) := rfl
  have h2 := hd 2 (by omega)
  have h9 := hd 9 (by omega)
  rw [← h2, heval] at h9
  exact ⟨_, heval, h9, rfl, rfl⟩

/-- With the mutex free, `handleAnnot` returns on an annotation from which
the immediate parents reach a root or a mapped annotation in fewer steps than
the bound on the depth. -/
theorem Reaches.halts (p : Poller σ τ) (h : hyp.Client σ) (chatID : Int) (k : Nat) :
    ∀ (annot : hyp.Annotation) (w : World σ τ), w.Storage.mu = false →
      Reaches h w.hyp w.Storage chatID k annot →
      ∀ depth, k < depth → handleAnnot p depth annot chatID h w ≠ none := by
  induction k with
  | zero =>
    intro annot w hfree hchain depth hd
    obtain ⟨d, rfl⟩ : ∃ d, depth = d + 1 := ⟨depth - 1, by omega⟩
    rw [handleAnnot]
    rcases MessageID_total hfree annot.ID chatID with ⟨m, hm⟩ | hun
    · rw [hm]; simp
    · rcases hchain with hl | hm
      · rw [hun]; simp [hl]
      · rw [db.DbStorage.not_mapped_of_MessageID hun] at hm
        cases hm
  | succ k ih =>
    intro annot w hfree hchain depth hd
    obtain ⟨d, rfl⟩ : ∃ d, depth = d + 1 := ⟨depth - 1, by omega⟩
    obtain ⟨pid, parent, hl, hfetch, hrest⟩ := hchain
    rw [handleAnnot]
    rcases MessageID_total hfree annot.ID chatID with ⟨m, hm⟩ | hun
    · rw [hm]; simp
    rcases MessageID_total hfree pid chatID with ⟨pm, hpm⟩ | hpun
    · rw [hun]; simp [hl, hpm]
    have hrec := ih parent (w.log (Event.Annotation pid (.ok parent))) hfree hrest d (by omega)
    cases hout : handleAnnot p d parent chatID h (w.log (Event.Annotation pid (.ok parent))) with
    | none => exact absurd hout hrec
    | some out =>
      obtain ⟨r1, w1⟩ := out
      cases r1 <;> (rw [hun]; simp [hl, hpun, handleAncestor, hfetch, hout])

/-- A range over a batch that was bridged whole ends with the update time of
an annotation of the batch as watermark, the chat unchanged. -/
theorem handleSubRange_last (p : Poller σ τ) (depth : Nat) (h : hyp.Client σ) :
    ∀ (annots : List hyp.Annotation) (sub : common.Subscription) (w : World σ τ)
      (sub' : common.Subscription) (w' : World σ τ),
      handleSubRange p depth h annots sub w = some (false, sub', w') →
      (annots = [] ∧ sub' = sub) ∨ ∃ a ∈ annots, a.Updated = some sub'.SearchAfter := by
  intro annots
  induction annots with
  | nil =>
    intro sub w sub' w' hres
    simp only [handleSubRange, Option.some.injEq, Prod.mk.injEq, true_and] at hres
    exact Or.inl ⟨rfl, hres.1.symm⟩
  | cons annot rest ih =>
    intro sub w sub' w' hres
    rw [handleSubRange] at hres
    cases hup : annot.Updated with
    | none => simp [hup] at hres
    | some t =>
      simp only [hup] at hres
      cases hha : handleAnnot p depth annot sub.ChatID h w with
      | none => simp [hha] at hres
      | some out =>
        obtain ⟨r, w1⟩ := out
        cases r with
        | error e => simp [hha] at hres
        | ok mID =>
          simp only [hha] at hres
          rcases ih _ _ _ _ hres with ⟨-, rfl⟩ | ⟨a, ha, hupd⟩
          · exact Or.inr ⟨annot, by simp, hup⟩
          · exact Or.inr ⟨a, List.mem_cons_of_mem _ ha, hupd⟩

/-- A range returns when each call of `handleAnnot` in it does; the service
and the mutex are then as before. -/
theorem handleSubRange_returns (p : Poller σ τ) (depth : Nat) (h : hyp.Client σ) (service : σ)
    (chatID : Int) (known : List hyp.Annotation)
    (hret : ∀ annot ∈ known, ∀ w : World σ τ, w.hyp = service → w.Storage.mu = false →
      ∃ r w', handleAnnot p depth annot chatID h w = some (r, w')) :
    ∀ (annots : List hyp.Annotation) (sub : common.Subscription) (w : World σ τ),
      (∀ a ∈ annots, a ∈ known) → sub.ChatID = chatID → w.hyp = service →
      w.Storage.mu = false →
      ∃ flag sub' w', handleSubRange p depth h annots sub w = some (flag, sub', w') ∧
        sub'.ChatID = chatID ∧ w'.hyp = service ∧ w'.Storage.mu = false := by
  intro annots
  induction annots with
  | nil =>
    intro sub w _ hchat hhyp hfree
    exact ⟨false, sub, w, rfl, hchat, hhyp, hfree⟩
  | cons annot rest ih =>
    intro sub w hknown hchat hhyp hfree
    rw [handleSubRange]
    cases hup : annot.Updated with
    | none => exact ⟨true, sub, w, rfl, hchat, hhyp, hfree⟩
    | some t =>
      obtain ⟨r, w1, hha⟩ := hret annot (hknown annot (by simp)) w hhyp hfree
      rw [← hchat] at hha
      have hle := (handleAnnot_sound p _ h depth annot w r w1 hha).le
      simp only [hha]
      cases r with
      | error e =>
        exact ⟨true, sub, _, rfl, hchat, hle.hyp.trans hhyp, hle.mu.trans hfree⟩
      | ok mID =>
        simp only
        apply ih
        · intro a ha
          exact hknown a (List.mem_cons_of_mem _ ha)
        · exact hchat
        · exact hle.hyp.trans hhyp
        · simp only [World.log]
          rw [(db.DbStorage.UpdateSubscription_frame _ _).2.2.1]
          exact hle.mu.trans hfree


/-- Fewer annotations are pending after a watermark that is the update time
of one that was pending. -/
theorem pending_lt {known : List hyp.Annotation} {t u : Time} {a : hyp.Annotation}
    (ha : a ∈ known) (hup : a.Updated = some u) (htu : t < u) :
    (pending known u).length < (pending known t).length := by
  have hsub : pending known u = (pending known t).filter (fun a =>
      match a.Updated with
      | some updated => time.After updated u
      | none => false) := by
    unfold pending
    rw [List.filter_filter]
    apply List.filter_congr
    intro b _
    cases hb : b.Updated with
    | none => simp
    | some v =>
      simp only [time.After, Bool.and_eq_true, decide_eq_true_eq]
      by_cases huv : u < v
      · simp [huv, lt_trans htu huv]
      · simp [huv]
  rw [hsub]
  apply List.length_filter_lt_length_iff_exists.2
  refine ⟨a, ?_, ?_⟩
  · unfold pending
    exact List.mem_filter.2 ⟨ha, by simp [hup, time.After, htu]⟩
  · simp [hup, time.After]

/-- The loop of `handleSub` returns within one pass more than there are
annotations pending at its watermark. -/
theorem handleSubLoop_returns (p : Poller σ τ) (depth : Nat) (h : hyp.Client σ) (service : σ)
    (chatID : Int) (known : List hyp.Annotation)
    (hfetch : ∀ t annots, h.AnnotationsAfter service t = .ok annots →
      ∀ a ∈ annots, a ∈ known ∧ ∃ u, a.Updated = some u ∧ t < u)
    (hret : ∀ annot ∈ known, ∀ w : World σ τ, w.hyp = service → w.Storage.mu = false →
      ∃ r w', handleAnnot p depth annot chatID h w = some (r, w')) :
    ∀ (n : Nat) (sub : common.Subscription) (w : World σ τ),
      (pending known sub.SearchAfter).length ≤ n → sub.ChatID = chatID → w.hyp = service →
      w.Storage.mu = false →
      ∀ passes, n < passes → ∃ err sub' w', handleSubLoop p depth h passes sub w
        = some (err, sub', w') := by
  intro n
  induction n with
  | zero =>
    intro sub w hn hchat hhyp hfree passes hpasses
    obtain ⟨q, rfl⟩ : ∃ q, passes = q + 1 := ⟨passes - 1, by omega⟩
    rw [handleSubLoop]
    cases hd : isDone w with
    | mk done w0 =>
      cases done with
      | true => exact ⟨_, _, _, rfl⟩
      | false =>
        obtain ⟨hh0, -, hst0, -, -⟩ := isDone_false hd
        simp only
        cases hres : h.AnnotationsAfter w0.hyp sub.SearchAfter with
        | error e => exact ⟨_, _, _, rfl⟩
        | ok annots =>
          simp only
          split
          · exact ⟨_, _, _, rfl⟩
          · rename_i hne
            exfalso
            cases annots with
            | nil => exact hne rfl
            | cons a rest =>
              rw [hh0, hhyp] at hres
              obtain ⟨hk, u, hup, htu⟩ := hfetch _ _ hres a (by simp)
              have := pending_lt hk hup htu
              omega
  | succ n ih =>
    intro sub w hn hchat hhyp hfree passes hpasses
    obtain ⟨q, rfl⟩ : ∃ q, passes = q + 1 := ⟨passes - 1, by omega⟩
    rw [handleSubLoop]
    cases hd : isDone w with
    | mk done w0 =>
      cases done with
      | true => exact ⟨_, _, _, rfl⟩
      | false =>
        obtain ⟨hh0, -, hst0, -, -⟩ := isDone_false hd
        simp only
        cases hres : h.AnnotationsAfter w0.hyp sub.SearchAfter with
        | error e => exact ⟨_, _, _, rfl⟩
        | ok annots =>
          simp only
          split
          · exact ⟨_, _, _, rfl⟩
          · rename_i hne
            have hres' := hres
            rw [hh0, hhyp] at hres'
            have hall := hfetch _ _ hres'
            obtain ⟨flag, sub1, w2, hrange, hchat1, hhyp1, hfree1⟩ :=
              handleSubRange_returns p depth h service chatID known hret annots sub
                (w0.log (Event.AnnotationsAfter sub.HypToken sub.HypGroup sub.SearchAfter
                  (.ok annots)))
                (fun a ha => (hall a ha).1) hchat (hh0.trans hhyp)
                (by simp only [World.log]; rw [hst0]; exact hfree)
            rw [hrange]
            cases flag with
            | true => exact ⟨_, _, _, rfl⟩
            | false =>
              simp only
              rcases handleSubRange_last p depth h annots sub _ sub1 w2 hrange with
                ⟨hnil, -⟩ | ⟨a, ha, hup⟩
              · rw [hnil] at hne
                exact absurd rfl hne
              · obtain ⟨hk, u, hup', htu⟩ := hall a ha
                rw [hup] at hup'
                cases hup'
                have hlt := pending_lt hk hup htu
                exact ih sub1 w2 (by omega) hchat1 hhyp1 hfree1 q (by omega)

/-- C27, amended. Let the bulk fetch of the client of the subscription, on
the service as it is, return only annotations of a fixed finite list `known`,
each updated strictly after the watermark asked for, in any order; let the
reference chains be finite: from each annotation of `known`, following
immediate parents (the last entry of the reference chain, resolved by point
fetch) reaches within `steps` steps a root annotation or an annotation mapped
in the chat, whatever the store holds; let the mutex be free. Then `handleSub`
returns, within one pass more than there are annotations of `known` updated
after its watermark; the bounds of the model on the depth of the recursion and
on the passes play no part beyond being large enough. Every pass that bridges
its whole batch ends with a watermark strictly greater than the one it asked
with, and with fewer annotations of `known` updated after the watermark. -/
theorem handleSub_terminates (p : Poller σ τ) (sub : common.Subscription)
    (w : World σ τ) (known : List hyp.Annotation) (steps : Nat)
    (hfetch : ∀ t annots,
      (p.Hyp.NewClient sub.HypToken sub.HypGroup).AnnotationsAfter w.hyp t = .ok annots →
      ∀ a ∈ annots, a ∈ known ∧ ∃ u, a.Updated = some u ∧ t < u)
    (hchain : ∀ annot ∈ known, ∀ s : db.DbStorage, ∃ k, k ≤ steps ∧
      Reaches (p.Hyp.NewClient sub.HypToken sub.HypGroup) w.hyp s sub.ChatID k annot)
    (hfree : w.Storage.mu = false) :
    (∀ depth passes, steps < depth → (pending known sub.SearchAfter).length < passes →
      ∃ err sub' w', handleSub p depth passes sub w = some (err, sub', w')) ∧
    (∀ (depth : Nat) (annots : List hyp.Annotation) (sub1 sub2 : common.Subscription)
      (w1 w2 : World σ τ),
      (p.Hyp.NewClient sub.HypToken sub.HypGroup).AnnotationsAfter w.hyp sub1.SearchAfter
        = .ok annots →
      annots ≠ [] →
      handleSubRange p depth (p.Hyp.NewClient sub.HypToken sub.HypGroup) annots sub1 w1
        = some (false, sub2, w2) →
      sub1.SearchAfter < sub2.SearchAfter ∧
      (pending known sub2.SearchAfter).length < (pending known sub1.SearchAfter).length) := by
  constructor
  · intro depth passes hdepth hpasses
    have hret : ∀ annot ∈ known, ∀ w1 : World σ τ, w1.hyp = w.hyp → w1.Storage.mu = false →
        ∃ r w', handleAnnot p depth annot sub.ChatID
          (p.Hyp.NewClient sub.HypToken sub.HypGroup) w1 = some (r, w') := by
      intro annot hmem w1 hhyp hfree1
      obtain ⟨k, hk, hreach⟩ := hchain annot hmem w1.Storage
      rw [← hhyp] at hreach
      have hne := Reaches.halts p _ sub.ChatID k annot w1 hfree1 hreach depth (by omega)
      cases hout : handleAnnot p depth annot sub.ChatID
          (p.Hyp.NewClient sub.HypToken sub.HypGroup) w1 with
      | none => exact absurd hout hne
      | some out => exact ⟨out.1, out.2, rfl⟩
    exact handleSubLoop_returns p depth _ w.hyp sub.ChatID known hfetch hret _ sub w
      (le_refl _) rfl rfl hfree passes hpasses
  · intro depth annots sub1 sub2 w1 w2 hres hne hrange
    rcases handleSubRange_last p depth _ annots sub1 w1 sub2 w2 hrange with
      ⟨hnil, -⟩ | ⟨a, ha, hup⟩
    · exact absurd hnil hne
    · obtain ⟨hk, u, hup', htu⟩ := hfetch _ _ hres a ha
      rw [hup] at hup'
      cases hup'
      exact ⟨htu, pending_lt hk hup htu⟩


end poller

/-- The bulk fetch of the fake client returns annotations of the fake
service, updated strictly after the watermark asked for. -/
theorem fake.NewClient_fetch (now : Time) (token group : String) (parent : fake.HypFactory)
    (t : Time) (annots : List hyp.Annotation)
    (hfetch : (fake.NewClient now token group).AnnotationsAfter parent t = .ok annots) :
    ∀ a ∈ annots, a ∈ parent.Annots ∧ ∃ u, a.Updated = some u ∧ t < u := by
  simp only [fake.NewClient, fake.Hyp.AnnotationsAfter, Except.ok.injEq] at hfetch
  subst hfetch
  intro a ha
  obtain ⟨hmem, hp⟩ := List.mem_filter.1 ha
  refine ⟨hmem, ?_⟩
  cases hu : a.Updated with
  | none => simp [hu] at hp
  | some u =>
    simp only [hu, Bool.and_eq_true, decide_eq_true_eq, time.After] at hp
    exact ⟨u, rfl, hp.2⟩

namespace poller

open sample in
/-- Witness of C27, amended, on test `TestHandleSub_Reply`: two annotations
are updated after the watermark, the reply reaches the root in one step, and
`handleSub` returns within three passes. -/
theorem handleSub_terminates_witness :
    ∃ err sub' w', handleSub sample.poller 2 3 ⟨"ht", "grp", 1000000000, 42⟩
      (world [a1, a2] 1000000000) = some (err, sub', w') := by
  have hthm := handleSub_terminates sample.poller ⟨"ht", "grp", 1000000000, 42⟩
    (world [a1, a2] 1000000000) [a1, a2] 1
    (fun t annots hfetch => fake.NewClient_fetch 0 "ht" "grp" _ t annots hfetch)
    (by
      intro annot hmem s
      rcases List.mem_cons.1 hmem with rfl | hmem
      · exact ⟨0, by omega, Or.inl rfl⟩
      · rw [List.mem_singleton] at hmem
        subst hmem
        exact ⟨1, by omega, "a1", a1, rfl, rfl, Or.inl rfl⟩)
    rfl
  exact hthm.1 2 3 (by decide) (by decide)

open sample in
/-- On two annotations that name each other as parent, neither of them
mapped, `handleAnnot` does not return, whatever the bound on the depth. -/
theorem handleAnnot_looped (depth : Nat) :
    ∀ w : World fake.HypFactory fake.FakeTg, w.hyp = fake.NewHypFactory looped →
      w.Storage.MessageID "a" 42 = some (.error Error.ErrNotFound) →
      w.Storage.MessageID "b" 42 = some (.error Error.ErrNotFound) →
      handleAnnot sample.poller depth (annot "a" 2000000000 ["b"] "A") 42 client w = none ∧
      handleAnnot sample.poller depth (annot "b" 3000000000 ["a"] "B") 42 client w = none := by
  induction depth with
  | zero =>
    intro w _ _ _
    exact ⟨rfl, rfl⟩
  | succ d ih =>
    intro w hhyp ha hb
    have hfa : client.Annotation w.hyp "a" = .ok (annot "a" 2000000000 ["b"] "A") := by
      rw [hhyp]; rfl
    have hfb : client.Annotation w.hyp "b" = .ok (annot "b" 3000000000 ["a"] "B") := by
      rw [hhyp]; rfl
    have hla : (annot "a" 2000000000 ["b"] "A").References.getLast? = some "b" := rfl
    have hlb : (annot "b" 3000000000 ["a"] "B").References.getLast? = some "a" := rfl
    have hida : (annot "a" 2000000000 ["b"] "A").ID = "a" := rfl
    have hidb : (annot "b" 3000000000 ["a"] "B").ID = "b" := rfl
    constructor
    · have hrec := (ih (w.log (Event.Annotation "b" (.ok (annot "b" 3000000000 ["a"] "B"))))
        hhyp ha hb).2
      rw [handleAnnot]
      simp only [hida, ha, hla, hb, handleAncestor, hfb, hrec, ne_eq, not_true_eq_false,
        ↓reduceIte]
    · have hrec := (ih (w.log (Event.Annotation "a" (.ok (annot "a" 2000000000 ["b"] "A"))))
        hhyp ha hb).1
      rw [handleAnnot]
      simp only [hidb, hb, hlb, ha, handleAncestor, hfa, hrec, ne_eq, not_true_eq_false,
        ↓reduceIte]

open sample in
/-- C27 as stated fails. The fake service holds two annotations that name each
other as parent; the fetch returns exactly the annotations of the group
updated strictly after the watermark, the mutex is free, and `handleSub` does
not return: bridging the first annotation of the batch asks for its parent,
which asks for its own parent, the first annotation, without end, whatever the
bounds on the depth of the recursion and on the passes. -/
theorem handleSub_terminates_counterexample :
    (∀ t annots, client.AnnotationsAfter (world looped 1000000000).hyp t = .ok annots →
      ∀ a ∈ annots, a ∈ looped ∧ ∃ u, a.Updated = some u ∧ t < u) ∧
    (world looped 1000000000).Storage.mu = false ∧
    (∀ depth passes, handleSub sample.poller depth passes ⟨"ht", "grp", 1000000000, 42⟩
      (world looped 1000000000) = none) := by
  refine ⟨fun t annots hfetch => fake.NewClient_fetch 0 "ht" "grp" _ t annots hfetch, rfl, ?_⟩
  intro depth passes
  cases passes with
  | zero => rfl
  | succ q =>
    have hloop := (handleAnnot_looped depth
      ((world looped 1000000000).log (Event.AnnotationsAfter "ht" "grp" 1000000000
        (.ok looped))) rfl rfl rfl).1
    have hfetch : client.AnnotationsAfter (world looped 1000000000).hyp 1000000000
        = .ok looped := rfl
    have hdone : isDone (world looped 1000000000) = (false, world looped 1000000000) := rfl
    unfold handleSub
    rw [handleSubLoop]
    simp only [hdone]
    have hcl : sample.poller.Hyp.NewClient "ht" "grp" = client := rfl
    rw [hcl, hfetch]
    simp only [looped, List.length_cons, List.length_nil]
    simp only [handleSubRange, annot]
    simp only [looped, annot] at hloop
    simp [hloop]

end poller

/-! ## Thread ancestry in the store -/

namespace strings

/-- The last element of a list with more than one element is that of its tail. -/
theorem getLast?_cons_of_ne_nil {α : Type} (a : α) {l : List α} (h : l ≠ []) :
    (a :: l).getLast? = l.getLast? := by
  cases l with
  | nil => exact absurd rfl h
  | cons b l => rw [List.getLast?_cons_cons]

/-- A string with a separator in it splits in two pieces at least. -/
theorem splitChars_two (sep : Char) (rest : List Char) :
    ∀ x : List Char, ∃ p q ps, splitChars sep (x ++ sep :: rest) = p :: q :: ps := by
  intro x
  induction x with
  | nil =>
    cases hr : splitChars sep rest with
    | nil => exact absurd hr (splitChars_ne_nil sep rest)
    | cons q ps => exact ⟨[], q, ps, by simp [splitChars, hr]⟩
  | cons c x ih =>
    obtain ⟨p, q, ps, hx⟩ := ih
    by_cases hc : c = sep
    · exact ⟨[], p, q :: ps, by simp [splitChars, hc, ← hx]⟩
    · exact ⟨c :: p, q, ps, by simp [splitChars, hc, hx]⟩

/-- The last piece of a split is the last piece of what follows a separator. -/
theorem splitChars_getLast (sep : Char) (rest : List Char) :
    ∀ x : List Char, (splitChars sep (x ++ sep :: rest)).getLast?
      = (splitChars sep rest).getLast? := by
  intro x
  induction x with
  | nil =>
    simp only [List.nil_append, splitChars, ↓reduceIte]
    exact getLast?_cons_of_ne_nil _ (splitChars_ne_nil sep rest)
  | cons c x ih =>
    obtain ⟨p, q, ps, hx⟩ := splitChars_two sep rest x
    rw [hx] at ih
    have hsplit : splitChars sep ((c :: x) ++ sep :: rest)
        = if c = sep then [] :: splitChars sep (x ++ sep :: rest)
          else
            match splitChars sep (x ++ sep :: rest) with
            | [] => [[c]]
            | piece :: pieces => (c :: piece) :: pieces := rfl
    rw [hsplit, hx]
    rw [List.getLast?_cons_cons] at ih
    by_cases hc : c = sep
    · simp only [hc, ↓reduceIte]
      rw [List.getLast?_cons_cons, List.getLast?_cons_cons]
      exact ih
    · simp only [hc, ↓reduceIte]
      rw [List.getLast?_cons_cons]
      exact ih

/-- Joined and split again, a list keeps its last element when that element
holds no separator. -/
theorem splitChars_joinChars_getLast (sep : Char) :
    ∀ (l : List (List Char)) (last : List Char), l.getLast? = some last → sep ∉ last →
      (splitChars sep (joinChars sep l)).getLast? = some last := by
  intro l
  induction l with
  | nil => intro last h; simp at h
  | cons x rest ih =>
    intro last hlast hsep
    cases rest with
    | nil =>
      simp only [List.getLast?_singleton, Option.some.injEq] at hlast
      subst hlast
      simp [joinChars, splitChars_piece sep x hsep]
    | cons y rest =>
      rw [List.getLast?_cons_cons] at hlast
      rw [joinChars, splitChars_getLast]
      exact ih last hlast hsep

/-- `Split` after `Join` keeps the last element when it holds no separator. -/
theorem Split_Join_getLast (sep : Char) (elems : List String) (last : String)
    (hlast : elems.getLast? = some last) (hsep : sep ∉ last.data) :
    (Split (Join elems sep) sep).getLast? = some last := by
  unfold Split Join
  rw [List.getLast?_map, splitChars_joinChars_getLast sep _ last.data
    (by rw [List.getLast?_map, hlast]; rfl) hsep]
  rfl

end strings


namespace db.DbStorage

/-- The parent of the row that `SetMessageID` inserts is the last entry of
the chain given, when that entry holds no `|`. -/
theorem newRow_parent (s : DbStorage) (a : String) (meta : common.AnnotationMetadata)
    (c m : Int) (parent : String)
    (h : (s.newRow a meta c m).parent? = some parent)
    (hsep : ∀ last, meta.References.getLast? = some last → '|' ∉ last.data) :
    meta.References.getLast? = some parent := by
  unfold newRow AnnotationMessagesRow.parent? at h
  simp only at h
  split at h
  · rename_i refs_str hrefs
    split at hrefs
    · simp only [Option.some.injEq] at hrefs
      subst hrefs
      cases hl : meta.References.getLast? with
      | none =>
        rw [List.getLast?_eq_none_iff] at hl
        rename_i hlen
        simp [hl] at hlen
      | some last =>
        rw [strings.Split_Join_getLast '|' _ last hl (hsep last hl)] at h
        exact h
    · cases hrefs
  · cases h

/-- `SetMessageID` keeps the ancestry closed when the last entry of the chain
given holds no `|` and is mapped in the chat. -/
theorem Closed.after_SetMessageID {s : DbStorage} (hclosed : s.Closed) (a : String)
    (meta : common.AnnotationMetadata) (c m : Int)
    (hparent : ∀ last, meta.References.getLast? = some last →
      '|' ∉ last.data ∧ s.mapped last c = true) :
    (s.SetMessageID a meta c m).2.Closed := by
  cases hset : s.SetMessageID a meta c m with
  | mk e st =>
    cases e with
    | some e =>
      have hst := SetMessageID_err hset
      subst hst
      intro r hr parent hp
      rw [(uriID_frame s meta.URI).1] at hr
      have := hclosed r hr parent hp
      unfold mapped at this ⊢
      rw [(uriID_frame s meta.URI).1]
      exact this
    | none =>
      obtain ⟨-, rfl⟩ := SetMessageID_ok hset
      intro r hr parent hp
      simp only [List.mem_append, List.mem_singleton] at hr
      rcases hr with hr | rfl
      · exact mapped_append (hclosed r hr parent hp) rfl
      · have hlast := newRow_parent s a meta c m parent hp (fun last hl => (hparent last hl).1)
        have hc : (s.newRow a meta c m).chat_id = c := rfl
        rw [hc]
        exact mapped_append (hparent parent hlast).2 rfl

/-- The row behind a successful `AnnotationID`. -/
theorem AnnotationID_mapped {s : DbStorage} {c m : Int} {a : String}
    {meta : common.AnnotationMetadata} (h : s.AnnotationID c m = .ok (a, meta)) :
    s.mapped a c = true ∧ ∃ r ∈ s.AnnotationMessages, r.annot_id = a := by
  unfold AnnotationID at h
  cases hf : List.find? (fun r => r.isAt c m) s.AnnotationMessages with
  | none => simp [hf] at h
  | some r =>
    have hp := List.find?_some hf
    have hmem := List.mem_of_find?_eq_some hf
    have hk : r.chat_id = c ∧ r.message_id = m := by
      simpa [AnnotationMessagesRow.isAt] using hp
    simp only [hf] at h
    split at h
    · cases h
    · simp only [Except.ok.injEq, Prod.mk.injEq] at h
      refine ⟨?_, r, hmem, h.1⟩
      unfold mapped
      exact List.any_eq_true.2 ⟨r, hmem, by simp [AnnotationMessagesRow.isFor, h.1, hk.1]⟩

end db.DbStorage

namespace poller
variable {σ τ : Type}

/-- The second half of `handleAnnot` keeps the ancestry closed when the
parent of the annotation holds no `|` and is mapped in the chat. -/
theorem handleAnnotSend_closed (p : Poller σ τ) (annot : hyp.Annotation) (chatID pm : Int)
    (w : World σ τ) (hclosed : w.Storage.Closed)
    (hparent : ∀ last, annot.References.getLast? = some last →
      '|' ∉ last.data ∧ w.Storage.mapped last chatID = true) :
    (handleAnnotSend p annot chatID pm w).2.Storage.Closed := by
  unfold handleAnnotSend
  split
  · rename_i w1 hd
    rw [(isDone_true hd).1]
    exact hclosed
  · rename_i w1 hd
    obtain ⟨-, -, hst, -, -⟩ := isDone_false hd
    simp only
    split
    · simp only [World.log, hst]
      exact hclosed
    · rename_i mid hsend
      have hc := db.DbStorage.Closed.after_SetMessageID hclosed annot.ID
        ⟨annot.References, annot.Group, annot.URI⟩ chatID mid hparent
      split <;> simpa only [World.log, hst] using hc

/-- A call of `handleAnnot` keeps the ancestry closed, with a client whose
point fetch returns the annotation asked for, when no parent met holds a `|`. -/
theorem Bridged.closed {p : Poller σ τ} {chatID : Int} {h : hyp.Client σ} (hfaithful : h.Faithful)
    {annot : hyp.Annotation} {w w' : World σ τ} {r : Except Error Int}
    (hb : Bridged p chatID h annot w r w') :
    (∀ id a, h.Annotation w.hyp id = .ok a →
      ∀ last, a.References.getLast? = some last → '|' ∉ last.data) →
    (∀ last, annot.References.getLast? = some last → '|' ∉ last.data) →
    w.Storage.Closed → w'.Storage.Closed := by
  induction hb with
  | mapped _ => intro _ _ hc; exact hc
  | root _ hl =>
    intro _ _ hc
    exact handleAnnotSend_closed _ _ _ _ _ hc (fun last hlast => by simp [hl] at hlast)
  | reply _ hl hpm =>
    intro _ hannot hc
    refine handleAnnotSend_closed _ _ _ _ _ hc (fun last hlast => ?_)
    rw [hl] at hlast
    cases hlast
    exact ⟨hannot _ hl, db.DbStorage.mapped_of_MessageID hpm⟩
  | fetchFailed _ _ _ _ => intro _ _ hc; exact hc
  | ancestorFailed _ _ _ hfetch _ ih =>
    intro hplain _ hc
    exact ih hplain (hplain _ _ hfetch) hc
  | @ancestor annot w pid parent pm w1 _ hl _ hfetch hrec ih =>
    intro hplain hannot hc
    have hc1 := ih hplain (hplain _ _ hfetch) hc
    refine handleAnnotSend_closed _ _ _ _ _ hc1 (fun last hlast => ?_)
    rw [hl] at hlast
    cases hlast
    have hm := hrec.mapped_of_ok pm rfl
    rw [hfaithful _ _ _ hfetch] at hm
    exact ⟨hannot _ hl, db.DbStorage.mapped_of_MessageID hm⟩

end poller

namespace tbot
variable {σ τ : Type}

/-- The mappings after a call of `onText` that returns: those before it, or
those after `SetMessageID` for the chain of the parent followed by the parent. -/
theorem onText_rows (tb : Bot σ) (msg : Option tele.Message) (w w' : World σ τ) (out : Outcome)
    (h : onText tb msg w = some (out, w')) :
    w'.Storage.AnnotationMessages = w.Storage.AnnotationMessages ∨
    ∃ (m replyTo : tele.Message) (parentAnnotID : String)
      (parentMeta : common.AnnotationMetadata) (group annotID : String),
      msg = some m ∧ m.ReplyTo = some replyTo ∧
      w.Storage.AnnotationID m.Chat.ID replyTo.ID = .ok (parentAnnotID, parentMeta) ∧
      w'.Storage.AnnotationMessages = (w.Storage.SetMessageID annotID
        ⟨parentMeta.References ++ [parentAnnotID], group, parentMeta.URI⟩
        m.Chat.ID m.ID).2.AnnotationMessages := by
  have hsame : ∀ {o : Outcome}, some (o, w) = some (out, w') →
      w'.Storage.AnnotationMessages = w.Storage.AnnotationMessages := by
    intro o ho
    simp only [Option.some.injEq, Prod.mk.injEq] at ho
    rw [← ho.2]
  unfold onText at h
  split at h
  · exact Or.inl (hsame h)
  · rename_i m
    split at h
    · exact Or.inl (hsame h)
    · rename_i replyTo hreply
      split at h
      · exact Or.inl (hsame h)
      · split at h
        · split at h <;> exact Or.inl (hsame h)
        · rename_i parentAnnotID parentMeta hparent
          split at h
          · split at h <;> exact Or.inl (hsame h)
          · rename_i sub hsub
            split at h
            · cases h
            · rename_i locked hlock
              clear hsame
              have hlocked : locked = { w.Storage with mu := true } := by
                unfold db.DbStorage.Lock at hlock
                split at hlock
                · cases hlock
                · simp only [Option.some.injEq] at hlock
                  exact hlock.symm
              subst hlocked
              simp only at h
              split at h
              · simp only [Option.some.injEq, Prod.mk.injEq] at h
                obtain ⟨-, rfl⟩ := h
                exact Or.inl rfl
              · rename_i text htext
                split at h
                · simp only [Option.some.injEq, Prod.mk.injEq] at h
                  obtain ⟨-, rfl⟩ := h
                  exact Or.inl rfl
                · rename_i annotID hok
                  simp only [Option.some.injEq, Prod.mk.injEq] at h
                  obtain ⟨-, rfl⟩ := h
                  right
                  refine ⟨m, replyTo, parentAnnotID, parentMeta, sub.HypGroup, annotID, rfl,
                    hreply, hparent, ?_⟩
                  simp only [World.log, db.DbStorage.Unlock, db.DbStorage.SetMessageID_mu]

end tbot

/-- The point fetch of the fake client returns an annotation of the fake service. -/
theorem fake.NewClient_fetch_mem (now : Time) (token group : String) (parent : fake.HypFactory)
    (id : String) (a : hyp.Annotation)
    (h : hyp.Client.Annotation (fake.NewClient now token group) parent id = .ok a) :
    a ∈ parent.Annots := by
  simp only [fake.NewClient, fake.Hyp.Annotation] at h
  split at h
  · rename_i found hf
    simp only [Except.ok.injEq] at h
    subst h
    exact List.mem_of_find?_eq_some hf
  · cases h

section
variable {σ τ : Type}

/-- Closure of the ancestry depends on the mappings only. -/
theorem db.DbStorage.Closed.congr {s s' : db.DbStorage}
    (h : s'.AnnotationMessages = s.AnnotationMessages) (hc : s.Closed) : s'.Closed := by
  intro r hr parent hp
  rw [h] at hr
  have := hc r hr parent hp
  unfold db.DbStorage.mapped at this ⊢
  rw [h]
  exact this

/-- C29, amended. Thread ancestry is closed in the store: if before a call
every mapping with a non-empty reference chain has the last entry of its chain
mapped in the same chat, then the same holds after every call of `handleAnnot`
and of `onText` that returns, with an error or without, provided a point fetch
returns the annotation with the id asked for and provided the id of the
immediate parent holds no `|`: for `handleAnnot`, the last entry of the
reference chain of the annotation and of each annotation fetched; for
`onText`, the annotation that the store gives for the message replied to. In
particular a mapping for a reply is only written once its parent is mapped. -/
theorem ancestry_closed (p : poller.Poller σ τ) (tb : tbot.Bot σ) :
    (∀ (depth : Nat) (annot : hyp.Annotation) (chatID : Int) (h : hyp.Client σ)
      (w w' : World σ τ) (r : Except Error Int),
      h.Faithful →
      (∀ id a, h.Annotation w.hyp id = .ok a →
        ∀ last, a.References.getLast? = some last → '|' ∉ last.data) →
      (∀ last, annot.References.getLast? = some last → '|' ∉ last.data) →
      w.Storage.Closed →
      poller.handleAnnot p depth annot chatID h w = some (r, w') → w'.Storage.Closed) ∧
    (∀ (msg : Option tele.Message) (w w' : World σ τ) (out : tbot.Outcome),
      (∀ (m replyTo : tele.Message) (parentAnnotID : String)
        (parentMeta : common.AnnotationMetadata),
        msg = some m → m.ReplyTo = some replyTo →
        w.Storage.AnnotationID m.Chat.ID replyTo.ID = .ok (parentAnnotID, parentMeta) →
        '|' ∉ parentAnnotID.data) →
      w.Storage.Closed →
      tbot.onText tb msg w = some (out, w') → w'.Storage.Closed) := by
  constructor
  · intro depth annot chatID h w w' r hfaithful hplain hannot hclosed hres
    exact (poller.handleAnnot_sound p chatID h depth annot w r w' hres).closed hfaithful
      hplain hannot hclosed
  · intro msg w w' out hids hclosed hres
    rcases tbot.onText_rows tb msg w w' out hres with hrows |
      ⟨m, replyTo, parentAnnotID, parentMeta, group, annotID, hmsg, hreply, hparent, hrows⟩
    · exact hclosed.congr hrows
    · refine db.DbStorage.Closed.congr hrows
        (db.DbStorage.Closed.after_SetMessageID hclosed annotID _ m.Chat.ID m.ID ?_)
      intro last hlast
      simp only [List.getLast?_append, List.getLast?_singleton, Option.or,
        Option.some.injEq] at hlast
      subst hlast
      exact ⟨hids m replyTo parentAnnotID parentMeta hmsg hreply hparent,
        (db.DbStorage.AnnotationID_mapped hparent).1⟩

open sample in
/-- Witness of C29, amended, on test `TestHandleSub_ReplyToUnposted`: `a2`
replies to `a1`; after the call both are mapped and the ancestry is closed;
and on test `TestOnText_ReplyToBot`: the annotation made for the chat reply
has the mapped annotation `a0` as parent. -/
theorem ancestry_closed_witness :
    (∃ w', poller.handleAnnot sample.poller 2 a2 42 client (world [a1, a2] 1000000000)
        = some (.ok 2, w') ∧
      w'.Storage.AnnotationMessages.map (fun r => (r.annot_id, r.parent?))
        = [("a1", none), ("a2", some "a1")] ∧
      w'.Storage.Closed) ∧
    (∃ w', tbot.onText bot (some reply) (chatWorld [] "a0" []) = some (.returned none, w') ∧
      w'.Storage.AnnotationMessages.map (fun r => (r.annot_id, r.parent?))
        = [("a0", none), ("a1", some "a0")] ∧
      w'.Storage.Closed) := by
  have hres : poller.handleAnnot sample.poller 2 a2 42 client (world [a1, a2] 1000000000)
      = some (.ok 2, _) := rfl
  have hthm := (ancestry_closed sample.poller bot).1 2 a2 42 client
    (world [a1, a2] 1000000000) _ _ (fake.NewClient_faithful 0 "ht" "grp")
    (by
      intro id a hfetch last hlast
      have hmem := fake.NewClient_fetch_mem 0 "ht" "grp" _ id a hfetch
      rcases List.mem_cons.1 hmem with rfl | hmem
      · cases hlast
      · rw [List.mem_singleton] at hmem
        subst hmem
        cases hlast
        decide)
    (by
      intro last hlast
      cases hlast
      decide)
    (by
      intro r hr
      cases hr)
    hres
  have hbot : tbot.onText bot (some reply) (chatWorld [] "a0" []) = some (.returned none, _) := rfl
  have hthm2 := (ancestry_closed sample.poller bot).2 (some reply) (chatWorld [] "a0" []) _ _
    (by
      intro m replyTo parentAnnotID parentMeta hmsg hreply hparent
      cases hmsg
      have hto : replyTo = .mk 2 ⟨1⟩ none "" none := by
        have : some (tele.Message.mk 2 ⟨1⟩ none "" none) = some replyTo := hreply
        exact (Option.some.inj this).symm
      subst hto
      have hread : (Except.ok ("a0", ⟨[], "g", ""⟩) :
          Except Error (String × common.AnnotationMetadata))
          = .ok (parentAnnotID, parentMeta) := Eq.trans rfl hparent
      simp only [Except.ok.injEq, Prod.mk.injEq] at hread
      rw [← hread.1]
      decide)
    (by
      intro r hr parent hp
      have hrow : r = ⟨"a0", none, "g", 1, 1, 2⟩ := by
        have : r ∈ [(⟨"a0", none, "g", 1, 1, 2⟩ : db.AnnotationMessagesRow)] := hr
        simpa using this
      subst hrow
      cases hp)
    hbot
  exact ⟨⟨_, hres, rfl, hthm⟩, ⟨_, hbot, rfl, hthm2⟩⟩

open sample in
/-- C29 as stated fails: the reply `b` to the root annotation `p|q` is
bridged from an empty store; the store then maps `p|q` and `b`, reads the chain
of `b` back as `p`, `q`, and holds no mapping for `q`. -/
theorem ancestry_closed_counterexample :
    ∃ w', poller.handleAnnot sample.poller 2 pipedReply 42 client
        (world [piped, pipedReply] 1000000000) = some (.ok 2, w') ∧
      w'.Storage.AnnotationMessages.map (fun r => (r.annot_id, r.parent?))
        = [("p|q", none), ("b", some "q")] ∧
      (world [piped, pipedReply] 1000000000).Storage.Closed ∧
      ¬ w'.Storage.Closed := by
  refine ⟨_, rfl, rfl, ?_, ?_⟩
  · intro r hr
    cases hr
  · intro hclosed
    have hq := hclosed ⟨"b", some "p|q", "grp", 1, 42, 2⟩ (by decide) "q" rfl
    exact absurd hq (by decide)

end
/-! ## Lookups while the store mutex is held -/

namespace poller
variable {σ τ : Type}

/-- While the store mutex is held, a lookup of a mapping does not return. -/
theorem MessageID_waits {s : db.DbStorage} (hheld : s.mu = true) (a : String) (c : Int) :
    s.MessageID a c = none := by
  unfold db.DbStorage.MessageID db.DbStorage.Lock
  simp [hheld]

/-- While the store mutex is held, as it is in `onText` from before the
`Reply` call until after the mapping is written, a call of `handleAnnot` does
not return: it waits at its first lookup, before any `Send` or `SetMessageID`. -/
theorem handleAnnot_waits (p : Poller σ τ) (depth : Nat) (annot : hyp.Annotation) (chatID : Int)
    (h : hyp.Client σ) (w : World σ τ) (hheld : w.Storage.mu = true) :
    handleAnnot p depth annot chatID h w = none := by
  cases depth with
  | zero => rfl
  | succ d =>
    rw [handleAnnot, MessageID_waits hheld]

end poller

end Irsal
